import Mathlib

/-!
# Colour-histogram segmentation (`main.cpp`): shallow embedding and properties

The embedding follows `src/main.cpp` function by function. The arithmetic of the source
is embedded in two readings.

The exact reading (`ColorDistribution`, `getColorDistribution`, `minDistance`,
`recoObject`, `keyB`)

* `float` values are read as exact rationals (`ℚ`): `+`, `-`, `/`, `pow(·, 2)` and the
  comparisons are the exact ones, `static_cast<float>(nb)` is the exact cast, and
  `std::numeric_limits<float>::max()` is the rational number `FLT_MAX`.
* `int` values (`nb`, coordinates, `bloc`) are unbounded integers.
* Events that leave this reading are results of type `Except Fault _`:
  a pixel or vector access outside its bounds (`Fault.outOfBounds`), a `float`
  division whose divisor is zero (`Fault.divByZero`; the source goes on with
  NaN or infinite cells there), and a loop that has not ended when the fuel of the
  model is used up (`Fault.outOfFuel`).

The machine reading (`ColorDistribution32`, `getColorDistribution32`, `minDistance32`,
`keyA32`)

* a `float` is a value of `F32`: a finite rational, `+inf`, `-inf` or a NaN; the result of
  an operation on finite operands is delivered by a `Reading`, which is `binary32`
  (round to nearest, ties to even, 24 significant bits, subnormals, overflow to an
  infinity) or `exactReading` (no rounding);
* the `int` field `nb` is wrapped to 32 bits in two's complement (`wrap32`);
* the local variable `cd` of `getColorDistribution` holds an arbitrary content `uninit`
  before its constructor runs `reset()`.

The properties of the counters of `add`, of the cells after `finished()` and of the values
of `distance` and `minDistance` that depend on rounding, overflow or wrap-around are stated
in the machine reading.
-/

namespace TP4

/-! ## Data model -/

/-- Events after which the exact reading of the source no longer applies. -/
inductive Fault where
  | outOfBounds
  | divByZero
  | outOfFuel
  deriving DecidableEq, Repr

/-- The type `cv::Vec3b`: three 8-bit channels `val[0]`, `val[1]`, `val[2]`. -/
structure Vec3b where
  val0 : Fin 256
  val1 : Fin 256
  val2 : Fin 256
  deriving DecidableEq, Repr

/-- The type `cv::Point`: integer coordinates. -/
structure Point where
  x : Int
  y : Int
  deriving DecidableEq, Repr

/-- The type `cv::Mat` restricted to `CV_8UC3` images: `rows`, `cols` and the pixel
stored at row `y`, column `x` (only the values with `y < rows`, `x < cols` are
pixels of the image). -/
structure Mat where
  rows : Nat
  cols : Nat
  pix : Nat → Nat → Vec3b

/-- The access `input.at<Vec3b>(y, x)`; outside the image the access is undefined in the
source and is a fault here. -/
def Mat.at (m : Mat) (y x : Int) : Except Fault Vec3b :=
  if 0 ≤ y ∧ y < (m.rows : Int) ∧ 0 ≤ x ∧ x < (m.cols : Int) then
    .ok (m.pix y.toNat x.toNat)
  else
    .error .outOfBounds

/-- The struct `ColorDistribution`: `float data[8][8][8]` and `int nb`. -/
structure ColorDistribution where
  data : Fin 8 → Fin 8 → Fin 8 → ℚ
  nb : Int

/-- The constant `std::numeric_limits<float>::max()`, that is `(2^24 - 1) * 2^104`. -/
def FLT_MAX : ℚ := 340282346638528859811704183484516925440

/-- The checked `float` division `a / b`. -/
def fdiv (a b : ℚ) : Except Fault ℚ :=
  if b = 0 then .error .divByZero else .ok (a / b)

/-- The function `std::min(a, b)`: `(b < a) ? b : a`. -/
def fmin (a b : ℚ) : ℚ :=
  if b < a then b else a

/-- The values `lo, lo+1, ..., hi-1` taken by the variable of
`for (int v = lo; v < hi; v++)`. -/
def intRange (lo hi : Int) : List Int :=
  (List.range (hi - lo).toNat).map (fun (n : Nat) => lo + (n : Int))

namespace ColorDistribution

/-! ## `ColorDistribution` -/

/-- The method `reset()`: every cell becomes `0.0` and `nb` becomes `0`. -/
def reset (_cd : ColorDistribution) : ColorDistribution :=
  { data := fun _ _ _ => 0, nb := 0 }

/-- The constructor `ColorDistribution()`: it calls `reset()`. -/
def new : ColorDistribution :=
  reset { data := fun _ _ _ => 0, nb := 0 }

/-- The bin of a channel value: `color.val[c] / 32` (integer division), an index of
`data` because the channel is below 256. -/
def bin (c : Fin 256) : Fin 8 :=
  ⟨c.val / 32, by have := c.isLt; omega⟩

/-- The method `add(color)`: `data[i][j][k] += 1.0f; nb += 1` with
`i, j, k = color.val[0] / 32, color.val[1] / 32, color.val[2] / 32`. -/
def add (cd : ColorDistribution) (color : Vec3b) : ColorDistribution :=
  let i := bin color.val0
  let j := bin color.val1
  let k := bin color.val2
  { data := fun a b c => if a = i ∧ b = j ∧ c = k then cd.data a b c + 1 else cd.data a b c
    nb := cd.nb + 1 }

/-- The method `finished()`: every cell is divided by `static_cast<float>(nb)`. All 512
divisions have the same divisor, so the first one faults exactly when `nb = 0`. -/
def finished (cd : ColorDistribution) : Except Fault ColorDistribution :=
  if (cd.nb : ℚ) = 0 then .error .divByZero
  else .ok { data := fun i j k => cd.data i j k / (cd.nb : ℚ), nb := cd.nb }

/-- The body of the innermost loop of `distance`: the new value of `result` after the
cell `[i][j][k]`. -/
def distanceStep (a other : ColorDistribution) (i j k : Fin 8) (result : ℚ) :
    Except Fault ℚ :=
  let numerator := (a.data i j k - other.data i j k) ^ 2
  let denominator := a.data i j k + other.data i j k
  if denominator ≠ 0 then do
    let q ← fdiv numerator denominator
    pure (result + q)
  else
    pure result

/-- The method `distance(other)`: the three nested loops over `i`, `j`, `k` in `0..7`,
accumulating into `result` from `0.0f`. -/
def distance (a other : ColorDistribution) : Except Fault ℚ :=
  (List.finRange 8).foldlM (fun result i =>
    (List.finRange 8).foldlM (fun result j =>
      (List.finRange 8).foldlM (fun result k =>
        distanceStep a other i j k result) result) result) 0

end ColorDistribution

open ColorDistribution

/-! ## Sampling, minimum distance, segmentation -/

/-- The function `getColorDistribution(input, pt1, pt2)`: `add` for every pixel with
`pt1.y <= y < pt2.y`, `pt1.x <= x < pt2.x`, rows outermost, then `finished()`. -/
def getColorDistribution (input : Mat) (pt1 pt2 : Point) : Except Fault ColorDistribution := do
  let cd ← (intRange pt1.y pt2.y).foldlM (fun cd y =>
    (intRange pt1.x pt2.x).foldlM (fun cd x => do
      let color ← input.at y x
      pure (cd.add color)) cd) ColorDistribution.new
  cd.finished

/-- The function `minDistance(h, hists)`: starting from `FLT_MAX`, the running
`std::min` with `h.distance(hist)` for every `hist` in order. -/
def minDistance (h : ColorDistribution) (hists : List ColorDistribution) : Except Fault ℚ :=
  hists.foldlM (fun minDist hist => do
    let dist ← h.distance hist
    pure (fmin minDist dist)) FLT_MAX

/-- The access `colors[i]` of a `std::vector<Vec3b>`. -/
def vecAt (colors : List Vec3b) (i : Nat) : Except Fault Vec3b :=
  match colors[i]? with
  | some c => .ok c
  | none => .error .outOfBounds

/-- Lines 136-140 of `recoObject`: the two minimum distances of the block histogram and
the colour `(distBackground < distObject) ? colors[0] : colors[1]`. -/
def recoColor (blockHist : ColorDistribution) (col_hists col_hists_object : List ColorDistribution)
    (colors : List Vec3b) : Except Fault Vec3b := do
  let distBackground ← minDistance blockHist col_hists
  let distObject ← minDistance blockHist col_hists_object
  if distBackground < distObject then vecAt colors 0 else vecAt colors 1

/-- Modelled library call `cv::rectangle(img, pt1, pt2, color, FILLED)`: every pixel of the
image inside the rectangle spanned by the two corner points, both corners included,
takes the colour; the other pixels are kept. -/
def rectangle (img : Mat) (pt1 pt2 : Point) (color : Vec3b) : Mat :=
  { rows := img.rows
    cols := img.cols
    pix := fun y x =>
      if y < img.rows ∧ x < img.cols ∧
          min pt1.x pt2.x ≤ (x : Int) ∧ (x : Int) ≤ max pt1.x pt2.x ∧
          min pt1.y pt2.y ≤ (y : Int) ∧ (y : Int) ≤ max pt1.y pt2.y then color
      else img.pix y x }

/-- Lines 131-140 of `recoObject` for the block with origin `(x, y)`: sample the block
between `pt1 = (x, y)` and `pt2 = (x + bloc, y + bloc)` and choose its colour. -/
def recoLabel (input : Mat) (col_hists col_hists_object : List ColorDistribution)
    (colors : List Vec3b) (bloc : Int) (y x : Int) : Except Fault Vec3b := do
  let pt1 : Point := ⟨x, y⟩
  let pt2 : Point := ⟨x + bloc, y + bloc⟩
  let blockHist ← getColorDistribution input pt1 pt2
  recoColor blockHist col_hists col_hists_object colors

/-- The body of the inner loop of `recoObject` for the block with origin `(x, y)`
(lines 131-143): choose the colour of the block, paint the rectangle. -/
def recoBlock (input : Mat) (col_hists col_hists_object : List ColorDistribution)
    (colors : List Vec3b) (bloc : Int) (y x : Int) (reco : Mat) : Except Fault Mat := do
  let pt1 : Point := ⟨x, y⟩
  let pt2 : Point := ⟨x + bloc, y + bloc⟩
  let color ← recoLabel input col_hists col_hists_object colors bloc y x
  pure (rectangle reco pt1 pt2 color)

/-- The loop `for (int v = start; v < limit; v += step) body`, run for at most `fuel`
iterations. -/
def forStep {σ : Type} (body : Int → σ → Except Fault σ) (limit step : Int) :
    Nat → Int → σ → Except Fault σ
  | fuel, v, s =>
    if v < limit then
      match fuel with
      | 0 => .error .outOfFuel
      | n + 1 => do
        let s' ← body v s
        forStep body limit step n (v + step) s'
    else
      .ok s

/-- The function `recoObject(input, col_hists, col_hists_object, colors, bloc)`: the
result image starts as `Mat::zeros(input.rows, input.cols, CV_8UC3)`; the outer loop
runs over `y = 0, bloc, 2*bloc, ... < input.rows`, the inner loop over
`x = 0, bloc, 2*bloc, ... < input.cols`; each loop may use `fuel` iterations. -/
def recoObject (fuel : Nat) (input : Mat) (col_hists col_hists_object : List ColorDistribution)
    (colors : List Vec3b) (bloc : Int) : Except Fault Mat :=
  let reco : Mat := { rows := input.rows, cols := input.cols, pix := fun _ _ => ⟨0, 0, 0⟩ }
  forStep (fun y reco =>
    forStep (fun x reco => recoBlock input col_hists col_hists_object colors bloc y x reco)
      (input.cols : Int) bloc fuel 0 reco)
    (input.rows : Int) bloc fuel 0 reco

/-- The vector `colors` built in `main`: black for the background, `(0, 0, 255)` for the
object. -/
def mainColors : List Vec3b := [⟨0, 0, 0⟩, ⟨0, 0, 255⟩]

/-! ## The capture actions of `main` -/

/-- The constant `width` of `main`. -/
def width : Int := 640

/-- The constant `height` of `main`. -/
def height : Int := 480

/-- The constant `size` of `main`. -/
def size : Int := 50

/-- The constant `bbloc` of the `'b'` handler of `main`. -/
def bbloc : Int := 128

/-- The point `pt1` of `main`: `(width / 2 - size / 2, height / 2 - size / 2)`. -/
def mainPt1 : Point := ⟨width / 2 - size / 2, height / 2 - size / 2⟩

/-- The point `pt2` of `main`: `(width / 2 + size / 2, height / 2 + size / 2)`. -/
def mainPt2 : Point := ⟨width / 2 + size / 2, height / 2 + size / 2⟩

/-- The two reference sets of `main`: `col_hists` (background) and `col_hists_object`. -/
structure Session where
  col_hists : List ColorDistribution
  col_hists_object : List ColorDistribution

/-- The loop `for (int v = start; v <= limit; v += step) body`, run for at most `fuel`
iterations; on integers `v <= limit` is `v < limit + 1`. -/
def forStepLe {σ : Type} (body : Int → σ → Except Fault σ) (limit step : Int)
    (fuel : Nat) (v : Int) (s : σ) : Except Fault σ :=
  forStep body (limit + 1) step fuel v s

/-- The `'b'` handler of `main` (lines 225-243) on the frame `img_input`:
`col_hists.clear()`, then for `y = 0, bbloc, ... <= height - bbloc` and
`x = 0, bbloc, ... <= width - bbloc` the distribution of the tile from `(x, y)` to
`(x + bbloc, y + bbloc)` is pushed to the back of `col_hists`. -/
def keyB (fuel : Nat) (img_input : Mat) (st : Session) : Except Fault Session := do
  let col_hists ← forStepLe (fun y hs =>
    forStepLe (fun x hs => do
      let hist ← getColorDistribution img_input ⟨x, y⟩ ⟨x + bbloc, y + bbloc⟩
      pure (hs ++ [hist])) (width - bbloc) bbloc fuel 0 hs)
    (height - bbloc) bbloc fuel 0 []
  pure { col_hists := col_hists, col_hists_object := st.col_hists_object }

/-- The `'a'` handler of `main` (lines 245-251) on the frame `img_input`: the distribution
of the region from `pt1` to `pt2` is pushed to the back of `col_hists_object`. -/
def keyA (img_input : Mat) (st : Session) : Except Fault Session := do
  let obj_hist ← getColorDistribution img_input mainPt1 mainPt2
  pure { col_hists := st.col_hists, col_hists_object := st.col_hists_object ++ [obj_hist] }

/-- The two block loops of `recoObject` (lines 127-145) around an arbitrary body. -/
def recoLoops {σ : Type} (body : Int → Int → σ → Except Fault σ) (rows cols bloc : Int)
    (fuel : Nat) (s : σ) : Except Fault σ :=
  forStep (fun y s => forStep (fun x s => body y x s) cols bloc fuel 0 s) rows bloc fuel 0 s

/-- The term of the cell `[i][j][k]` in the chi-square sum: `0` when `a + b = 0`,
otherwise `(a - b)^2 / (a + b)`. -/
def chiTerm (a b : ColorDistribution) (i j k : Fin 8) : ℚ :=
  if a.data i j k + b.data i j k = 0 then 0
  else (a.data i j k - b.data i j k) ^ 2 / (a.data i j k + b.data i j k)

/-- The chi-square sum over the 512 cells. -/
def chiSquare (a b : ColorDistribution) : ℚ :=
  ∑ i : Fin 8, ∑ j : Fin 8, ∑ k : Fin 8, chiTerm a b i j k

/-- The sum of the 512 cells. -/
def cellSum (d : ColorDistribution) : ℚ :=
  ∑ i : Fin 8, ∑ j : Fin 8, ∑ k : Fin 8, d.data i j k

/-- Every cell is non-negative. -/
def NonNeg (d : ColorDistribution) : Prop :=
  ∀ i j k, 0 ≤ d.data i j k

/-- A finalized distribution: non-negative cells that sum to 1. -/
def Finalized (d : ColorDistribution) : Prop :=
  NonNeg d ∧ cellSum d = 1

/-- The running minimum computed by `minDistance`, over the chi-square sums. -/
def minChi (h : ColorDistribution) (hists : List ColorDistribution) : ℚ :=
  hists.foldl (fun m hist => fmin m (chiSquare h hist)) FLT_MAX

/-- The distribution with `1` in the cell `[i][j][k]`, `0` elsewhere, and `nb` samples. -/
def oneHot (i j k : Fin 8) (nb : Int) : ColorDistribution :=
  { data := fun a b c => if a = i ∧ b = j ∧ c = k then 1 else 0, nb := nb }

/-- A non-empty region `[pt1.x, pt2.x) x [pt1.y, pt2.y)` that lies inside the image. -/
def RegionInside (input : Mat) (pt1 pt2 : Point) : Prop :=
  0 ≤ pt1.x ∧ pt1.x < pt2.x ∧ pt2.x ≤ (input.cols : Int) ∧
  0 ≤ pt1.y ∧ pt1.y < pt2.y ∧ pt2.y ≤ (input.rows : Int)

instance (input : Mat) (pt1 pt2 : Point) : Decidable (RegionInside input pt1 pt2) := by
  unfold RegionInside
  infer_instance

/-- Every pixel of the region `[pt1.x, pt2.x) x [pt1.y, pt2.y)` has the colour `c`. -/
def RegionUniform (input : Mat) (pt1 pt2 : Point) (c : Vec3b) : Prop :=
  ∀ y x : Int, pt1.y ≤ y → y < pt2.y → pt1.x ≤ x → x < pt2.x →
    input.pix y.toNat x.toNat = c

/-- The colours of the pixels of a region in the order of the two loops of
`getColorDistribution`. -/
def regionColors (input : Mat) (pt1 pt2 : Point) : List Vec3b :=
  ((intRange pt1.y pt2.y).map (fun y =>
    (intRange pt1.x pt2.x).map (fun x => input.pix y.toNat x.toNat))).flatten

/-- A 2 x 4 example image: the two left columns are `(255, 0, 0)`, the two right columns
are `(0, 0, 0)`. -/
def splitImage : Mat :=
  { rows := 2, cols := 4, pix := fun _ x => if x < 2 then ⟨255, 0, 0⟩ else ⟨0, 0, 0⟩ }

/-- The coordinates `(y, x)` of the pixels read by `getColorDistribution`, in the order
of its two loops. -/
def regionCoords (pt1 pt2 : Point) : List (Int × Int) :=
  ((intRange pt1.y pt2.y).map (fun y => (intRange pt1.x pt2.x).map (fun x => (y, x)))).flatten

/-- The number of pixels of the region whose three channels `c0`, `c1`, `c2` satisfy
`c0 / 32 = i`, `c1 / 32 = j`, `c2 / 32 = k`. -/
def cellCount (input : Mat) (pt1 pt2 : Point) (i j k : Fin 8) : Nat :=
  (regionCoords pt1 pt2).countP (fun p =>
    decide ((input.pix p.1.toNat p.2.toNat).val0.val / 32 = i.val ∧
      (input.pix p.1.toNat p.2.toNat).val1.val / 32 = j.val ∧
      (input.pix p.1.toNat p.2.toNat).val2.val / 32 = k.val))

/-- The distribution of a region: the counts of `regionColors` divided by their number. -/
def sampleOf (input : Mat) (pt1 pt2 : Point) : ColorDistribution :=
  let cd := (regionColors input pt1 pt2).foldl add ColorDistribution.new
  { data := fun i j k => cd.data i j k / (cd.nb : ℚ), nb := cd.nb }

/-- The values `0, B, 2B, ...` below `limit`: there are `ceil(limit / B)` of them. -/
def stepValues (limit B : Nat) : List Int :=
  (List.range ((limit + B - 1) / B)).map (fun (i : Nat) => (B : Int) * (i : Int))

/-- The block origins `(x, y) = (B * i, B * j)` with `B * i < cols` and `B * j < rows`,
rows outermost. -/
def blockOrigins (rows cols B : Nat) : List (Int × Int) :=
  ((stepValues rows B).map (fun y => (stepValues cols B).map (fun x => (x, y)))).flatten

/-- The pixel at row `y`, column `x` lies in the rectangle spanned by the corner points
`pt1` and `pt2`, both corners included: the pixels that `rectangle` paints. -/
def InRect (pt1 pt2 : Point) (y x : Nat) : Prop :=
  min pt1.x pt2.x ≤ (x : Int) ∧ (x : Int) ≤ max pt1.x pt2.x ∧
  min pt1.y pt2.y ≤ (y : Int) ∧ (y : Int) ≤ max pt1.y pt2.y

instance (pt1 pt2 : Point) (y x : Nat) : Decidable (InRect pt1 pt2 y x) := by
  unfold InRect
  infer_instance

/-- The paint region of the block with origin `o = (x, y)`: the rectangle from `(x, y)` to
`(x + B, y + B)`. -/
def InPaint (B : Int) (o : Int × Int) (py px : Nat) : Prop :=
  InRect ⟨o.1, o.2⟩ ⟨o.1 + B, o.2 + B⟩ py px

instance (B : Int) (o : Int × Int) (py px : Nat) : Decidable (InPaint B o py px) := by
  unfold InPaint
  infer_instance

/-- The pixel at row `y`, column `x` lies in the sampled tile `[o.1, o.1 + B) x
[o.2, o.2 + B)` of origin `o = (x0, y0)`. -/
def InTile (B : Int) (o : Int × Int) (y x : Int) : Prop :=
  o.1 ≤ x ∧ x < o.1 + B ∧ o.2 ≤ y ∧ y < o.2 + B

instance (B : Int) (o : Int × Int) (y x : Int) : Decidable (InTile B o y x) := by
  unfold InTile
  infer_instance

/-- The origins `(128 * i, 128 * j)`, `i < 5`, `j < 3`, rows outermost. -/
def bgTiles : List (Int × Int) :=
  ((List.range 3).map (fun (j : Nat) =>
    (List.range 5).map (fun (i : Nat) => ((128 : Int) * (i : Int), (128 : Int) * (j : Int))))).flatten

/-- A 640 x 480 example frame whose pixels are all `(255, 0, 0)`. -/
def redFrame : Mat :=
  { rows := 480, cols := 640, pix := fun _ _ => ⟨255, 0, 0⟩ }

/-- The distribution with the value `v` in the cell `[i][j][k]` and `0` elsewhere. -/
def spike (i j k : Fin 8) (v : ℚ) : ColorDistribution :=
  { data := fun a b c => if a = i ∧ b = j ∧ c = k then v else 0, nb := 1 }

/-- The colour of the block with origin `o = (x, y)` when the block lies inside the image
and `colors[0] = c0`, `colors[1] = c1`: `c0` when the sampled block is strictly nearer to
the background set than to the object set, `c1` otherwise. -/
def labelOf (input : Mat) (col_hists col_hists_object : List ColorDistribution)
    (c0 c1 : Vec3b) (B : Int) (o : Int × Int) : Vec3b :=
  if minChi (sampleOf input ⟨o.1, o.2⟩ ⟨o.1 + B, o.2 + B⟩) col_hists
      < minChi (sampleOf input ⟨o.1, o.2⟩ ⟨o.1 + B, o.2 + B⟩) col_hists_object then c0
  else c1

/-! ## The machine reading: binary32 `float` and 32-bit `int` -/

/-- A `float` value: a finite value (kept as the rational number it stands for; the sign
of a zero is not kept), an infinity, or a NaN. -/
inductive F32 where
  | fin (q : ℚ)
  | pinf
  | ninf
  | nan
  deriving DecidableEq

/-- The integer nearest to `q`, a tie going to the even one. -/
def roundHalfEven (q : ℚ) : Int :=
  let f := ⌊q⌋
  if q - (f : ℚ) < 1 / 2 then f
  else if 1 / 2 < q - (f : ℚ) then f + 1
  else if f % 2 = 0 then f else f + 1

/-- The spacing of the binary32 values around `x`: `2 ^ (e - 23)` with
`e = max (floor (log2 |x|)) (-126)` (24 significant bits, subnormals below `2 ^ -126`). -/
def quantum (x : ℚ) : ℚ :=
  (2 : ℚ) ^ (max (Int.log 2 |x|) (-126) - 23)

/-- The value `x` rounded to the binary32 grid, to nearest, ties to even, before the
test of overflow. -/
def roundQ (x : ℚ) : ℚ :=
  if x = 0 then 0 else (roundHalfEven (x / quantum x) : ℚ) * quantum x

/-- The `float` that a real result `x` is delivered as in binary32 arithmetic: `x`
rounded, an infinity when the rounded value is beyond `FLT_MAX`. -/
def F32.ofRat (x : ℚ) : F32 :=
  if FLT_MAX < roundQ x then .pinf
  else if roundQ x < -FLT_MAX then .ninf
  else .fin (roundQ x)

/-- A reading of the `float` arithmetic: how the real result of an operation on finite
operands is delivered. -/
abbrev Reading := ℚ → F32

/-- The binary32 reading: results are rounded, and overflow to an infinity. -/
def binary32 : Reading := F32.ofRat

/-- The exact reading: results are delivered as they are. -/
def exactReading : Reading := F32.fin

namespace F32

/-- The `float` sum `a + b`. -/
def add (R : Reading) : F32 → F32 → F32
  | .fin a, .fin b => R (a + b)
  | .nan, _ => .nan
  | _, .nan => .nan
  | .pinf, .ninf => .nan
  | .ninf, .pinf => .nan
  | .pinf, _ => .pinf
  | _, .pinf => .pinf
  | .ninf, _ => .ninf
  | _, .ninf => .ninf

/-- The `float` difference `a - b`. -/
def sub (R : Reading) : F32 → F32 → F32
  | .fin a, .fin b => R (a - b)
  | .nan, _ => .nan
  | _, .nan => .nan
  | .pinf, .pinf => .nan
  | .ninf, .ninf => .nan
  | .pinf, _ => .pinf
  | _, .ninf => .pinf
  | .ninf, _ => .ninf
  | _, .pinf => .ninf

/-- The `float` quotient `a / b`; a zero divisor is the positive zero (the only zero
divisor of the source is `static_cast<float>(0)`). -/
def div (R : Reading) : F32 → F32 → F32
  | .nan, _ => .nan
  | _, .nan => .nan
  | .fin a, .fin b =>
    if b = 0 then (if a = 0 then .nan else if 0 < a then .pinf else .ninf)
    else R (a / b)
  | .fin _, .pinf => .fin 0
  | .fin _, .ninf => .fin 0
  | .pinf, .fin b => if 0 ≤ b then .pinf else .ninf
  | .ninf, .fin b => if 0 ≤ b then .ninf else .pinf
  | .pinf, .pinf => .nan
  | .pinf, .ninf => .nan
  | .ninf, .pinf => .nan
  | .ninf, .ninf => .nan

/-- The value `float numerator = pow(x, 2)`: `pow` computes in `double`, where the square
of a `float` is exact, and the assignment converts the square to `float`. -/
def sq (R : Reading) : F32 → F32
  | .fin a => R (a * a)
  | .nan => .nan
  | .pinf => .pinf
  | .ninf => .pinf

/-- The comparison `a < b` of two `float`s: false when one of them is a NaN. -/
def lt : F32 → F32 → Bool
  | .fin a, .fin b => decide (a < b)
  | .nan, _ => false
  | _, .nan => false
  | .ninf, .ninf => false
  | .ninf, _ => true
  | _, .ninf => false
  | .pinf, _ => false
  | _, .pinf => true

/-- The comparison `a != 0.0f`: true for an infinity and for a NaN. -/
def ne0 : F32 → Bool
  | .fin a => decide (a ≠ 0)
  | _ => true

/-- The conversion `static_cast<float>(z)` of an `int`. -/
def ofInt (R : Reading) (z : Int) : F32 := R (z : ℚ)

end F32

/-- The value of an `int` after an arithmetic step whose exact result is `z`: the result
wrapped to 32 bits in two's complement (signed overflow is undefined in C++; it wraps on
the usual targets). -/
def wrap32 (z : Int) : Int := (z + 2 ^ 31) % 2 ^ 32 - 2 ^ 31

/-- The struct `ColorDistribution` in the machine reading: `float data[8][8][8]` and the
32-bit `int nb`. -/
structure ColorDistribution32 where
  data : Fin 8 → Fin 8 → Fin 8 → F32
  nb : Int

namespace ColorDistribution32

/-- The method `reset()` (machine reading). -/
def reset (_cd : ColorDistribution32) : ColorDistribution32 :=
  { data := fun _ _ _ => .fin 0, nb := 0 }

/-- The method `add(color)` (machine reading): `data[i][j][k] += 1.0f; nb += 1`. -/
def add (R : Reading) (cd : ColorDistribution32) (color : Vec3b) : ColorDistribution32 :=
  let i := bin color.val0
  let j := bin color.val1
  let k := bin color.val2
  { data := fun a b c =>
      if a = i ∧ b = j ∧ c = k then F32.add R (cd.data a b c) (.fin 1) else cd.data a b c
    nb := wrap32 (cd.nb + 1) }

/-- The method `finished()` (machine reading): every cell is divided by
`static_cast<float>(nb)`. -/
def finished (R : Reading) (cd : ColorDistribution32) : ColorDistribution32 :=
  { data := fun i j k => F32.div R (cd.data i j k) (F32.ofInt R cd.nb), nb := cd.nb }

/-- The body of the innermost loop of `distance` (machine reading). -/
def distanceStep (R : Reading) (a other : ColorDistribution32) (i j k : Fin 8)
    (result : F32) : F32 :=
  let numerator := F32.sq R (F32.sub R (a.data i j k) (other.data i j k))
  let denominator := F32.add R (a.data i j k) (other.data i j k)
  if F32.ne0 denominator then F32.add R result (F32.div R numerator denominator)
  else result

/-- The method `distance(other)` (machine reading). -/
def distance (R : Reading) (a other : ColorDistribution32) : F32 :=
  (List.finRange 8).foldl (fun result i =>
    (List.finRange 8).foldl (fun result j =>
      (List.finRange 8).foldl (fun result k =>
        distanceStep R a other i j k result) result) result) (.fin 0)

end ColorDistribution32

/-- The function `getColorDistribution` (machine reading); `uninit` is the content of the
local variable `cd` before its constructor runs `reset()`. -/
def getColorDistribution32 (R : Reading) (input : Mat) (pt1 pt2 : Point)
    (uninit : ColorDistribution32) : Except Fault ColorDistribution32 := do
  let cd ← (intRange pt1.y pt2.y).foldlM (fun cd y =>
    (intRange pt1.x pt2.x).foldlM (fun cd x => do
      let color ← input.at y x
      pure (ColorDistribution32.add R cd color)) cd) (ColorDistribution32.reset uninit)
  pure (ColorDistribution32.finished R cd)

/-- The function `std::min(a, b)` on `float`s: `(b < a) ? b : a`. -/
def fmin32 (a b : F32) : F32 :=
  if F32.lt b a then b else a

/-- The function `minDistance` (machine reading). -/
def minDistance32 (R : Reading) (h : ColorDistribution32) (hists : List ColorDistribution32) :
    F32 :=
  hists.foldl (fun minDist hist => fmin32 minDist (ColorDistribution32.distance R h hist))
    (.fin FLT_MAX)

/-- The two reference sets of `main` (machine reading). -/
structure Session32 where
  col_hists : List ColorDistribution32
  col_hists_object : List ColorDistribution32

/-- The `'a'` handler of `main` (machine reading). -/
def keyA32 (R : Reading) (img_input : Mat) (st : Session32) (uninit : ColorDistribution32) :
    Except Fault Session32 := do
  let obj_hist ← getColorDistribution32 R img_input mainPt1 mainPt2 uninit
  pure { col_hists := st.col_hists, col_hists_object := st.col_hists_object ++ [obj_hist] }

/-- The exact distribution `cd` seen as a machine one. -/
def lift (cd : ColorDistribution) : ColorDistribution32 :=
  { data := fun i j k => .fin (cd.data i j k), nb := cd.nb }

/-- The machine distribution with the value `v` in the cell `[i][j][k]`, `0.0` in the
other cells. -/
def spike32 (i j k : Fin 8) (v : ℚ) (nb : Int) : ColorDistribution32 :=
  { data := fun a b c => if a = i ∧ b = j ∧ c = k then .fin v else .fin 0, nb := nb }

/-- Every cell is a finite value in `[0, 1]`, as the cells of a finalized distribution
are. -/
def UnitCells (d : ColorDistribution32) : Prop :=
  ∀ i j k, ∃ q, d.data i j k = .fin q ∧ 0 ≤ q ∧ q ≤ 1

/-- Every cell is a whole multiple of `2^-48` in `[0, 1]`: the value `0.0f` and every
`float` in `[2^-25, 1]` are such multiples. -/
def GridCells (d : ColorDistribution32) : Prop :=
  ∀ i j k, ∃ m : Nat, d.data i j k = .fin ((m : ℚ) * (2 : ℚ) ^ (-48 : Int)) ∧
    (m : ℚ) * (2 : ℚ) ^ (-48 : Int) ≤ 1

/-- A 4097 x 4097 example image whose pixels are all `(255, 0, 0)`. -/
def bigRedImage : Mat :=
  { rows := 4097, cols := 4097, pix := fun _ _ => ⟨255, 0, 0⟩ }

/-! ## Loops -/

theorem foldlM_ok {σ α : Type} (f : σ → α → Except Fault σ) (g : σ → α → σ)
    (h : ∀ s x, f s x = .ok (g s x)) (l : List α) (s : σ) :
    l.foldlM f s = .ok (l.foldl g s) := by
  induction l generalizing s with
  | nil => rfl
  | cons x xs ih =>
    rw [List.foldlM_cons, h]
    exact ih (g s x)

theorem foldl_add_eq {α : Type} (c : α → ℚ) (l : List α) (s : ℚ) :
    l.foldl (fun r x => r + c x) s = s + (l.map c).sum := by
  induction l generalizing s with
  | nil => simp
  | cons x xs ih =>
    rw [List.foldl_cons, ih, List.map_cons, List.sum_cons]
    ring

theorem foldl_finRange_add (c : Fin 8 → ℚ) (s : ℚ) :
    (List.finRange 8).foldl (fun r x => r + c x) s = s + ∑ i : Fin 8, c i := by
  rw [foldl_add_eq, Fin.sum_univ_def]

/-! ## `distance` -/

theorem distanceStep_eq (a b : ColorDistribution) (i j k : Fin 8) (r : ℚ) :
    distanceStep a b i j k r = .ok (r + chiTerm a b i j k) := by
  unfold distanceStep chiTerm fdiv
  by_cases h : a.data i j k + b.data i j k = 0
  · simp [h]
    rfl
  · simp [h]

theorem distance_eq (a b : ColorDistribution) :
    a.distance b = .ok (chiSquare a b) := by
  unfold ColorDistribution.distance chiSquare
  have hk : ∀ (i j : Fin 8) (r : ℚ),
      (List.finRange 8).foldlM (fun result k => distanceStep a b i j k result) r
        = .ok (r + ∑ k : Fin 8, chiTerm a b i j k) := by
    intro i j r
    rw [foldlM_ok _ (fun r k => r + chiTerm a b i j k) (fun s x => distanceStep_eq a b i j x s)]
    rw [foldl_finRange_add]
  have hj : ∀ (i : Fin 8) (r : ℚ),
      (List.finRange 8).foldlM (fun result j =>
        (List.finRange 8).foldlM (fun result k => distanceStep a b i j k result) result) r
        = .ok (r + ∑ j : Fin 8, ∑ k : Fin 8, chiTerm a b i j k) := by
    intro i r
    rw [foldlM_ok _ (fun r j => r + ∑ k : Fin 8, chiTerm a b i j k) (fun s x => hk i x s)]
    rw [foldl_finRange_add]
  rw [foldlM_ok _ (fun r i => r + ∑ j : Fin 8, ∑ k : Fin 8, chiTerm a b i j k)
    (fun s x => hj x s)]
  rw [foldl_finRange_add, zero_add]

theorem chiTerm_comm (a b : ColorDistribution) (i j k : Fin 8) :
    chiTerm a b i j k = chiTerm b a i j k := by
  unfold chiTerm
  rw [add_comm (b.data i j k), show (b.data i j k - a.data i j k) ^ 2
    = (a.data i j k - b.data i j k) ^ 2 by ring]

theorem chiTerm_nonneg (a b : ColorDistribution) (ha : NonNeg a) (hb : NonNeg b)
    (i j k : Fin 8) : 0 ≤ chiTerm a b i j k := by
  unfold chiTerm
  split
  · exact le_refl 0
  · exact div_nonneg (sq_nonneg _) (add_nonneg (ha i j k) (hb i j k))

theorem chiTerm_eq_zero_iff (a b : ColorDistribution) (ha : NonNeg a) (hb : NonNeg b)
    (i j k : Fin 8) : chiTerm a b i j k = 0 ↔ a.data i j k = b.data i j k := by
  have h1 := ha i j k
  have h2 := hb i j k
  unfold chiTerm
  split
  · rename_i h0
    constructor
    · intro _
      linarith
    · intro _
      rfl
  · rename_i hne
    rw [div_eq_zero_iff]
    constructor
    · intro h
      rcases h with h | h
      · have := pow_eq_zero_iff (two_ne_zero) |>.mp h
        linarith
      · exact absurd h hne
    · intro h
      left
      rw [h, sub_self]
      ring

theorem chiSquare_comm (a b : ColorDistribution) : chiSquare a b = chiSquare b a := by
  unfold chiSquare
  simp only [chiTerm_comm a b]

theorem chiSquare_nonneg (a b : ColorDistribution) (ha : NonNeg a) (hb : NonNeg b) :
    0 ≤ chiSquare a b := by
  unfold chiSquare
  exact Finset.sum_nonneg fun i _ => Finset.sum_nonneg fun j _ =>
    Finset.sum_nonneg fun k _ => chiTerm_nonneg a b ha hb i j k

theorem chiSquare_eq_zero_iff (a b : ColorDistribution) (ha : NonNeg a) (hb : NonNeg b) :
    chiSquare a b = 0 ↔ a.data = b.data := by
  unfold chiSquare
  have hk : ∀ i j, 0 ≤ ∑ k : Fin 8, chiTerm a b i j k := fun i j =>
    Finset.sum_nonneg fun k _ => chiTerm_nonneg a b ha hb i j k
  have hj : ∀ i, 0 ≤ ∑ j : Fin 8, ∑ k : Fin 8, chiTerm a b i j k := fun i =>
    Finset.sum_nonneg fun j _ => hk i j
  rw [Finset.sum_eq_zero_iff_of_nonneg (fun i _ => hj i)]
  constructor
  · intro h
    funext i j k
    have h1 := h i (Finset.mem_univ i)
    rw [Finset.sum_eq_zero_iff_of_nonneg (fun j _ => hk i j)] at h1
    have h2 := h1 j (Finset.mem_univ j)
    rw [Finset.sum_eq_zero_iff_of_nonneg
      (fun k _ => chiTerm_nonneg a b ha hb i j k)] at h2
    exact (chiTerm_eq_zero_iff a b ha hb i j k).mp (h2 k (Finset.mem_univ k))
  · intro h i _
    refine Finset.sum_eq_zero fun j _ => Finset.sum_eq_zero fun k _ => ?_
    exact (chiTerm_eq_zero_iff a b ha hb i j k).mpr (by rw [h])

theorem fmin_eq_min (a b : ℚ) : fmin a b = min a b := by
  unfold fmin
  split
  · rename_i h
    exact (min_eq_right (le_of_lt h)).symm
  · rename_i h
    exact (min_eq_left (not_lt.mp h)).symm

theorem minDistance_eq (h : ColorDistribution) (hists : List ColorDistribution) :
    minDistance h hists = .ok (minChi h hists) := by
  unfold minDistance minChi
  apply foldlM_ok
  intro s x
  rw [distance_eq]
  rfl

theorem foldl_fmin_le_init {α : Type} (c : α → ℚ) (l : List α) (s : ℚ) :
    l.foldl (fun m x => fmin m (c x)) s ≤ s := by
  induction l generalizing s with
  | nil => exact le_refl s
  | cons x xs ih =>
    rw [List.foldl_cons]
    refine le_trans (ih _) ?_
    rw [fmin_eq_min]
    exact min_le_left _ _

theorem foldl_fmin_le_mem {α : Type} (c : α → ℚ) (l : List α) (s : ℚ) (x : α)
    (hx : x ∈ l) : l.foldl (fun m x => fmin m (c x)) s ≤ c x := by
  induction l generalizing s with
  | nil => cases hx
  | cons y ys ih =>
    rw [List.foldl_cons]
    rcases List.mem_cons.mp hx with h | h
    · subst h
      refine le_trans (foldl_fmin_le_init c ys _) ?_
      rw [fmin_eq_min]
      exact min_le_right _ _
    · exact ih _ h

theorem foldl_fmin_attained {α : Type} (c : α → ℚ) (l : List α) (s : ℚ) :
    l.foldl (fun m x => fmin m (c x)) s = s ∨
      ∃ x ∈ l, l.foldl (fun m x => fmin m (c x)) s = c x := by
  induction l generalizing s with
  | nil => exact Or.inl rfl
  | cons y ys ih =>
    rw [List.foldl_cons]
    rcases ih (fmin s (c y)) with h | ⟨x, hx, h⟩
    · rw [h, fmin_eq_min]
      rcases min_choice s (c y) with h1 | h1
      · exact Or.inl h1
      · exact Or.inr ⟨y, List.mem_cons_self _ _, h1⟩
    · exact Or.inr ⟨x, List.mem_cons_of_mem _ hx, h⟩

theorem minChi_le_mem (h : ColorDistribution) (hists : List ColorDistribution)
    (m : ColorDistribution) (hm : m ∈ hists) : minChi h hists ≤ chiSquare h m :=
  foldl_fmin_le_mem (fun hist => chiSquare h hist) hists FLT_MAX m hm

theorem minChi_attained (h : ColorDistribution) (hists : List ColorDistribution)
    (hne : hists ≠ []) (hlt : ∀ m ∈ hists, chiSquare h m < FLT_MAX) :
    ∃ m ∈ hists, minChi h hists = chiSquare h m := by
  rcases foldl_fmin_attained (fun hist => chiSquare h hist) hists FLT_MAX with h1 | h1
  · obtain ⟨m, hm⟩ := List.exists_mem_of_ne_nil hists hne
    have h2 := minChi_le_mem h hists m hm
    have h3 := hlt m hm
    unfold minChi at h2
    rw [h1] at h2
    exact absurd h3 (not_lt.mpr h2)
  · exact h1

theorem recoColor_eq (blockHist : ColorDistribution)
    (col_hists col_hists_object : List ColorDistribution) (colors : List Vec3b) :
    recoColor blockHist col_hists col_hists_object colors =
      if minChi blockHist col_hists < minChi blockHist col_hists_object then vecAt colors 0
      else vecAt colors 1 := by
  unfold recoColor
  rw [minDistance_eq, minDistance_eq]
  rfl

/-! ## Sampling -/

theorem foldlM_ok_mem {σ α : Type} (f : σ → α → Except Fault σ) (g : σ → α → σ)
    (l : List α) (h : ∀ s, ∀ x ∈ l, f s x = .ok (g s x)) (s : σ) :
    l.foldlM f s = .ok (l.foldl g s) := by
  induction l generalizing s with
  | nil => rfl
  | cons x xs ih =>
    rw [List.foldlM_cons, h s x (List.mem_cons_self _ _)]
    exact ih (fun s y hy => h s y (List.mem_cons_of_mem _ hy)) (g s x)

theorem mem_intRange (lo hi v : Int) : v ∈ intRange lo hi ↔ lo ≤ v ∧ v < hi := by
  unfold intRange
  rw [List.mem_map]
  constructor
  · rintro ⟨n, hn, rfl⟩
    rw [List.mem_range] at hn
    omega
  · rintro ⟨h1, h2⟩
    refine ⟨(v - lo).toNat, ?_, ?_⟩
    · rw [List.mem_range]
      omega
    · omega

theorem length_intRange (lo hi : Int) : (intRange lo hi).length = (hi - lo).toNat := by
  unfold intRange
  rw [List.length_map, List.length_range]

theorem at_inside (input : Mat) (y x : Int) (hy0 : 0 ≤ y) (hy : y < (input.rows : Int))
    (hx0 : 0 ≤ x) (hx : x < (input.cols : Int)) :
    input.at y x = .ok (input.pix y.toNat x.toNat) := by
  unfold Mat.at
  rw [if_pos ⟨hy0, hy, hx0, hx⟩]

theorem getColorDistribution_eq (input : Mat) (pt1 pt2 : Point)
    (hx0 : 0 ≤ pt1.x) (hx : pt2.x ≤ (input.cols : Int))
    (hy0 : 0 ≤ pt1.y) (hy : pt2.y ≤ (input.rows : Int)) :
    getColorDistribution input pt1 pt2 =
      ((regionColors input pt1 pt2).foldl add ColorDistribution.new).finished := by
  unfold getColorDistribution regionColors
  have hrow : ∀ (cd : ColorDistribution), ∀ y ∈ intRange pt1.y pt2.y,
      (intRange pt1.x pt2.x).foldlM (fun cd x => do
        let color ← input.at y x
        pure (cd.add color)) cd
      = .ok (((intRange pt1.x pt2.x).map (fun x => input.pix y.toNat x.toNat)).foldl add cd) := by
    intro cd y hmem
    rw [mem_intRange] at hmem
    rw [List.foldl_map]
    apply foldlM_ok_mem
    intro s x hxm
    rw [mem_intRange] at hxm
    rw [at_inside input y x (by omega) (by omega) (by omega) (by omega)]
    rfl
  rw [foldlM_ok_mem _ (fun cd y =>
    ((intRange pt1.x pt2.x).map (fun x => input.pix y.toNat x.toNat)).foldl add cd) _ hrow]
  rw [List.foldl_flatten, List.foldl_map]
  rfl

theorem length_regionColors (input : Mat) (pt1 pt2 : Point) :
    (regionColors input pt1 pt2).length
      = (pt2.y - pt1.y).toNat * (pt2.x - pt1.x).toNat := by
  unfold regionColors
  rw [List.length_flatten, List.map_map]
  have : (List.length ∘ fun (y : Int) => List.map (fun (x : Int) => input.pix y.toNat x.toNat)
      (intRange pt1.x pt2.x)) = fun _ => (pt2.x - pt1.x).toNat := by
    funext y
    simp [length_intRange]
  rw [this, List.map_const', List.sum_replicate, length_intRange]
  rfl

theorem regionColors_uniform (input : Mat) (pt1 pt2 : Point) (c : Vec3b)
    (h : RegionUniform input pt1 pt2 c) : ∀ v ∈ regionColors input pt1 pt2, v = c := by
  intro v hv
  unfold regionColors at hv
  rw [List.mem_flatten] at hv
  obtain ⟨l, hl, hvl⟩ := hv
  rw [List.mem_map] at hl
  obtain ⟨y, hy, rfl⟩ := hl
  rw [List.mem_map] at hvl
  obtain ⟨x, hx, rfl⟩ := hvl
  rw [mem_intRange] at hy hx
  exact h y x hy.1 hy.2 hx.1 hx.2

theorem sum_indicator (i0 j0 k0 : Fin 8) :
    (∑ i : Fin 8, ∑ j : Fin 8, ∑ k : Fin 8,
      (if i = i0 ∧ j = j0 ∧ k = k0 then (1 : ℚ) else 0)) = 1 := by
  simp only [ite_and, Finset.sum_ite_eq', Finset.mem_univ, if_true]
  simp

theorem cellSum_add (cd : ColorDistribution) (c : Vec3b) :
    cellSum (cd.add c) = cellSum cd + 1 := by
  unfold cellSum ColorDistribution.add
  have h : ∀ i j k : Fin 8,
      (if i = bin c.val0 ∧ j = bin c.val1 ∧ k = bin c.val2 then cd.data i j k + 1
        else cd.data i j k)
      = cd.data i j k + (if i = bin c.val0 ∧ j = bin c.val1 ∧ k = bin c.val2 then 1 else 0) := by
    intro i j k
    split <;> simp
  simp only [h, Finset.sum_add_distrib, sum_indicator]

theorem nonNeg_add (cd : ColorDistribution) (c : Vec3b) (h : NonNeg cd) :
    NonNeg (cd.add c) := by
  intro i j k
  unfold ColorDistribution.add
  have := h i j k
  simp only
  split <;> linarith

theorem nonNeg_foldl_add (l : List Vec3b) (cd : ColorDistribution) (h : NonNeg cd) :
    NonNeg (l.foldl add cd) := by
  induction l generalizing cd with
  | nil => exact h
  | cons c cs ih => exact ih _ (nonNeg_add cd c h)

theorem cellSum_foldl_add (l : List Vec3b) (cd : ColorDistribution) :
    cellSum (l.foldl add cd) = cellSum cd + (l.length : ℚ) := by
  induction l generalizing cd with
  | nil => simp
  | cons c cs ih =>
    rw [List.foldl_cons, ih, cellSum_add, List.length_cons]
    push_cast
    ring

theorem nb_foldl_add (l : List Vec3b) (cd : ColorDistribution) :
    (l.foldl add cd).nb = cd.nb + (l.length : Int) := by
  induction l generalizing cd with
  | nil => simp
  | cons c cs ih =>
    rw [List.foldl_cons, ih, List.length_cons]
    unfold ColorDistribution.add
    push_cast
    ring

theorem data_foldl_add_uniform (l : List Vec3b) (c : Vec3b) (h : ∀ v ∈ l, v = c)
    (cd : ColorDistribution) (i j k : Fin 8) :
    (l.foldl add cd).data i j k =
      if i = bin c.val0 ∧ j = bin c.val1 ∧ k = bin c.val2 then cd.data i j k + (l.length : ℚ)
      else cd.data i j k := by
  induction l generalizing cd with
  | nil => simp
  | cons v vs ih =>
    have hv : v = c := h v (List.mem_cons_self _ _)
    rw [List.foldl_cons, ih (fun w hw => h w (List.mem_cons_of_mem _ hw)), hv,
      List.length_cons]
    unfold ColorDistribution.add
    simp only
    split
    · push_cast
      ring
    · rfl

theorem cellSum_reset (cd : ColorDistribution) : cellSum cd.reset = 0 := by
  unfold cellSum ColorDistribution.reset
  simp

theorem nonNeg_reset (cd : ColorDistribution) : NonNeg cd.reset := by
  intro i j k
  exact le_refl 0

theorem cell_le_cellSum (d : ColorDistribution) (h : NonNeg d) (i j k : Fin 8) :
    d.data i j k ≤ cellSum d := by
  unfold cellSum
  calc d.data i j k
      ≤ ∑ c : Fin 8, d.data i j c :=
        Finset.single_le_sum (f := fun c => d.data i j c) (fun c _ => h i j c)
          (Finset.mem_univ k)
    _ ≤ ∑ b : Fin 8, ∑ c : Fin 8, d.data i b c :=
        Finset.single_le_sum (f := fun b => ∑ c : Fin 8, d.data i b c)
          (fun b _ => Finset.sum_nonneg fun c _ => h i b c) (Finset.mem_univ j)
    _ ≤ ∑ a : Fin 8, ∑ b : Fin 8, ∑ c : Fin 8, d.data a b c :=
        Finset.single_le_sum (f := fun a => ∑ b : Fin 8, ∑ c : Fin 8, d.data a b c)
          (fun a _ => Finset.sum_nonneg fun b _ => Finset.sum_nonneg fun c _ => h a b c)
          (Finset.mem_univ i)

theorem finished_eq (cd : ColorDistribution) (h : cd.nb ≠ 0) :
    cd.finished = .ok { data := fun i j k => cd.data i j k / (cd.nb : ℚ), nb := cd.nb } := by
  unfold ColorDistribution.finished
  rw [if_neg (by exact_mod_cast h)]

theorem finished_normalised (cd : ColorDistribution) (hnn : NonNeg cd)
    (hsum : cellSum cd = (cd.nb : ℚ)) (hnb : cd.nb ≠ 0) :
    ∃ d, cd.finished = .ok d ∧ (∀ i j k, 0 ≤ d.data i j k ∧ d.data i j k ≤ 1) ∧
      cellSum d = 1 := by
  have hq : (cd.nb : ℚ) ≠ 0 := by exact_mod_cast hnb
  have hpos : (0 : ℚ) < (cd.nb : ℚ) := by
    have h0 : 0 ≤ cellSum cd := by
      unfold cellSum
      exact Finset.sum_nonneg fun i _ => Finset.sum_nonneg fun j _ =>
        Finset.sum_nonneg fun k _ => hnn i j k
    rw [hsum] at h0
    exact lt_of_le_of_ne h0 (Ne.symm hq)
  refine ⟨_, finished_eq cd hnb, ?_, ?_⟩
  · intro i j k
    constructor
    · exact div_nonneg (hnn i j k) (le_of_lt hpos)
    · show cd.data i j k / (cd.nb : ℚ) ≤ 1
      rw [div_le_one hpos, ← hsum]
      exact cell_le_cellSum cd hnn i j k
  · unfold cellSum
    simp only [← Finset.sum_div]
    unfold cellSum at hsum
    rw [hsum]
    exact div_self hq

theorem sampled_normalised (cd0 : ColorDistribution) (colors : List Vec3b)
    (hn : 1 ≤ colors.length) :
    ∃ d, (colors.foldl add cd0.reset).finished = .ok d ∧
      (∀ i j k, 0 ≤ d.data i j k ∧ d.data i j k ≤ 1) ∧ cellSum d = 1 := by
  apply finished_normalised
  · exact nonNeg_foldl_add colors _ (nonNeg_reset cd0)
  · rw [cellSum_foldl_add, nb_foldl_add, cellSum_reset]
    show (0 : ℚ) + (colors.length : ℚ) = (((0 : Int) + (colors.length : Int) : Int) : ℚ)
    push_cast
    rfl
  · rw [nb_foldl_add]
    show (0 : Int) + (colors.length : Int) ≠ 0
    omega

theorem regionColors_length_pos (input : Mat) (pt1 pt2 : Point)
    (hin : RegionInside input pt1 pt2) : 1 ≤ (regionColors input pt1 pt2).length := by
  obtain ⟨_, hx, _, _, hy, _⟩ := hin
  rw [length_regionColors]
  have h1 : 1 ≤ (pt2.y - pt1.y).toNat := by omega
  have h2 : 1 ≤ (pt2.x - pt1.x).toNat := by omega
  exact Nat.mul_le_mul h1 h2

theorem getColorDistribution_uniform (input : Mat) (pt1 pt2 : Point) (c : Vec3b)
    (hin : RegionInside input pt1 pt2) (hu : RegionUniform input pt1 pt2 c) :
    getColorDistribution input pt1 pt2 =
      .ok (oneHot (bin c.val0) (bin c.val1) (bin c.val2)
        ((regionColors input pt1 pt2).length : Int)) := by
  have hlen := regionColors_length_pos input pt1 pt2 hin
  obtain ⟨hx0, _, hx, hy0, _, hy⟩ := hin
  rw [getColorDistribution_eq input pt1 pt2 hx0 hx hy0 hy]
  have hnb : ((regionColors input pt1 pt2).foldl add ColorDistribution.new).nb
      = ((regionColors input pt1 pt2).length : Int) := by
    rw [nb_foldl_add]
    show (0 : Int) + _ = _
    rw [zero_add]
  have hne : ((regionColors input pt1 pt2).foldl add ColorDistribution.new).nb ≠ 0 := by
    rw [hnb]
    omega
  rw [finished_eq _ hne]
  have hq : ((regionColors input pt1 pt2).length : ℚ) ≠ 0 := by
    have : (regionColors input pt1 pt2).length ≠ 0 := by omega
    exact_mod_cast this
  unfold oneHot
  congr 2
  funext i j k
  rw [data_foldl_add_uniform _ c (regionColors_uniform input pt1 pt2 c hu), hnb]
  show (if _ then (0 : ℚ) + _ else (0 : ℚ)) / _ = _
  split
  · rw [zero_add]
    push_cast
    exact div_self hq
  · exact zero_div _

theorem nonNeg_oneHot (i j k : Fin 8) (n : Int) : NonNeg (oneHot i j k n) := by
  intro a b c
  unfold oneHot
  simp only
  split
  · exact zero_le_one
  · exact le_refl 0

theorem finalized_oneHot (i j k : Fin 8) (n : Int) : Finalized (oneHot i j k n) :=
  ⟨nonNeg_oneHot i j k n, sum_indicator i j k⟩

theorem chiSquare_oneHot_self (i j k : Fin 8) (n m : Int) :
    chiSquare (oneHot i j k n) (oneHot i j k m) = 0 :=
  (chiSquare_eq_zero_iff _ _ (nonNeg_oneHot i j k n) (nonNeg_oneHot i j k m)).mpr rfl

theorem chiSquare_oneHot_ne (i j k i' j' k' : Fin 8) (n m : Int)
    (h : ¬ (i = i' ∧ j = j' ∧ k = k')) :
    chiSquare (oneHot i j k n) (oneHot i' j' k' m) = 2 := by
  unfold chiSquare
  have ht : ∀ a b c : Fin 8, chiTerm (oneHot i j k n) (oneHot i' j' k' m) a b c
      = (if a = i ∧ b = j ∧ c = k then (1 : ℚ) else 0)
        + (if a = i' ∧ b = j' ∧ c = k' then (1 : ℚ) else 0) := by
    intro a b c
    unfold chiTerm oneHot
    by_cases h1 : a = i ∧ b = j ∧ c = k
    · by_cases h2 : a = i' ∧ b = j' ∧ c = k'
      · exfalso
        apply h
        obtain ⟨e1, e2, e3⟩ := h1
        obtain ⟨f1, f2, f3⟩ := h2
        exact ⟨e1.symm.trans f1, e2.symm.trans f2, e3.symm.trans f3⟩
      · simp only [if_pos h1, if_neg h2]
        norm_num
    · by_cases h2 : a = i' ∧ b = j' ∧ c = k'
      · simp only [if_neg h1, if_pos h2]
        norm_num
      · simp only [if_neg h1, if_neg h2]
        norm_num
  simp only [ht, Finset.sum_add_distrib, sum_indicator]
  norm_num

theorem minChi_nil (h : ColorDistribution) : minChi h [] = FLT_MAX := rfl

theorem minChi_singleton (h m : ColorDistribution) :
    minChi h [m] = fmin FLT_MAX (chiSquare h m) := rfl

theorem fmin_FLT_MAX_of_lt (v : ℚ) (h : v < FLT_MAX) : fmin FLT_MAX v = v := by
  unfold fmin
  rw [if_pos h]

theorem ok_bind {α β : Type} (a : α) (f : α → Except Fault β) :
    ((Except.ok a : Except Fault α) >>= f) = f a := rfl

theorem recoLabel_eq (input : Mat) (bg obj : List ColorDistribution) (colors : List Vec3b)
    (bloc y x : Int) :
    recoLabel input bg obj colors bloc y x =
      (getColorDistribution input ⟨x, y⟩ ⟨x + bloc, y + bloc⟩ >>= fun blockHist =>
        recoColor blockHist bg obj colors) := rfl

theorem bin_zero : bin 0 = 0 := rfl

theorem bin_255 : bin 255 = 7 := rfl

theorem fmin_FLT_MAX_two : fmin FLT_MAX 2 = 2 :=
  fmin_FLT_MAX_of_lt 2 (by unfold FLT_MAX; norm_num)

theorem fmin_FLT_MAX_zero : fmin FLT_MAX 0 = 0 :=
  fmin_FLT_MAX_of_lt 0 (by unfold FLT_MAX; norm_num)

theorem splitImage_left (y x : Int) (hx : x < 2) :
    splitImage.pix y.toNat x.toNat = ⟨255, 0, 0⟩ := by
  have h : x.toNat < 2 := by omega
  show (if x.toNat < 2 then (⟨255, 0, 0⟩ : Vec3b) else ⟨0, 0, 0⟩) = _
  rw [if_pos h]

theorem splitImage_right (y x : Int) (hx : 2 ≤ x) :
    splitImage.pix y.toNat x.toNat = ⟨0, 0, 0⟩ := by
  have h : ¬ x.toNat < 2 := by omega
  show (if x.toNat < 2 then (⟨255, 0, 0⟩ : Vec3b) else ⟨0, 0, 0⟩) = _
  rw [if_neg h]

theorem splitImage_left_uniform :
    RegionUniform splitImage ⟨0, 0⟩ ⟨2, 2⟩ ⟨255, 0, 0⟩ :=
  fun y x _ _ _ h => splitImage_left y x h

theorem splitImage_right_uniform :
    RegionUniform splitImage ⟨2, 0⟩ ⟨4, 2⟩ ⟨0, 0, 0⟩ :=
  fun y x _ _ h _ => splitImage_right y x h

theorem minChi_tie_example :
    minChi (oneHot 1 0 0 1) [oneHot 0 0 0 1] = 2 ∧
      minChi (oneHot 1 0 0 1) [oneHot 7 0 0 1] = 2 := by
  constructor
  · rw [minChi_singleton, chiSquare_oneHot_ne 1 0 0 0 0 0 _ _ (by decide), fmin_FLT_MAX_two]
  · rw [minChi_singleton, chiSquare_oneHot_ne 1 0 0 7 0 0 _ _ (by decide), fmin_FLT_MAX_two]

/-! ## The claims -/

/-- C1, counterexample: the block histogram `oneHot 1 0 0` is at distance 2 from the
background set and at distance 2 from the object set, and the colour chosen is
`colors[1]` (the object), not `colors[0]`. -/
theorem recoColor_tie_counterexample :
    minDistance (oneHot 1 0 0 1) [oneHot 0 0 0 1] = .ok 2 ∧
    minDistance (oneHot 1 0 0 1) [oneHot 7 0 0 1] = .ok 2 ∧
    recoColor (oneHot 1 0 0 1) [oneHot 0 0 0 1] [oneHot 7 0 0 1] mainColors
      = .ok ⟨0, 0, 255⟩ ∧
    recoColor (oneHot 1 0 0 1) [oneHot 0 0 0 1] [oneHot 7 0 0 1] mainColors
      ≠ vecAt mainColors 0 := by
  have hc : recoColor (oneHot 1 0 0 1) [oneHot 0 0 0 1] [oneHot 7 0 0 1] mainColors
      = .ok ⟨0, 0, 255⟩ := by
    rw [recoColor_eq, minChi_tie_example.1, minChi_tie_example.2, if_neg (lt_irrefl _)]
    rfl
  refine ⟨?_, ?_, hc, ?_⟩
  · rw [minDistance_eq, minChi_tie_example.1]
  · rw [minDistance_eq, minChi_tie_example.2]
  · rw [hc]
    intro h
    have h2 : (⟨0, 0, 255⟩ : Vec3b) = ⟨0, 0, 0⟩ := Except.ok.inj h
    exact absurd h2 (by decide)

/-- C1 (amended): with `dB` and `dO` the minimum distances of the block to the background
set and to the object set, the colour chosen is `colors[1]` (object) when `dB = dO`,
`colors[0]` (background) when `dB < dO`, and `colors[1]` when `dO < dB`: background is
chosen only when its minimum distance is strictly smaller. -/
theorem recoColor_tie_object (blockHist : ColorDistribution)
    (col_hists col_hists_object : List ColorDistribution) (colors : List Vec3b) (dB dO : ℚ)
    (hB : minDistance blockHist col_hists = .ok dB)
    (hO : minDistance blockHist col_hists_object = .ok dO) :
    (dB = dO → recoColor blockHist col_hists col_hists_object colors = vecAt colors 1) ∧
    (dB < dO → recoColor blockHist col_hists col_hists_object colors = vecAt colors 0) ∧
    (dO < dB → recoColor blockHist col_hists col_hists_object colors = vecAt colors 1) := by
  rw [minDistance_eq] at hB hO
  have eB : minChi blockHist col_hists = dB := Except.ok.inj hB
  have eO : minChi blockHist col_hists_object = dO := Except.ok.inj hO
  rw [recoColor_eq, eB, eO]
  refine ⟨fun h => ?_, fun h => ?_, fun h => ?_⟩
  · rw [if_neg (by rw [h]; exact lt_irrefl _)]
  · rw [if_pos h]
  · rw [if_neg (not_lt.mpr (le_of_lt h))]

/-- C1 (amended), witness: the tie of the counterexample gives `colors[1]`. -/
theorem recoColor_tie_object_witness :
    recoColor (oneHot 1 0 0 1) [oneHot 0 0 0 1] [oneHot 7 0 0 1] mainColors
      = vecAt mainColors 1 :=
  (recoColor_tie_object (oneHot 1 0 0 1) [oneHot 0 0 0 1] [oneHot 7 0 0 1] mainColors 2 2
    (by rw [minDistance_eq, minChi_tie_example.1])
    (by rw [minDistance_eq, minChi_tie_example.2])).1 rfl

/-- C3, counterexample: with both reference sets empty the colour chosen for a block is
`colors[1]` (the object colour `(0, 0, 255)`), not `colors[0]`. -/
theorem recoColor_empty_counterexample :
    recoColor (oneHot 0 0 0 1) [] [] mainColors = .ok ⟨0, 0, 255⟩ ∧
    recoColor (oneHot 0 0 0 1) [] [] mainColors ≠ vecAt mainColors 0 := by
  have hc : recoColor (oneHot 0 0 0 1) [] [] mainColors = .ok ⟨0, 0, 255⟩ := by
    rw [recoColor_eq, minChi_nil, if_neg (lt_irrefl _)]
    rfl
  refine ⟨hc, ?_⟩
  rw [hc]
  intro h
  have h2 : (⟨0, 0, 255⟩ : Vec3b) = ⟨0, 0, 0⟩ := Except.ok.inj h
  exact absurd h2 (by decide)

/-- C3 (amended): for every block distribution, when both reference sets are empty the
colour chosen by `recoObject` for the block is `colors[1]` (object). -/
theorem recoColor_empty_sets (blockHist : ColorDistribution) (colors : List Vec3b) :
    recoColor blockHist [] [] colors = vecAt colors 1 := by
  rw [recoColor_eq, minChi_nil, if_neg (lt_irrefl _)]

/-- C7: `distance` is symmetric: `a.distance b = b.distance a` for all distributions. -/
theorem distance_symmetric (a b : ColorDistribution) : a.distance b = b.distance a := by
  rw [distance_eq, distance_eq, chiSquare_comm]

/-- C8: for finalized `a` and `b`, no step of `a.distance b` divides by zero: the step
of a cell adds `chiTerm` to `result`, which is `0` when `a + b = 0` and
`(a - b)^2 / (a + b)` otherwise; the value returned is the sum of these terms and it is
non-negative. -/
theorem distance_nonneg (a b : ColorDistribution) (ha : Finalized a) (hb : Finalized b) :
    (∀ i j k r, distanceStep a b i j k r = .ok (r + chiTerm a b i j k)) ∧
    ∃ v, a.distance b = .ok v ∧ v = chiSquare a b ∧ 0 ≤ v :=
  ⟨fun i j k r => distanceStep_eq a b i j k r,
    chiSquare a b, distance_eq a b, rfl, chiSquare_nonneg a b ha.1 hb.1⟩

/-- C8, witness: two one-cell distributions. -/
theorem distance_nonneg_witness :
    (∀ i j k r, distanceStep (oneHot 0 0 0 1) (oneHot 7 0 0 1) i j k r
      = .ok (r + chiTerm (oneHot 0 0 0 1) (oneHot 7 0 0 1) i j k)) ∧
    ∃ v, (oneHot 0 0 0 1).distance (oneHot 7 0 0 1) = .ok v ∧
      v = chiSquare (oneHot 0 0 0 1) (oneHot 7 0 0 1) ∧ 0 ≤ v :=
  distance_nonneg (oneHot 0 0 0 1) (oneHot 7 0 0 1) (finalized_oneHot 0 0 0 1)
    (finalized_oneHot 7 0 0 1)

theorem intRange_empty (lo hi : Int) (h : hi ≤ lo) : intRange lo hi = [] := by
  unfold intRange
  have : (hi - lo).toNat = 0 := by omega
  rw [this]
  rfl

theorem getColorDistribution_empty (input : Mat) (pt1 pt2 : Point)
    (h : pt2.x ≤ pt1.x ∨ pt2.y ≤ pt1.y) :
    getColorDistribution input pt1 pt2 = ColorDistribution.new.finished := by
  unfold getColorDistribution
  rcases h with h | h
  · rw [intRange_empty pt1.x pt2.x h]
    have hrows : ∀ (l : List Int) (cd : ColorDistribution),
        l.foldlM (fun cd y => ([] : List Int).foldlM (fun cd x => do
          let color ← input.at y x
          pure (cd.add color)) cd) cd = Except.ok cd := by
      intro l
      induction l with
      | nil => intro cd; rfl
      | cons a t ih =>
        intro cd
        rw [List.foldlM_cons, List.foldlM_nil]
        exact ih cd
    rw [hrows]
    rfl
  · rw [intRange_empty pt1.y pt2.y h]
    rfl

theorem regionCoords_empty (pt1 pt2 : Point) (h : pt2.x ≤ pt1.x ∨ pt2.y ≤ pt1.y) :
    regionCoords pt1 pt2 = [] := by
  unfold regionCoords
  rcases h with h | h
  · rw [intRange_empty pt1.x pt2.x h]
    simp
  · rw [intRange_empty pt1.y pt2.y h]
    rfl

/-- C12, the behaviour of the code: for a region without pixels no pixel is read, `nb` is
still `0` when `finished()` runs, and `finished()` divides the cells by zero
(`Fault.divByZero`: the source has no check there and returns the cells `0.0 / 0.0`). -/
theorem getColorDistribution_empty_region (input : Mat) (pt1 pt2 : Point)
    (h : pt2.x ≤ pt1.x ∨ pt2.y ≤ pt1.y) :
    regionCoords pt1 pt2 = [] ∧
    getColorDistribution input pt1 pt2 = ColorDistribution.new.finished ∧
    ColorDistribution.new.nb = 0 ∧
    getColorDistribution input pt1 pt2 = .error .divByZero :=
  ⟨regionCoords_empty pt1 pt2 h, getColorDistribution_empty input pt1 pt2 h, rfl, by
    rw [getColorDistribution_empty input pt1 pt2 h]
    rfl⟩

/-- C12, witness: an empty region of `splitImage`. -/
theorem getColorDistribution_empty_region_witness :
    regionCoords ⟨1, 0⟩ ⟨1, 2⟩ = [] ∧
    getColorDistribution splitImage ⟨1, 0⟩ ⟨1, 2⟩ = ColorDistribution.new.finished ∧
    ColorDistribution.new.nb = 0 ∧
    getColorDistribution splitImage ⟨1, 0⟩ ⟨1, 2⟩ = .error .divByZero :=
  getColorDistribution_empty_region splitImage ⟨1, 0⟩ ⟨1, 2⟩ (Or.inl (le_refl _))

/-! ## The sampler against its reference definition -/

theorem foldlM_flatten_map {σ α β γ : Type} (f : σ → γ → Except Fault σ) (g : α → β → γ)
    (xs : List β) (ys : List α) (s : σ) :
    ((ys.map (fun y => xs.map (fun x => g y x))).flatten).foldlM f s =
      ys.foldlM (fun s y => xs.foldlM (fun s x => f s (g y x)) s) s := by
  induction ys generalizing s with
  | nil => rfl
  | cons y t ih =>
    rw [List.map_cons, List.flatten_cons, List.foldlM_append, List.foldlM_cons, List.foldlM_map]
    congr 1
    funext s'
    exact ih s'

theorem getColorDistribution_coords (input : Mat) (pt1 pt2 : Point) :
    getColorDistribution input pt1 pt2 =
      ((regionCoords pt1 pt2).foldlM (fun cd p => do
        let color ← input.at p.1 p.2
        pure (cd.add color)) ColorDistribution.new >>= fun cd => cd.finished) := by
  unfold getColorDistribution regionCoords
  rw [foldlM_flatten_map (fun (cd : ColorDistribution) (p : Int × Int) => do
        let color ← input.at p.1 p.2
        pure (cd.add color)) (fun (y x : Int) => (y, x))]

theorem mem_regionCoords (pt1 pt2 : Point) (y x : Int) :
    (y, x) ∈ regionCoords pt1 pt2 ↔ pt1.y ≤ y ∧ y < pt2.y ∧ pt1.x ≤ x ∧ x < pt2.x := by
  unfold regionCoords
  rw [List.mem_flatten]
  constructor
  · rintro ⟨l, hl, hm⟩
    rw [List.mem_map] at hl
    obtain ⟨y', hy', rfl⟩ := hl
    rw [List.mem_map] at hm
    obtain ⟨x', hx', he⟩ := hm
    rw [mem_intRange] at hy' hx'
    have h1 : y' = y := congrArg Prod.fst he
    have h2 : x' = x := congrArg Prod.snd he
    subst h1 h2
    exact ⟨hy'.1, hy'.2, hx'.1, hx'.2⟩
  · rintro ⟨h1, h2, h3, h4⟩
    refine ⟨(intRange pt1.x pt2.x).map (fun x => (y, x)), ?_, ?_⟩
    · exact List.mem_map.mpr ⟨y, (mem_intRange _ _ _).mpr ⟨h1, h2⟩, rfl⟩
    · exact List.mem_map.mpr ⟨x, (mem_intRange _ _ _).mpr ⟨h3, h4⟩, rfl⟩

theorem nodup_intRange (lo hi : Int) : (intRange lo hi).Nodup := by
  unfold intRange
  refine List.Nodup.map ?_ (List.nodup_range _)
  intro a b h
  simp only at h
  omega

theorem nodup_regionCoords (pt1 pt2 : Point) : (regionCoords pt1 pt2).Nodup := by
  unfold regionCoords
  rw [List.nodup_flatten]
  constructor
  · intro l hl
    rw [List.mem_map] at hl
    obtain ⟨y, _, rfl⟩ := hl
    refine List.Nodup.map ?_ (nodup_intRange _ _)
    intro a b h
    exact congrArg Prod.snd h
  · rw [List.pairwise_map]
    refine List.Pairwise.imp_of_mem ?_ (nodup_intRange pt1.y pt2.y)
    intro a b _ _ hab
    intro p hp1 hp2
    rw [List.mem_map] at hp1 hp2
    obtain ⟨x1, _, rfl⟩ := hp1
    obtain ⟨x2, _, he⟩ := hp2
    exact hab (congrArg Prod.fst he).symm

theorem regionColors_eq_map (input : Mat) (pt1 pt2 : Point) :
    regionColors input pt1 pt2
      = (regionCoords pt1 pt2).map (fun p => input.pix p.1.toNat p.2.toNat) := by
  unfold regionColors regionCoords
  rw [List.map_flatten, List.map_map]
  congr 1
  apply List.map_congr_left
  intro y _
  show _ = List.map (fun p => input.pix p.1.toNat p.2.toNat)
    (List.map (fun x => (y, x)) (intRange pt1.x pt2.x))
  rw [List.map_map]
  rfl

theorem data_foldl_add_count (l : List Vec3b) (cd : ColorDistribution) (i j k : Fin 8) :
    (l.foldl add cd).data i j k = cd.data i j k +
      (l.countP (fun c => decide (bin c.val0 = i ∧ bin c.val1 = j ∧ bin c.val2 = k)) : ℚ) := by
  induction l generalizing cd with
  | nil => simp
  | cons c cs ih =>
    rw [List.foldl_cons, ih, List.countP_cons]
    unfold ColorDistribution.add
    simp only
    by_cases h : bin c.val0 = i ∧ bin c.val1 = j ∧ bin c.val2 = k
    · have h' : i = bin c.val0 ∧ j = bin c.val1 ∧ k = bin c.val2 :=
        ⟨h.1.symm, h.2.1.symm, h.2.2.symm⟩
      rw [if_pos h', if_pos (decide_eq_true h)]
      push_cast
      ring
    · have h' : ¬ (i = bin c.val0 ∧ j = bin c.val1 ∧ k = bin c.val2) :=
        fun e => h ⟨e.1.symm, e.2.1.symm, e.2.2.symm⟩
      rw [if_neg h', if_neg (by simpa using h)]
      push_cast
      ring

theorem getColorDistribution_sampleOf (input : Mat) (pt1 pt2 : Point)
    (hin : RegionInside input pt1 pt2) :
    getColorDistribution input pt1 pt2 = .ok (sampleOf input pt1 pt2) := by
  have hlen := regionColors_length_pos input pt1 pt2 hin
  obtain ⟨hx0, _, hx, hy0, _, hy⟩ := hin
  rw [getColorDistribution_eq input pt1 pt2 hx0 hx hy0 hy]
  have hne : ((regionColors input pt1 pt2).foldl add ColorDistribution.new).nb ≠ 0 := by
    rw [nb_foldl_add]
    show (0 : Int) + _ ≠ 0
    omega
  rw [finished_eq _ hne]
  rfl

theorem nb_sampleOf (input : Mat) (pt1 pt2 : Point) (hx : pt1.x ≤ pt2.x) (hy : pt1.y ≤ pt2.y) :
    (sampleOf input pt1 pt2).nb = (pt2.x - pt1.x) * (pt2.y - pt1.y) := by
  show ((regionColors input pt1 pt2).foldl add ColorDistribution.new).nb = _
  rw [nb_foldl_add, length_regionColors]
  show (0 : Int) + _ = _
  push_cast
  rw [Int.toNat_of_nonneg (by omega), Int.toNat_of_nonneg (by omega)]
  ring

/-! ## The block loops -/

theorem forStep_eq_foldlM {σ : Type} (body : Int → σ → Except Fault σ) (limit step : Int) :
    ∀ (n fuel : Nat) (v0 : Int) (s : σ), n ≤ fuel →
      (∀ k : Nat, k < n → v0 + step * (k : Int) < limit) →
      ¬ (v0 + step * (n : Int) < limit) →
      forStep body limit step fuel v0 s =
        ((List.range n).map (fun (k : Nat) => v0 + step * (k : Int))).foldlM
          (fun s v => body v s) s := by
  intro n
  induction n with
  | zero =>
    intro fuel v0 s _ _ hend
    have h0 : ¬ v0 < limit := by simpa using hend
    unfold forStep
    rw [if_neg h0]
    rfl
  | succ n ih =>
    intro fuel v0 s hfuel hlt hend
    have h0 : v0 < limit := by simpa using hlt 0 (Nat.succ_pos n)
    obtain ⟨f, rfl⟩ : ∃ f, fuel = f + 1 := ⟨fuel - 1, by omega⟩
    unfold forStep
    rw [if_pos h0, List.range_succ_eq_map, List.map_cons, List.foldlM_cons, List.map_map]
    have hfun : ((fun (k : Nat) => v0 + step * (k : Int)) ∘ Nat.succ)
        = fun (k : Nat) => (v0 + step) + step * (k : Int) := by
      funext k
      simp only [Function.comp, Nat.succ_eq_add_one]
      push_cast
      ring
    rw [hfun]
    simp only [Nat.cast_zero, mul_zero, add_zero]
    congr 1
    funext s'
    apply ih f (v0 + step) s' (by omega)
    · intro k hk
      have := hlt (k + 1) (by omega)
      push_cast at this
      linarith
    · intro h
      apply hend
      push_cast
      linarith

theorem stepValues_bounds (limit B : Nat) (hB : 1 ≤ B) :
    (∀ k : Nat, k < (limit + B - 1) / B → B * k < limit) ∧
      limit ≤ B * ((limit + B - 1) / B) := by
  constructor
  · intro k hk
    have h1 : (k + 1) * B ≤ limit + B - 1 := (Nat.le_div_iff_mul_le (by omega)).mp hk
    have h2 : (k + 1) * B = B * k + B := by ring
    omega
  · have h1 := Nat.div_add_mod (limit + B - 1) B
    have h2 := Nat.mod_lt (limit + B - 1) (show 0 < B by omega)
    omega

theorem forStep_stepValues {σ : Type} (body : Int → σ → Except Fault σ) (limit B : Nat)
    (hB : 1 ≤ B) (fuel : Nat) (hf : (limit + B - 1) / B ≤ fuel) (s : σ) :
    forStep body (limit : Int) (B : Int) fuel 0 s =
      (stepValues limit B).foldlM (fun s v => body v s) s := by
  obtain ⟨h1, h2⟩ := stepValues_bounds limit B hB
  rw [forStep_eq_foldlM body (limit : Int) (B : Int) ((limit + B - 1) / B) fuel 0 s hf]
  · unfold stepValues
    simp only [zero_add]
  · intro k hk
    have := h1 k hk
    rw [zero_add]
    exact_mod_cast this
  · intro h
    rw [zero_add] at h
    have h3 : B * ((limit + B - 1) / B) < limit := by exact_mod_cast h
    omega

theorem recoLoops_eq {σ : Type} (body : Int → Int → σ → Except Fault σ) (rows cols B : Nat)
    (hB : 1 ≤ B) (fuel : Nat) (hr : (rows + B - 1) / B ≤ fuel) (hc : (cols + B - 1) / B ≤ fuel)
    (s : σ) :
    recoLoops body (rows : Int) (cols : Int) (B : Int) fuel s =
      (blockOrigins rows cols B).foldlM (fun s o => body o.2 o.1 s) s := by
  unfold recoLoops blockOrigins
  rw [forStep_stepValues _ rows B hB fuel hr]
  rw [foldlM_flatten_map (fun (s : σ) (o : Int × Int) => body o.2 o.1 s)
    (fun (y x : Int) => (x, y))]
  congr 1
  funext s' y
  exact forStep_stepValues _ cols B hB fuel hc s'

theorem mem_stepValues (limit B : Nat) (hB : 1 ≤ B) (v : Int) :
    v ∈ stepValues limit B ↔ ∃ i : Nat, v = (B : Int) * (i : Int) ∧ B * i < limit := by
  obtain ⟨h1, h2⟩ := stepValues_bounds limit B hB
  unfold stepValues
  rw [List.mem_map]
  constructor
  · rintro ⟨i, hi, rfl⟩
    exact ⟨i, rfl, h1 i (List.mem_range.mp hi)⟩
  · rintro ⟨i, rfl, hi⟩
    refine ⟨i, List.mem_range.mpr ?_, rfl⟩
    by_contra hcon
    have h3 : (limit + B - 1) / B ≤ i := by omega
    have h4 : B * ((limit + B - 1) / B) ≤ B * i := Nat.mul_le_mul_left B h3
    omega

theorem mem_blockOrigins (rows cols B : Nat) (hB : 1 ≤ B) (x y : Int) :
    (x, y) ∈ blockOrigins rows cols B ↔
      ∃ i j : Nat, x = (B : Int) * (i : Int) ∧ y = (B : Int) * (j : Int) ∧
        B * i < cols ∧ B * j < rows := by
  unfold blockOrigins
  rw [List.mem_flatten]
  constructor
  · rintro ⟨l, hl, hm⟩
    rw [List.mem_map] at hl
    obtain ⟨y', hy', rfl⟩ := hl
    rw [List.mem_map] at hm
    obtain ⟨x', hx', he⟩ := hm
    have e1 : x' = x := congrArg Prod.fst he
    have e2 : y' = y := congrArg Prod.snd he
    subst e1 e2
    obtain ⟨i, hi, hi'⟩ := (mem_stepValues cols B hB _).mp hx'
    obtain ⟨j, hj, hj'⟩ := (mem_stepValues rows B hB _).mp hy'
    exact ⟨i, j, hi, hj, hi', hj'⟩
  · rintro ⟨i, j, hx, hy, hi, hj⟩
    refine ⟨(stepValues cols B).map (fun x => (x, y)), ?_, ?_⟩
    · exact List.mem_map.mpr ⟨y, (mem_stepValues rows B hB y).mpr ⟨j, hy, hj⟩, rfl⟩
    · exact List.mem_map.mpr ⟨x, (mem_stepValues cols B hB x).mpr ⟨i, hx, hi⟩, rfl⟩

theorem recoObject_eq_foldlM (input : Mat) (bg obj : List ColorDistribution)
    (colors : List Vec3b) (B : Nat) (hB : 1 ≤ B) (fuel : Nat)
    (hr : (input.rows + B - 1) / B ≤ fuel) (hc : (input.cols + B - 1) / B ≤ fuel) :
    recoObject fuel input bg obj colors (B : Int) =
      (blockOrigins input.rows input.cols B).foldlM
        (fun reco o => recoBlock input bg obj colors (B : Int) o.2 o.1 reco)
        { rows := input.rows, cols := input.cols, pix := fun _ _ => ⟨0, 0, 0⟩ } :=
  recoLoops_eq (fun y x reco => recoBlock input bg obj colors (B : Int) y x reco)
    input.rows input.cols B hB fuel hr hc _

theorem pairwise_stepValues (limit B : Nat) (hB : 1 ≤ B) :
    (stepValues limit B).Pairwise (fun a b => a < b) := by
  unfold stepValues
  rw [List.pairwise_map]
  refine List.Pairwise.imp ?_ (List.pairwise_lt_range _)
  intro a b hab
  have : B * a < B * b := Nat.mul_lt_mul_of_pos_left hab (show 0 < B by omega)
  exact_mod_cast this

/-- The order of the visits: rows first, then columns. -/
theorem pairwise_blockOrigins (rows cols B : Nat) (hB : 1 ≤ B) :
    (blockOrigins rows cols B).Pairwise
      (fun a b => a.2 < b.2 ∨ (a.2 = b.2 ∧ a.1 < b.1)) := by
  unfold blockOrigins
  rw [List.pairwise_flatten]
  constructor
  · intro l hl
    rw [List.mem_map] at hl
    obtain ⟨y, _, rfl⟩ := hl
    rw [List.pairwise_map]
    exact List.Pairwise.imp (fun h => Or.inr ⟨rfl, h⟩) (pairwise_stepValues cols B hB)
  · rw [List.pairwise_map]
    refine List.Pairwise.imp ?_ (pairwise_stepValues rows B hB)
    intro y1 y2 h p hp q hq
    rw [List.mem_map] at hp hq
    obtain ⟨x1, _, rfl⟩ := hp
    obtain ⟨x2, _, rfl⟩ := hq
    exact Or.inl h

/-- C13, the behaviour of the code: on the 4 x 2 image `splitImage` with `B = 3`, the
block with origin `(0, 0)` is sampled up to `(3, 3)` without clipping; the coordinate
`(x, y) = (0, 2)` is read although the image has only 2 rows, and the read is outside the
image. -/
theorem recoObject_reads_outside :
    (0, 0) ∈ blockOrigins 2 4 3 ∧
    (2, 0) ∈ regionCoords ⟨0, 0⟩ ⟨0 + 3, 0 + 3⟩ ∧
    ¬ ((2 : Int) < (splitImage.rows : Int)) ∧
    splitImage.at 2 0 = .error .outOfBounds ∧
    getColorDistribution splitImage ⟨0, 0⟩ ⟨0 + 3, 0 + 3⟩ = .error .outOfBounds ∧
    recoObject 2 splitImage [] [] mainColors 3 = .error .outOfBounds := by
  refine ⟨by decide, ?_, by decide, rfl, rfl, rfl⟩
  rw [mem_regionCoords]
  decide

/-! ## Painting -/

theorem recoBlock_eq (input : Mat) (bg obj : List ColorDistribution) (colors : List Vec3b)
    (bloc y x : Int) (reco : Mat) :
    recoBlock input bg obj colors bloc y x reco =
      (recoLabel input bg obj colors bloc y x >>= fun color =>
        pure (rectangle reco ⟨x, y⟩ ⟨x + bloc, y + bloc⟩ color)) := rfl

theorem recoLabel_inside (input : Mat) (bg obj : List ColorDistribution) (colors : List Vec3b)
    (c0 c1 : Vec3b) (h0 : vecAt colors 0 = .ok c0) (h1 : vecAt colors 1 = .ok c1)
    (bloc y x : Int) (hin : RegionInside input ⟨x, y⟩ ⟨x + bloc, y + bloc⟩) :
    recoLabel input bg obj colors bloc y x = .ok (labelOf input bg obj c0 c1 bloc (x, y)) := by
  rw [recoLabel_eq, getColorDistribution_sampleOf input _ _ hin, ok_bind, recoColor_eq]
  unfold labelOf
  split
  · exact h0
  · exact h1

theorem recoBlock_inside (input : Mat) (bg obj : List ColorDistribution) (colors : List Vec3b)
    (c0 c1 : Vec3b) (h0 : vecAt colors 0 = .ok c0) (h1 : vecAt colors 1 = .ok c1)
    (bloc y x : Int) (hin : RegionInside input ⟨x, y⟩ ⟨x + bloc, y + bloc⟩) (reco : Mat) :
    recoBlock input bg obj colors bloc y x reco =
      .ok (rectangle reco ⟨x, y⟩ ⟨x + bloc, y + bloc⟩
        (labelOf input bg obj c0 c1 bloc (x, y))) := by
  rw [recoBlock_eq, recoLabel_inside input bg obj colors c0 c1 h0 h1 bloc y x hin, ok_bind]
  rfl

theorem labelOf_cases (input : Mat) (bg obj : List ColorDistribution) (c0 c1 : Vec3b)
    (B : Int) (o : Int × Int) :
    labelOf input bg obj c0 c1 B o = c0 ∨ labelOf input bg obj c0 c1 B o = c1 := by
  unfold labelOf
  split
  · exact Or.inl rfl
  · exact Or.inr rfl

theorem rectangle_pix (img : Mat) (pt1 pt2 : Point) (c : Vec3b) (y x : Nat) :
    (rectangle img pt1 pt2 c).pix y x =
      if y < img.rows ∧ x < img.cols ∧ InRect pt1 pt2 y x then c else img.pix y x := rfl

theorem inPaint_iff (B : Int) (hB : 0 ≤ B) (o : Int × Int) (py px : Nat) :
    InPaint B o py px ↔
      o.1 ≤ (px : Int) ∧ (px : Int) ≤ o.1 + B ∧ o.2 ≤ (py : Int) ∧ (py : Int) ≤ o.2 + B := by
  unfold InPaint InRect
  simp only
  rw [min_eq_left (by omega : o.1 ≤ o.1 + B), max_eq_right (by omega : o.1 ≤ o.1 + B),
    min_eq_left (by omega : o.2 ≤ o.2 + B), max_eq_right (by omega : o.2 ≤ o.2 + B)]

theorem foldl_paint_dims (lab : Int × Int → Vec3b) (B : Int) (l : List (Int × Int)) (s : Mat) :
    (l.foldl (fun reco o => rectangle reco ⟨o.1, o.2⟩ ⟨o.1 + B, o.2 + B⟩ (lab o)) s).rows
        = s.rows ∧
    (l.foldl (fun reco o => rectangle reco ⟨o.1, o.2⟩ ⟨o.1 + B, o.2 + B⟩ (lab o)) s).cols
        = s.cols := by
  induction l generalizing s with
  | nil => exact ⟨rfl, rfl⟩
  | cons a t ih =>
    rw [List.foldl_cons]
    exact ih _

theorem foldl_paint_untouched (lab : Int × Int → Vec3b) (B : Int) (py px : Nat)
    (l : List (Int × Int)) (hl : ∀ o ∈ l, ¬ InPaint B o py px) (s : Mat) :
    (l.foldl (fun reco o => rectangle reco ⟨o.1, o.2⟩ ⟨o.1 + B, o.2 + B⟩ (lab o)) s).pix py px
      = s.pix py px := by
  induction l generalizing s with
  | nil => rfl
  | cons a t ih =>
    rw [List.foldl_cons, ih (fun o ho => hl o (List.mem_cons_of_mem _ ho)), rectangle_pix]
    have ha : ¬ InRect ⟨a.1, a.2⟩ ⟨a.1 + B, a.2 + B⟩ py px := hl a (List.mem_cons_self _ _)
    rw [if_neg (fun h => ha h.2.2)]

theorem foldl_paint_last (lab : Int × Int → Vec3b) (B : Int) (py px : Nat)
    (R : Int × Int → Int × Int → Prop) (hR : ∀ a b, R a b → ¬ R b a)
    (l : List (Int × Int)) (o : Int × Int) (ho : o ∈ l) (hp : l.Pairwise R)
    (hin : InPaint B o py px)
    (hlast : ∀ q ∈ l, InPaint B q py px → q = o ∨ R q o)
    (s : Mat) (hy : py < s.rows) (hx : px < s.cols) :
    (l.foldl (fun reco o => rectangle reco ⟨o.1, o.2⟩ ⟨o.1 + B, o.2 + B⟩ (lab o)) s).pix py px
      = lab o := by
  induction l generalizing s with
  | nil => cases ho
  | cons a t ih =>
    rw [List.foldl_cons]
    rw [List.pairwise_cons] at hp
    by_cases hot : o ∈ t
    · exact ih hot hp.2 (fun q hq => hlast q (List.mem_cons_of_mem _ hq)) _ hy hx
    · have hoa : o = a := by
        rcases List.mem_cons.mp ho with h | h
        · exact h
        · exact absurd h hot
      subst hoa
      rw [foldl_paint_untouched lab B py px t, rectangle_pix, if_pos ⟨hy, hx, hin⟩]
      intro q hq hqin
      rcases hlast q (List.mem_cons_of_mem _ hq) hqin with h | h
      · exact hot (h ▸ hq)
      · exact hR _ _ (hp.1 q hq) h

/-! ## Blocks of a grid that divides the image -/

theorem ceil_div_of_dvd (n B : Nat) (hB : 1 ≤ B) (hd : B ∣ n) : (n + B - 1) / B = n / B := by
  obtain ⟨q, rfl⟩ := hd
  rw [Nat.mul_div_cancel_left q (by omega : 0 < B)]
  have h1 : B * q + B - 1 = (B - 1) + B * q := by omega
  rw [h1, Nat.add_mul_div_left _ _ (by omega : 0 < B), Nat.div_eq_of_lt (by omega), zero_add]

theorem step_inside (limit B : Nat) (hd : B ∣ limit) (i : Nat) (hi : B * i < limit) :
    B * i + B ≤ limit := by
  obtain ⟨q, rfl⟩ := hd
  have h1 : i < q := Nat.lt_of_mul_lt_mul_left hi
  have h2 : B * (i + 1) ≤ B * q := Nat.mul_le_mul_left B h1
  rw [Nat.mul_succ] at h2
  exact h2

theorem step_target (B : Nat) (hB : 1 ≤ B) (px : Nat) :
    B * (px / B) ≤ px ∧ px < B * (px / B) + B := by
  have h1 := Nat.div_add_mod px B
  have h2 := Nat.mod_lt px (show 0 < B by omega)
  omega

theorem step_le_target (B : Nat) (hB : 1 ≤ B) (i px : Nat) (h : B * i ≤ px) :
    B * i ≤ B * (px / B) := by
  have h1 : i ≤ px / B := (Nat.le_div_iff_mul_le (by omega)).mpr (by rw [Nat.mul_comm]; exact h)
  exact Nat.mul_le_mul_left B h1

theorem step_unique (B : Nat) (hB : 1 ≤ B) (i px : Nat) (h1 : B * i ≤ px) (h2 : px ≤ B * i + B)
    (hb : px % B ≠ 0 ∨ px < B) : B * i = B * (px / B) := by
  have hle : i ≤ px / B := (Nat.le_div_iff_mul_le (by omega)).mpr (by rw [Nat.mul_comm]; exact h1)
  rcases Nat.lt_or_ge i (px / B) with hlt | hge
  · exfalso
    have h3 : B * (i + 1) ≤ B * (px / B) := Nat.mul_le_mul_left B hlt
    rw [Nat.mul_succ] at h3
    have h4 := (step_target B hB px).1
    have h5 : px = B * (i + 1) := by rw [Nat.mul_succ]; omega
    rcases hb with hb | hb
    · apply hb
      rw [h5]
      exact Nat.mul_mod_right B (i + 1)
    · have h6 : B * 1 ≤ B * (i + 1) := Nat.mul_le_mul_left B (by omega)
      omega
  · have : i = px / B := le_antisymm hle hge
    rw [this]

theorem block_inside (input : Mat) (B : Nat) (hB : 1 ≤ B) (hdw : B ∣ input.cols)
    (hdh : B ∣ input.rows) (o : Int × Int) (ho : o ∈ blockOrigins input.rows input.cols B) :
    RegionInside input ⟨o.1, o.2⟩ ⟨o.1 + (B : Int), o.2 + (B : Int)⟩ := by
  obtain ⟨i, j, hx, hy, hi, hj⟩ := (mem_blockOrigins input.rows input.cols B hB o.1 o.2).mp ho
  have h1 := step_inside input.cols B hdw i hi
  have h2 := step_inside input.rows B hdh j hj
  unfold RegionInside
  simp only
  rw [hx, hy]
  have h1' : (B : Int) * (i : Int) + (B : Int) ≤ (input.cols : Int) := by exact_mod_cast h1
  have h2' : (B : Int) * (j : Int) + (B : Int) ≤ (input.rows : Int) := by exact_mod_cast h2
  have h3 : (0 : Int) ≤ (B : Int) * (i : Int) := by positivity
  have h4 : (0 : Int) ≤ (B : Int) * (j : Int) := by positivity
  have h5 : (1 : Int) ≤ (B : Int) := by exact_mod_cast hB
  refine ⟨h3, by omega, h1', h4, by omega, h2'⟩

theorem recoObject_ok (input : Mat) (bg obj : List ColorDistribution) (colors : List Vec3b)
    (c0 c1 : Vec3b) (B fuel : Nat) (hB : 1 ≤ B) (hdw : B ∣ input.cols) (hdh : B ∣ input.rows)
    (h0 : vecAt colors 0 = .ok c0) (h1 : vecAt colors 1 = .ok c1)
    (hr : (input.rows + B - 1) / B ≤ fuel) (hc : (input.cols + B - 1) / B ≤ fuel) :
    recoObject fuel input bg obj colors (B : Int) =
      .ok ((blockOrigins input.rows input.cols B).foldl
        (fun reco o => rectangle reco ⟨o.1, o.2⟩ ⟨o.1 + (B : Int), o.2 + (B : Int)⟩
          (labelOf input bg obj c0 c1 (B : Int) o))
        { rows := input.rows, cols := input.cols, pix := fun _ _ => ⟨0, 0, 0⟩ }) := by
  rw [recoObject_eq_foldlM input bg obj colors B hB fuel hr hc]
  apply foldlM_ok_mem
  intro s o ho
  exact recoBlock_inside input bg obj colors c0 c1 h0 h1 (B : Int) o.2 o.1
    (block_inside input B hB hdw hdh o ho) s

/-- The origin of the block that holds the pixel at row `py`, column `px`. -/
theorem target_mem (rows cols B : Nat) (hB : 1 ≤ B) (py px : Nat) (hy : py < rows)
    (hx : px < cols) :
    (((B : Int) * ((px / B : Nat) : Int), (B : Int) * ((py / B : Nat) : Int)) : Int × Int)
      ∈ blockOrigins rows cols B := by
  rw [mem_blockOrigins rows cols B hB]
  refine ⟨px / B, py / B, rfl, rfl, ?_, ?_⟩
  · have := (step_target B hB px).1
    omega
  · have := (step_target B hB py).1
    omega

theorem target_inPaint (B : Nat) (hB : 1 ≤ B) (py px : Nat) :
    InPaint (B : Int) ((B : Int) * ((px / B : Nat) : Int), (B : Int) * ((py / B : Nat) : Int))
      py px := by
  rw [inPaint_iff (B : Int) (by omega)]
  obtain ⟨h1, h2⟩ := step_target B hB px
  obtain ⟨h3, h4⟩ := step_target B hB py
  have h1' : (B : Int) * ((px / B : Nat) : Int) ≤ (px : Int) := by exact_mod_cast h1
  have h2' : (px : Int) < (B : Int) * ((px / B : Nat) : Int) + (B : Int) := by exact_mod_cast h2
  have h3' : (B : Int) * ((py / B : Nat) : Int) ≤ (py : Int) := by exact_mod_cast h3
  have h4' : (py : Int) < (B : Int) * ((py / B : Nat) : Int) + (B : Int) := by exact_mod_cast h4
  simp only
  omega

theorem inPaint_le_target (rows cols B : Nat) (hB : 1 ≤ B) (py px : Nat) (q : Int × Int)
    (hq : q ∈ blockOrigins rows cols B) (hin : InPaint (B : Int) q py px) :
    q.1 ≤ (B : Int) * ((px / B : Nat) : Int) ∧ q.2 ≤ (B : Int) * ((py / B : Nat) : Int) := by
  obtain ⟨i, j, hx, hy, _, _⟩ := (mem_blockOrigins rows cols B hB q.1 q.2).mp hq
  rw [inPaint_iff (B : Int) (by omega)] at hin
  rw [hx, hy] at hin ⊢
  obtain ⟨h1, _, h3, _⟩ := hin
  have h1' : B * i ≤ px := by exact_mod_cast h1
  have h3' : B * j ≤ py := by exact_mod_cast h3
  have a1 := step_le_target B hB i px h1'
  have a3 := step_le_target B hB j py h3'
  exact ⟨by exact_mod_cast a1, by exact_mod_cast a3⟩

theorem inPaint_before_target (rows cols B : Nat) (hB : 1 ≤ B) (py px : Nat) (q : Int × Int)
    (hq : q ∈ blockOrigins rows cols B) (hin : InPaint (B : Int) q py px) :
    q = ((B : Int) * ((px / B : Nat) : Int), (B : Int) * ((py / B : Nat) : Int)) ∨
      (q.2 < (B : Int) * ((py / B : Nat) : Int) ∨
        (q.2 = (B : Int) * ((py / B : Nat) : Int) ∧ q.1 < (B : Int) * ((px / B : Nat) : Int))) := by
  obtain ⟨h1, h2⟩ := inPaint_le_target rows cols B hB py px q hq hin
  rcases lt_or_eq_of_le h2 with h | h
  · exact Or.inr (Or.inl h)
  · rcases lt_or_eq_of_le h1 with h' | h'
    · exact Or.inr (Or.inr ⟨h, h'⟩)
    · exact Or.inl (Prod.ext h' h)

theorem inPaint_unique (rows cols B : Nat) (hB : 1 ≤ B) (py px : Nat) (q : Int × Int)
    (hq : q ∈ blockOrigins rows cols B) (hin : InPaint (B : Int) q py px)
    (hbx : px % B ≠ 0 ∨ px < B) (hby : py % B ≠ 0 ∨ py < B) :
    q = ((B : Int) * ((px / B : Nat) : Int), (B : Int) * ((py / B : Nat) : Int)) := by
  obtain ⟨i, j, hx, hy, _, _⟩ := (mem_blockOrigins rows cols B hB q.1 q.2).mp hq
  rw [inPaint_iff (B : Int) (by omega)] at hin
  rw [hx, hy] at hin
  obtain ⟨h1, h2, h3, h4⟩ := hin
  have h1' : B * i ≤ px := by exact_mod_cast h1
  have h2' : px ≤ B * i + B := by exact_mod_cast h2
  have h3' : B * j ≤ py := by exact_mod_cast h3
  have h4' : py ≤ B * j + B := by exact_mod_cast h4
  have e1 := step_unique B hB i px h1' h2' hbx
  have e2 := step_unique B hB j py h3' h4' hby
  have e1' : (B : Int) * (i : Int) = (B : Int) * ((px / B : Nat) : Int) := by exact_mod_cast e1
  have e2' : (B : Int) * (j : Int) = (B : Int) * ((py / B : Nat) : Int) := by exact_mod_cast e2
  exact Prod.ext (hx.trans e1') (hy.trans e2')

theorem left_neighbour (rows cols B : Nat) (hB : 1 ≤ B) (py px : Nat) (hy : py < rows)
    (hx : px < cols) (hm : px % B = 0) (hge : B ≤ px) :
    ∃ q ∈ blockOrigins rows cols B, InPaint (B : Int) q py px ∧
      q ≠ ((B : Int) * ((px / B : Nat) : Int), (B : Int) * ((py / B : Nat) : Int)) := by
  have hpos : 0 < px / B := Nat.div_pos hge (by omega)
  obtain ⟨m, hmk⟩ : ∃ m, px / B = m + 1 := ⟨px / B - 1, by omega⟩
  have h1 := Nat.div_add_mod px B
  rw [hm, hmk, Nat.mul_succ, Nat.add_zero] at h1
  obtain ⟨h3, h4⟩ := step_target B hB py
  refine ⟨((B : Int) * (m : Int), (B : Int) * ((py / B : Nat) : Int)), ?_, ?_, ?_⟩
  · rw [mem_blockOrigins rows cols B hB]
    exact ⟨m, py / B, rfl, rfl, by omega, by omega⟩
  · rw [inPaint_iff (B : Int) (by omega)]
    have a1 : (B : Int) * (m : Int) + (B : Int) = (px : Int) := by exact_mod_cast h1
    have a2 : (0 : Int) ≤ (B : Int) := by omega
    have h3' : (B : Int) * ((py / B : Nat) : Int) ≤ (py : Int) := by exact_mod_cast h3
    have h4' : (py : Int) < (B : Int) * ((py / B : Nat) : Int) + (B : Int) := by
      exact_mod_cast h4
    simp only
    omega
  · intro h
    have h5 : (B : Int) * (m : Int) = (B : Int) * ((px / B : Nat) : Int) := congrArg Prod.fst h
    rw [hmk] at h5
    have h6 : B * m = B * (m + 1) := by exact_mod_cast h5
    rw [Nat.mul_succ] at h6
    omega

theorem upper_neighbour (rows cols B : Nat) (hB : 1 ≤ B) (py px : Nat) (hy : py < rows)
    (hx : px < cols) (hm : py % B = 0) (hge : B ≤ py) :
    ∃ q ∈ blockOrigins rows cols B, InPaint (B : Int) q py px ∧
      q ≠ ((B : Int) * ((px / B : Nat) : Int), (B : Int) * ((py / B : Nat) : Int)) := by
  have hpos : 0 < py / B := Nat.div_pos hge (by omega)
  obtain ⟨m, hmk⟩ : ∃ m, py / B = m + 1 := ⟨py / B - 1, by omega⟩
  have h1 := Nat.div_add_mod py B
  rw [hm, hmk, Nat.mul_succ, Nat.add_zero] at h1
  obtain ⟨h3, h4⟩ := step_target B hB px
  refine ⟨((B : Int) * ((px / B : Nat) : Int), (B : Int) * (m : Int)), ?_, ?_, ?_⟩
  · rw [mem_blockOrigins rows cols B hB]
    exact ⟨px / B, m, rfl, rfl, by omega, by omega⟩
  · rw [inPaint_iff (B : Int) (by omega)]
    have a1 : (B : Int) * (m : Int) + (B : Int) = (py : Int) := by exact_mod_cast h1
    have a2 : (0 : Int) ≤ (B : Int) := by omega
    have h3' : (B : Int) * ((px / B : Nat) : Int) ≤ (px : Int) := by exact_mod_cast h3
    have h4' : (px : Int) < (B : Int) * ((px / B : Nat) : Int) + (B : Int) := by
      exact_mod_cast h4
    simp only
    omega
  · intro h
    have h5 : (B : Int) * (m : Int) = (B : Int) * ((py / B : Nat) : Int) := congrArg Prod.snd h
    rw [hmk] at h5
    have h6 : B * m = B * (m + 1) := by exact_mod_cast h5
    rw [Nat.mul_succ] at h6
    omega

/-- C19: for `B >= 1` dividing both sides of the image (and `colors` holding `colors[0]`,
`colors[1]`), `recoObject` returns an image of the size of the input in which the pixel at
row `py`, column `px` has the colour that `recoObject` decides for the block with origin
`(B * (px / B), B * (py / B))`; every other block whose painted rectangle covers the pixel
comes earlier in the order of the loops, so it is overwritten; each pixel is `colors[0]`
or `colors[1]`. -/
theorem recoObject_pixel_colour (input : Mat) (bg obj : List ColorDistribution)
    (colors : List Vec3b) (c0 c1 : Vec3b) (B fuel : Nat) (hB : 1 ≤ B)
    (hdw : B ∣ input.cols) (hdh : B ∣ input.rows)
    (h0 : vecAt colors 0 = .ok c0) (h1 : vecAt colors 1 = .ok c1)
    (hr : (input.rows + B - 1) / B ≤ fuel) (hc : (input.cols + B - 1) / B ≤ fuel) :
    ∃ reco, recoObject fuel input bg obj colors (B : Int) = .ok reco ∧
      reco.rows = input.rows ∧ reco.cols = input.cols ∧
      ∀ py px : Nat, py < input.rows → px < input.cols →
        recoLabel input bg obj colors (B : Int) ((B : Int) * ((py / B : Nat) : Int))
            ((B : Int) * ((px / B : Nat) : Int)) = .ok (reco.pix py px) ∧
        (∀ q ∈ blockOrigins input.rows input.cols B, InPaint (B : Int) q py px →
          q = ((B : Int) * ((px / B : Nat) : Int), (B : Int) * ((py / B : Nat) : Int)) ∨
          (q.2 < (B : Int) * ((py / B : Nat) : Int) ∨
            (q.2 = (B : Int) * ((py / B : Nat) : Int) ∧
              q.1 < (B : Int) * ((px / B : Nat) : Int)))) ∧
        (reco.pix py px = c0 ∨ reco.pix py px = c1) := by
  refine ⟨_, recoObject_ok input bg obj colors c0 c1 B fuel hB hdw hdh h0 h1 hr hc,
    (foldl_paint_dims _ _ _ _).1, (foldl_paint_dims _ _ _ _).2, ?_⟩
  intro py px hy hx
  have hmem := target_mem input.rows input.cols B hB py px hy hx
  have hin := target_inPaint B hB py px
  have hpix := foldl_paint_last (labelOf input bg obj c0 c1 (B : Int)) (B : Int) py px
    (fun a b => a.2 < b.2 ∨ (a.2 = b.2 ∧ a.1 < b.1))
    (fun a b hab hba => by
      rcases hab with h | ⟨h, h'⟩ <;> rcases hba with g | ⟨g, g'⟩ <;> omega)
    (blockOrigins input.rows input.cols B) _ hmem
    (pairwise_blockOrigins input.rows input.cols B hB) hin
    (fun q hq hqin => inPaint_before_target input.rows input.cols B hB py px q hq hqin)
    { rows := input.rows, cols := input.cols, pix := fun _ _ => ⟨0, 0, 0⟩ } hy hx
  refine ⟨?_, fun q hq hqin => inPaint_before_target input.rows input.cols B hB py px q hq hqin,
    ?_⟩
  · rw [hpix]
    exact recoLabel_inside input bg obj colors c0 c1 h0 h1 (B : Int) _ _
      (block_inside input B hB hdw hdh _ hmem)
  · rw [hpix]
    exact labelOf_cases input bg obj c0 c1 (B : Int) _

/-- C19, witness: `splitImage` with blocks of side 2 and one-cell reference sets. -/
theorem recoObject_pixel_colour_witness :
    ∃ reco, recoObject 2 splitImage [oneHot 0 0 0 4] [oneHot 7 0 0 4] mainColors 2 = .ok reco ∧
      reco.rows = 2 ∧ reco.cols = 4 ∧
      ∀ py px : Nat, py < 2 → px < 4 →
        recoLabel splitImage [oneHot 0 0 0 4] [oneHot 7 0 0 4] mainColors 2
            (2 * ((py / 2 : Nat) : Int)) (2 * ((px / 2 : Nat) : Int)) = .ok (reco.pix py px) ∧
        (∀ q ∈ blockOrigins 2 4 2, InPaint 2 q py px →
          q = (2 * ((px / 2 : Nat) : Int), 2 * ((py / 2 : Nat) : Int)) ∨
          (q.2 < 2 * ((py / 2 : Nat) : Int) ∨
            (q.2 = 2 * ((py / 2 : Nat) : Int) ∧ q.1 < 2 * ((px / 2 : Nat) : Int)))) ∧
        (reco.pix py px = ⟨0, 0, 0⟩ ∨ reco.pix py px = ⟨0, 0, 255⟩) :=
  recoObject_pixel_colour splitImage [oneHot 0 0 0 4] [oneHot 7 0 0 4] mainColors
    ⟨0, 0, 0⟩ ⟨0, 0, 255⟩ 2 2 (by decide) (by decide) (by decide) rfl rfl (by decide)
    (by decide)

/-! ## The background capture -/

theorem bgTiles_eq :
    bgTiles = [(0, 0), (128, 0), (256, 0), (384, 0), (512, 0),
      (0, 128), (128, 128), (256, 128), (384, 128), (512, 128),
      (0, 256), (128, 256), (256, 256), (384, 256), (512, 256)] := by
  decide

theorem foldl_snoc_map {α β : Type} (f : α → β) (l : List α) (init : List β) :
    l.foldl (fun hs o => hs ++ [f o]) init = init ++ l.map f := by
  induction l generalizing init with
  | nil => simp
  | cons a t ih =>
    rw [List.foldl_cons, ih]
    simp

theorem keyB_eq (fuel : Nat) (hf : 5 ≤ fuel) (img_input : Mat) (st : Session) :
    keyB fuel img_input st =
      (bgTiles.foldlM (fun hs o => do
        let hist ← getColorDistribution img_input ⟨o.1, o.2⟩ ⟨o.1 + bbloc, o.2 + bbloc⟩
        pure (hs ++ [hist])) [] >>= fun col_hists =>
          pure { col_hists := col_hists, col_hists_object := st.col_hists_object }) := by
  unfold keyB forStepLe
  have hx : ∀ (y : Int) (hs : List ColorDistribution),
      forStep (fun x hs => do
        let hist ← getColorDistribution img_input ⟨x, y⟩ ⟨x + bbloc, y + bbloc⟩
        pure (hs ++ [hist])) (width - bbloc + 1) bbloc fuel 0 hs
      = ((List.range 5).map (fun (k : Nat) => (0 : Int) + bbloc * (k : Int))).foldlM
          (fun hs x => do
            let hist ← getColorDistribution img_input ⟨x, y⟩ ⟨x + bbloc, y + bbloc⟩
            pure (hs ++ [hist])) hs := by
    intro y hs
    apply forStep_eq_foldlM _ _ _ 5 fuel 0 hs hf
    · intro k hk
      unfold width bbloc
      omega
    · unfold width bbloc
      omega
  have hy : ∀ (hs : List ColorDistribution),
      forStep (fun y hs =>
        forStep (fun x hs => do
          let hist ← getColorDistribution img_input ⟨x, y⟩ ⟨x + bbloc, y + bbloc⟩
          pure (hs ++ [hist])) (width - bbloc + 1) bbloc fuel 0 hs)
        (height - bbloc + 1) bbloc fuel 0 hs
      = ((List.range 3).map (fun (k : Nat) => (0 : Int) + bbloc * (k : Int))).foldlM
          (fun hs y => ((List.range 5).map (fun (k : Nat) => (0 : Int) + bbloc * (k : Int))).foldlM
            (fun hs x => do
              let hist ← getColorDistribution img_input ⟨x, y⟩ ⟨x + bbloc, y + bbloc⟩
              pure (hs ++ [hist])) hs) hs := by
    intro hs
    rw [forStep_eq_foldlM _ _ _ 3 fuel 0 hs (by omega)]
    · congr 1
      funext hs' y
      exact hx y hs'
    · intro k hk
      unfold height bbloc
      omega
    · unfold height bbloc
      omega
  rw [hy]
  rw [← foldlM_flatten_map (fun (hs : List ColorDistribution) (o : Int × Int) => do
        let hist ← getColorDistribution img_input ⟨o.1, o.2⟩ ⟨o.1 + bbloc, o.2 + bbloc⟩
        pure (hs ++ [hist])) (fun (y x : Int) => (x, y))]
  rfl

theorem bgTiles_inside (img_input : Mat) (hrows : img_input.rows = 480)
    (hcols : img_input.cols = 640) (o : Int × Int) (ho : o ∈ bgTiles) :
    RegionInside img_input ⟨o.1, o.2⟩ ⟨o.1 + bbloc, o.2 + bbloc⟩ := by
  have hall : ∀ q ∈ bgTiles, 0 ≤ q.1 ∧ q.1 + 128 ≤ 640 ∧ 0 ≤ q.2 ∧ q.2 + 128 ≤ 480 := by
    decide
  obtain ⟨h1, h2, h3, h4⟩ := hall o ho
  unfold RegionInside bbloc
  rw [hrows, hcols]
  simp only
  refine ⟨h1, by omega, by exact_mod_cast h2, h3, by omega, by exact_mod_cast h4⟩

theorem keyB_ok (fuel : Nat) (hf : 5 ≤ fuel) (img_input : Mat)
    (hrows : img_input.rows = 480) (hcols : img_input.cols = 640) (st : Session) :
    keyB fuel img_input st =
      .ok { col_hists := bgTiles.map (fun o =>
              sampleOf img_input ⟨o.1, o.2⟩ ⟨o.1 + bbloc, o.2 + bbloc⟩)
            col_hists_object := st.col_hists_object } := by
  rw [keyB_eq fuel hf img_input st]
  rw [foldlM_ok_mem _ (fun hs (o : Int × Int) =>
    hs ++ [sampleOf img_input ⟨o.1, o.2⟩ ⟨o.1 + bbloc, o.2 + bbloc⟩]) bgTiles]
  · rw [ok_bind, foldl_snoc_map, List.nil_append]
    rfl
  · intro hs o ho
    rw [getColorDistribution_sampleOf img_input _ _ (bgTiles_inside img_input hrows hcols o ho)]
    rfl

/-- C15: on a 640 x 480 frame the `'b'` capture (with enough fuel for its loops) ends with
the background set equal to the list of the 15 distributions sampled from the 128 x 128
tiles of origins `(128 * i, 128 * j)`, `i < 5`, `j < 3`, rows first; each tile lies inside
the frame; the result does not depend on the former background set, and the object set is
unchanged. -/
theorem keyB_rebuilds (fuel : Nat) (img_input : Mat) (st st0 : Session) (hf : 5 ≤ fuel)
    (hrows : img_input.rows = 480) (hcols : img_input.cols = 640)
    (hobj : st0.col_hists_object = st.col_hists_object) :
    ∃ hists, keyB fuel img_input st
        = .ok { col_hists := hists, col_hists_object := st.col_hists_object } ∧
      hists.length = 15 ∧
      hists = bgTiles.map (fun o =>
        sampleOf img_input ⟨o.1, o.2⟩ ⟨o.1 + 128, o.2 + 128⟩) ∧
      (∀ o ∈ bgTiles, RegionInside img_input ⟨o.1, o.2⟩ ⟨o.1 + 128, o.2 + 128⟩ ∧
        getColorDistribution img_input ⟨o.1, o.2⟩ ⟨o.1 + 128, o.2 + 128⟩
          = .ok (sampleOf img_input ⟨o.1, o.2⟩ ⟨o.1 + 128, o.2 + 128⟩)) ∧
      bgTiles = [(0, 0), (128, 0), (256, 0), (384, 0), (512, 0),
        (0, 128), (128, 128), (256, 128), (384, 128), (512, 128),
        (0, 256), (128, 256), (256, 256), (384, 256), (512, 256)] ∧
      keyB fuel img_input st0 = keyB fuel img_input st := by
  refine ⟨_, keyB_ok fuel hf img_input hrows hcols st, ?_, rfl, ?_, bgTiles_eq, ?_⟩
  · rw [List.length_map, bgTiles_eq]
    rfl
  · intro o ho
    have hin := bgTiles_inside img_input hrows hcols o ho
    exact ⟨hin, getColorDistribution_sampleOf img_input _ _ hin⟩
  · rw [keyB_ok fuel hf img_input hrows hcols st, keyB_ok fuel hf img_input hrows hcols st0,
      hobj]

/-- C15, witness: the frame `redFrame`, a former background set of two members. -/
theorem keyB_rebuilds_witness :
    ∃ hists, keyB 5 redFrame { col_hists := [], col_hists_object := [oneHot 1 1 1 1] }
        = .ok { col_hists := hists, col_hists_object := [oneHot 1 1 1 1] } ∧
      hists.length = 15 ∧
      keyB 5 redFrame
          { col_hists := [oneHot 0 0 0 1, oneHot 2 2 2 1], col_hists_object := [oneHot 1 1 1 1] }
        = keyB 5 redFrame { col_hists := [], col_hists_object := [oneHot 1 1 1 1] } :=
  (keyB_rebuilds 5 redFrame { col_hists := [], col_hists_object := [oneHot 1 1 1 1] }
    { col_hists := [oneHot 0 0 0 1, oneHot 2 2 2 1], col_hists_object := [oneHot 1 1 1 1] }
    (le_refl 5) rfl rfl rfl).elim
    (fun hists h => ⟨hists, h.1, h.2.1, h.2.2.2.2.2⟩)

theorem mem_bgTiles (o : Int × Int) :
    o ∈ bgTiles ↔ ∃ i j : Nat, i < 5 ∧ j < 3 ∧ o = ((128 : Int) * (i : Int), (128 : Int) * (j : Int)) := by
  unfold bgTiles
  rw [List.mem_flatten]
  constructor
  · rintro ⟨l, hl, hm⟩
    rw [List.mem_map] at hl
    obtain ⟨j, hj, rfl⟩ := hl
    rw [List.mem_map] at hm
    obtain ⟨i, hi, rfl⟩ := hm
    exact ⟨i, j, List.mem_range.mp hi, List.mem_range.mp hj, rfl⟩
  · rintro ⟨i, j, hi, hj, rfl⟩
    exact ⟨_, List.mem_map.mpr ⟨j, List.mem_range.mpr hj, rfl⟩,
      List.mem_map.mpr ⟨i, List.mem_range.mpr hi, rfl⟩⟩

theorem tile_of_pixel (o : Int × Int) (ho : o ∈ bgTiles) (y x : Int)
    (hin : InTile 128 o y x) : o = (128 * (x / 128), 128 * (y / 128)) := by
  obtain ⟨i, j, _, _, rfl⟩ := (mem_bgTiles o).mp ho
  unfold InTile at hin
  simp only at hin
  refine Prod.ext ?_ ?_
  · show (128 : Int) * (i : Int) = 128 * (x / 128)
    omega
  · show (128 : Int) * (j : Int) = 128 * (y / 128)
    omega

/-- C17, counterexample: the pixel `(x, y) = (0, 400)` of the 640 x 480 frame belongs to
none of the tiles sampled by the `'b'` capture. -/
theorem bgTiles_gap_counterexample :
    (0 : Int) ≤ 0 ∧ (0 : Int) < 640 ∧ (0 : Int) ≤ 400 ∧ (400 : Int) < 480 ∧
      ∀ o ∈ bgTiles, ¬ InTile 128 o 400 0 := by
  decide

/-- C17 (amended): the 128 x 128 tiles sampled by the `'b'` capture are pairwise disjoint
and cover exactly the pixels `(x, y)` with `0 <= x < 640` and `0 <= y < 384`: the 96 rows
`384 <= y < 480` of the 640 x 480 frame belong to no tile. -/
theorem bgTiles_disjoint_cover :
    (∀ o ∈ bgTiles, ∀ q ∈ bgTiles, o ≠ q → ∀ y x : Int,
      ¬ (InTile 128 o y x ∧ InTile 128 q y x)) ∧
    (∀ y x : Int, (∃ o ∈ bgTiles, InTile 128 o y x) ↔
      (0 ≤ x ∧ x < 640 ∧ 0 ≤ y ∧ y < 384)) ∧
    (∀ (fuel : Nat) (img_input : Mat) (st : Session), 5 ≤ fuel →
      keyB fuel img_input st =
        (bgTiles.foldlM (fun hs o => do
          let hist ← getColorDistribution img_input ⟨o.1, o.2⟩ ⟨o.1 + 128, o.2 + 128⟩
          pure (hs ++ [hist])) [] >>= fun col_hists =>
            pure { col_hists := col_hists, col_hists_object := st.col_hists_object })) := by
  refine ⟨?_, ?_, fun fuel img_input st hf => keyB_eq fuel hf img_input st⟩
  · intro o ho q hq hne y x h
    exact hne ((tile_of_pixel o ho y x h.1).trans (tile_of_pixel q hq y x h.2).symm)
  · intro y x
    constructor
    · rintro ⟨o, ho, hin⟩
      obtain ⟨i, j, hi, hj, rfl⟩ := (mem_bgTiles o).mp ho
      unfold InTile at hin
      simp only at hin
      omega
    · rintro ⟨h1, h2, h3, h4⟩
      refine ⟨(128 * ((x / 128).toNat : Int), 128 * ((y / 128).toNat : Int)), ?_, ?_⟩
      · rw [mem_bgTiles]
        exact ⟨(x / 128).toNat, (y / 128).toNat, by omega, by omega, rfl⟩
      · unfold InTile
        simp only
        omega

/-! ## The object capture -/

theorem finalized_sampleOf (input : Mat) (pt1 pt2 : Point) (hin : RegionInside input pt1 pt2) :
    Finalized (sampleOf input pt1 pt2) := by
  have hlen := regionColors_length_pos input pt1 pt2 hin
  obtain ⟨d, hd, hcells, hsum⟩ :=
    sampled_normalised ColorDistribution.new (regionColors input pt1 pt2) hlen
  have h1 := getColorDistribution_sampleOf input pt1 pt2 hin
  obtain ⟨hx0, _, hx, hy0, _, hy⟩ := hin
  rw [getColorDistribution_eq input pt1 pt2 hx0 hx hy0 hy] at h1
  have h2 : (List.foldl add ColorDistribution.new.reset (regionColors input pt1 pt2)).finished
      = .ok (sampleOf input pt1 pt2) := h1
  rw [hd] at h2
  have h3 : d = sampleOf input pt1 pt2 := Except.ok.inj h2
  rw [← h3]
  exact ⟨fun i j k => (hcells i j k).1, hsum⟩

theorem keyA_ok (img_input : Mat) (st : Session)
    (hin : RegionInside img_input mainPt1 mainPt2) :
    keyA img_input st =
      .ok { col_hists := st.col_hists
            col_hists_object := st.col_hists_object ++ [sampleOf img_input mainPt1 mainPt2] } := by
  unfold keyA
  rw [getColorDistribution_sampleOf img_input _ _ hin]
  rfl

theorem minChi_pair (q m1 m2 : ColorDistribution) :
    minChi q [m1, m2] = min FLT_MAX (min (chiSquare q m1) (chiSquare q m2)) := by
  show fmin (fmin FLT_MAX (chiSquare q m1)) (chiSquare q m2) = _
  rw [fmin_eq_min, fmin_eq_min, min_assoc]

theorem chiSquare_spike_oneHot (i j k i0 j0 k0 : Fin 8) (v : ℚ) (n : Int) (hv : 0 < v)
    (h : ¬ (i = i0 ∧ j = j0 ∧ k = k0)) :
    chiSquare (spike i j k v) (oneHot i0 j0 k0 n) = v + 1 := by
  unfold chiSquare
  have ht : ∀ a b c : Fin 8, chiTerm (spike i j k v) (oneHot i0 j0 k0 n) a b c
      = v * (if a = i ∧ b = j ∧ c = k then (1 : ℚ) else 0)
        + (if a = i0 ∧ b = j0 ∧ c = k0 then (1 : ℚ) else 0) := by
    intro a b c
    unfold chiTerm spike oneHot
    have hv' : v ≠ 0 := ne_of_gt hv
    by_cases h1 : a = i ∧ b = j ∧ c = k
    · by_cases h2 : a = i0 ∧ b = j0 ∧ c = k0
      · exfalso
        apply h
        obtain ⟨e1, e2, e3⟩ := h1
        obtain ⟨f1, f2, f3⟩ := h2
        exact ⟨e1.symm.trans f1, e2.symm.trans f2, e3.symm.trans f3⟩
      · simp only [if_pos h1, if_neg h2, add_zero, sub_zero, if_neg hv', mul_one]
        field_simp
        ring
    · by_cases h2 : a = i0 ∧ b = j0 ∧ c = k0
      · simp only [if_neg h1, if_pos h2]
        norm_num
      · simp only [if_neg h1, if_neg h2]
        norm_num
  simp only [ht, Finset.sum_add_distrib, ← Finset.mul_sum, sum_indicator]
  ring

theorem redFrame_capture :
    sampleOf redFrame mainPt1 mainPt2
      = oneHot 7 0 0 ((regionColors redFrame mainPt1 mainPt2).length : Int) := by
  have hin : RegionInside redFrame mainPt1 mainPt2 := by decide
  have hu : RegionUniform redFrame mainPt1 mainPt2 ⟨255, 0, 0⟩ := fun _ _ _ _ _ _ => rfl
  have h1 := getColorDistribution_uniform redFrame mainPt1 mainPt2 _ hin hu
  rw [getColorDistribution_sampleOf redFrame _ _ hin] at h1
  simp only [bin_zero, bin_255] at h1
  exact Except.ok.inj h1

/-! ## Rounding to binary32 -/

theorem roundHalfEven_floor (q : ℚ) (f : Int) (h1 : (f : ℚ) ≤ q) (h2 : q - (f : ℚ) < 1 / 2) :
    roundHalfEven q = f := by
  have hf : ⌊q⌋ = f := Int.floor_eq_iff.mpr ⟨h1, by linarith⟩
  unfold roundHalfEven
  simp only [hf]
  rw [if_pos h2]

theorem roundHalfEven_intCast (f : Int) : roundHalfEven (f : ℚ) = f :=
  roundHalfEven_floor (f : ℚ) f (le_refl _) (by norm_num)

theorem roundHalfEven_ceil (q : ℚ) (f : Int) (h1 : (f : ℚ) ≤ q) (h2 : 1 / 2 < q - (f : ℚ))
    (h3 : q < (f : ℚ) + 1) : roundHalfEven q = f + 1 := by
  have hf : ⌊q⌋ = f := Int.floor_eq_iff.mpr ⟨h1, h3⟩
  unfold roundHalfEven
  simp only [hf]
  rw [if_neg (by linarith), if_pos h2]

theorem roundHalfEven_tie_even (q : ℚ) (f : Int) (h : q = (f : ℚ) + 1 / 2) (hev : f % 2 = 0) :
    roundHalfEven q = f := by
  have hf : ⌊q⌋ = f := Int.floor_eq_iff.mpr ⟨by linarith, by linarith⟩
  unfold roundHalfEven
  simp only [hf]
  rw [if_neg (by linarith), if_neg (by linarith), if_pos hev]

theorem log2_eq (x : ℚ) (e : Int) (h1 : (2 : ℚ) ^ e ≤ x) (h2 : x < (2 : ℚ) ^ (e + 1)) :
    Int.log 2 x = e := by
  have hpos : 0 < x := lt_of_lt_of_le (by positivity) h1
  have a1 : e ≤ Int.log 2 x :=
    (Int.zpow_le_iff_le_log (by norm_num : 1 < 2) hpos).mp (by exact_mod_cast h1)
  have a2 : Int.log 2 x < e + 1 :=
    (Int.lt_zpow_iff_log_lt (by norm_num : 1 < 2) hpos).mp (by exact_mod_cast h2)
  omega

theorem quantum_eq (x : ℚ) (e : Int) (h1 : (2 : ℚ) ^ e ≤ |x|) (h2 : |x| < (2 : ℚ) ^ (e + 1))
    (he : -126 ≤ e) : quantum x = (2 : ℚ) ^ (e - 23) := by
  unfold quantum
  rw [log2_eq |x| e h1 h2, max_eq_left he]

theorem quantum_subnormal (x : ℚ) (hx : x ≠ 0) (h : |x| < (2 : ℚ) ^ (-126 : Int)) :
    quantum x = (2 : ℚ) ^ (-149 : Int) := by
  unfold quantum
  have hpos : 0 < |x| := abs_pos.mpr hx
  have hlt : Int.log 2 |x| < -126 :=
    (Int.lt_zpow_iff_log_lt (by norm_num : 1 < 2) hpos).mp (by exact_mod_cast h)
  rw [max_eq_right (le_of_lt hlt)]
  norm_num

theorem quantum_pos (x : ℚ) : 0 < quantum x := by
  unfold quantum
  positivity

theorem roundQ_eq (x : ℚ) (e n : Int) (hx : x ≠ 0) (h1 : (2 : ℚ) ^ e ≤ |x|)
    (h2 : |x| < (2 : ℚ) ^ (e + 1)) (he : -126 ≤ e)
    (hn : roundHalfEven (x / (2 : ℚ) ^ (e - 23)) = n) :
    roundQ x = (n : ℚ) * (2 : ℚ) ^ (e - 23) := by
  unfold roundQ
  rw [if_neg hx, quantum_eq x e h1 h2 he, hn]

theorem roundQ_subnormal (x : ℚ) (n : Int) (h : |x| < (2 : ℚ) ^ (-126 : Int))
    (hn : roundHalfEven (x / (2 : ℚ) ^ (-149 : Int)) = n) :
    roundQ x = (n : ℚ) * (2 : ℚ) ^ (-149 : Int) := by
  unfold roundQ
  by_cases hx : x = 0
  · rw [if_pos hx]
    rw [hx, zero_div] at hn
    have : roundHalfEven (0 : ℚ) = 0 := by
      have := roundHalfEven_intCast 0
      simpa using this
    rw [this] at hn
    rw [← hn]
    simp
  · rw [if_neg hx, quantum_subnormal x hx h, hn]

theorem roundQ_of_multiple (x : ℚ) (k : Int) (hk : x / quantum x = (k : ℚ)) : roundQ x = x := by
  unfold roundQ
  by_cases hx : x = 0
  · rw [if_pos hx, hx]
  · rw [if_neg hx, hk, roundHalfEven_intCast, ← hk]
    exact div_mul_cancel₀ x (ne_of_gt (quantum_pos x))

theorem roundQ_zero : roundQ 0 = 0 := by
  unfold roundQ
  rw [if_pos rfl]

theorem roundQ_natCast (n : Nat) (hn : n ≤ 2 ^ 24) : roundQ (n : ℚ) = (n : ℚ) := by
  rcases Nat.eq_zero_or_pos n with h0 | hpos
  · rw [h0]
    exact roundQ_zero
  · have hlog : Int.log 2 |(n : ℚ)| = (Nat.log 2 n : Int) := by
      rw [abs_of_nonneg (by positivity : (0 : ℚ) ≤ (n : ℚ))]
      exact Int.log_natCast 2 n
    have hle : Nat.log 2 n ≤ 24 := by
      have h1 : Nat.log 2 n ≤ Nat.log 2 (2 ^ 24) := Nat.log_mono_right hn
      rwa [Nat.log_pow (by norm_num : 1 < 2)] at h1
    have hq : quantum (n : ℚ) = (2 : ℚ) ^ ((Nat.log 2 n : Int) - 23) := by
      unfold quantum
      rw [hlog, max_eq_left (by omega)]
    rcases Nat.lt_or_ge (Nat.log 2 n) 24 with hlt | hge
    · apply roundQ_of_multiple (n : ℚ) ((n * 2 ^ (23 - Nat.log 2 n) : Nat) : Int)
      rw [hq]
      have he : ((Nat.log 2 n : Int) - 23) = -((23 - Nat.log 2 n : Nat) : Int) := by omega
      rw [he, zpow_neg, zpow_natCast, div_inv_eq_mul]
      push_cast
      ring
    · have hL : Nat.log 2 n = 24 := le_antisymm hle hge
      have h2 : 2 ^ 24 ≤ n := by
        have := Nat.pow_log_le_self 2 (Nat.pos_iff_ne_zero.mp hpos)
        rwa [hL] at this
      have hn' : n = 2 ^ 24 := le_antisymm hn h2
      apply roundQ_of_multiple (n : ℚ) ((2 ^ 23 : Nat) : Int)
      rw [hq, hL, hn']
      norm_num

theorem FLT_MAX_pos : (0 : ℚ) < FLT_MAX := by
  unfold FLT_MAX
  norm_num

theorem ofRat_eq_fin (x : ℚ) (h1 : roundQ x ≤ FLT_MAX) (h2 : -FLT_MAX ≤ roundQ x) :
    F32.ofRat x = .fin (roundQ x) := by
  unfold F32.ofRat
  rw [if_neg (not_lt.mpr h1), if_neg (not_lt.mpr h2)]

theorem ofRat_zero : F32.ofRat 0 = .fin 0 := by
  have h := ofRat_eq_fin 0 (by rw [roundQ_zero]; exact le_of_lt FLT_MAX_pos)
    (by rw [roundQ_zero]; linarith [FLT_MAX_pos])
  rw [roundQ_zero] at h
  exact h

theorem ofRat_natCast (n : Nat) (hn : n ≤ 2 ^ 24) : F32.ofRat (n : ℚ) = .fin (n : ℚ) := by
  have hr := roundQ_natCast n hn
  have hb : (n : ℚ) ≤ FLT_MAX := by
    have : (n : ℚ) ≤ ((2 ^ 24 : Nat) : ℚ) := by exact_mod_cast hn
    unfold FLT_MAX
    push_cast at this
    linarith
  have h := ofRat_eq_fin (n : ℚ) (by rw [hr]; exact hb)
    (by rw [hr]; linarith [FLT_MAX_pos, (by positivity : (0 : ℚ) ≤ (n : ℚ))])
  rw [hr] at h
  exact h

theorem ofRat_valid (x q : ℚ) (h : F32.ofRat x = .fin q) : q ≤ FLT_MAX ∧ -FLT_MAX ≤ q := by
  unfold F32.ofRat at h
  split at h
  · cases h
  · split at h
    · cases h
    · rename_i h1 h2
      have : roundQ x = q := F32.fin.inj h
      rw [← this]
      exact ⟨not_lt.mp h1, not_lt.mp h2⟩

/-! ## Rounding of particular values -/

theorem roundQ_eq_pos (x : ℚ) (e n : Int) (hx : 0 < x) (h1 : (2 : ℚ) ^ e ≤ x)
    (h2 : x < (2 : ℚ) ^ (e + 1)) (he : -126 ≤ e)
    (hn : roundHalfEven (x / (2 : ℚ) ^ (e - 23)) = n) :
    roundQ x = (n : ℚ) * (2 : ℚ) ^ (e - 23) :=
  roundQ_eq x e n (ne_of_gt hx) (by rw [abs_of_pos hx]; exact h1)
    (by rw [abs_of_pos hx]; exact h2) he hn

theorem roundQ_subnormal_pos (x : ℚ) (n : Int) (hx : 0 < x) (h : x < (2 : ℚ) ^ (-126 : Int))
    (hn : roundHalfEven (x / (2 : ℚ) ^ (-149 : Int)) = n) :
    roundQ x = (n : ℚ) * (2 : ℚ) ^ (-149 : Int) :=
  roundQ_subnormal x n (by rw [abs_of_pos hx]; exact h) hn

theorem roundQ_16777217 : roundQ 16777217 = 16777216 := by
  have h := roundQ_eq_pos 16777217 24 8388608 (by norm_num) (by norm_num) (by norm_num) (by norm_num)
    (roundHalfEven_tie_even _ 8388608 (by norm_num) (by decide))
  rw [h]
  norm_num

theorem ofRat_16777217 : F32.ofRat 16777217 = .fin 16777216 := by
  have h := ofRat_eq_fin 16777217 (by rw [roundQ_16777217]; unfold FLT_MAX; norm_num)
    (by rw [roundQ_16777217]; unfold FLT_MAX; norm_num)
  rw [roundQ_16777217] at h
  exact h

theorem roundQ_16785409 : roundQ 16785409 = 16785408 := by
  have h := roundQ_eq_pos 16785409 24 8392704 (by norm_num) (by norm_num) (by norm_num) (by norm_num)
    (roundHalfEven_tie_even _ 8392704 (by norm_num) (by decide))
  rw [h]
  norm_num

theorem ofRat_16785409 : F32.ofRat 16785409 = .fin 16785408 := by
  have h := ofRat_eq_fin 16785409 (by rw [roundQ_16785409]; unfold FLT_MAX; norm_num)
    (by rw [roundQ_16785409]; unfold FLT_MAX; norm_num)
  rw [roundQ_16785409] at h
  exact h

theorem roundQ_saturated_cell : roundQ (16777216 / 16785408) = 4192257 / 4194304 := by
  have h := roundQ_eq_pos (16777216 / 16785408) (-1) (16769027 + 1) (by norm_num)
    (by norm_num) (by norm_num) (by norm_num)
    (roundHalfEven_ceil _ 16769027 (by norm_num) (by norm_num) (by norm_num))
  rw [h]
  norm_num

theorem ofRat_saturated_cell :
    F32.ofRat (16777216 / 16785408) = .fin (4192257 / 4194304) := by
  have h := ofRat_eq_fin (16777216 / 16785408)
    (by rw [roundQ_saturated_cell]; unfold FLT_MAX; norm_num)
    (by rw [roundQ_saturated_cell]; unfold FLT_MAX; norm_num)
  rw [roundQ_saturated_cell] at h
  exact h

theorem roundQ_underflow : roundQ ((2 : ℚ) ^ (-200 : Int)) = 0 := by
  have h := roundQ_subnormal_pos ((2 : ℚ) ^ (-200 : Int)) 0 (by positivity) (by norm_num)
    (roundHalfEven_floor _ 0 (by norm_num) (by norm_num))
  rw [h]
  norm_num

theorem ofRat_underflow : F32.ofRat ((2 : ℚ) ^ (-200 : Int)) = .fin 0 := by
  have h := ofRat_eq_fin ((2 : ℚ) ^ (-200 : Int))
    (by rw [roundQ_underflow]; exact le_of_lt FLT_MAX_pos)
    (by rw [roundQ_underflow]; linarith [FLT_MAX_pos])
  rw [roundQ_underflow] at h
  exact h

theorem roundQ_FLT_MAX : roundQ FLT_MAX = FLT_MAX := by
  have h := roundQ_eq_pos FLT_MAX 127 16777215 (by unfold FLT_MAX; norm_num)
    (by unfold FLT_MAX; norm_num) (by unfold FLT_MAX; norm_num) (by norm_num)
    (by
      have : FLT_MAX / (2 : ℚ) ^ ((127 : Int) - 23) = ((16777215 : Int) : ℚ) := by
        unfold FLT_MAX
        norm_num
      rw [this]
      exact roundHalfEven_intCast _)
  rw [h]
  unfold FLT_MAX
  norm_num

theorem ofRat_FLT_MAX : F32.ofRat FLT_MAX = .fin FLT_MAX := by
  have h := ofRat_eq_fin FLT_MAX (by rw [roundQ_FLT_MAX])
    (by rw [roundQ_FLT_MAX]; linarith [FLT_MAX_pos])
  rw [roundQ_FLT_MAX] at h
  exact h

theorem ofRat_FLT_MAX_sq : F32.ofRat (FLT_MAX * FLT_MAX) = .pinf := by
  have h := roundQ_eq_pos (FLT_MAX * FLT_MAX) 255 16777214 (by unfold FLT_MAX; norm_num)
    (by unfold FLT_MAX; norm_num) (by unfold FLT_MAX; norm_num) (by norm_num)
    (roundHalfEven_floor _ 16777214 (by unfold FLT_MAX; norm_num) (by unfold FLT_MAX; norm_num))
  unfold F32.ofRat
  rw [h, if_pos (by unfold FLT_MAX; norm_num)]

/-! ## The sampler in the machine reading -/

theorem wrap32_of_range (z : Int) (h1 : -2 ^ 31 ≤ z) (h2 : z < 2 ^ 31) : wrap32 z = z := by
  unfold wrap32
  omega

theorem wrap32_add (a b : Int) : wrap32 (wrap32 a + b) = wrap32 (a + b) := by
  unfold wrap32
  omega

theorem nb_foldl_add32 (R : Reading) (l : List Vec3b) (s : ColorDistribution32)
    (h1 : -2 ^ 31 ≤ s.nb) (h2 : s.nb < 2 ^ 31) :
    (l.foldl (ColorDistribution32.add R) s).nb = wrap32 (s.nb + (l.length : Int)) := by
  induction l generalizing s with
  | nil =>
    show s.nb = wrap32 (s.nb + 0)
    rw [add_zero, wrap32_of_range s.nb h1 h2]
  | cons c cs ih =>
    have hr : -2 ^ 31 ≤ wrap32 (s.nb + 1) ∧ wrap32 (s.nb + 1) < 2 ^ 31 := by
      unfold wrap32
      omega
    rw [List.foldl_cons, ih _ hr.1 hr.2, List.length_cons]
    show wrap32 (wrap32 (s.nb + 1) + _) = _
    rw [wrap32_add]
    push_cast
    ring_nf

theorem data_foldl_add32 (R : Reading) (K : Nat)
    (hR : ∀ n : Nat, n ≤ K → R (n : ℚ) = .fin (n : ℚ)) :
    ∀ (l : List Vec3b) (cd : ColorDistribution) (s : ColorDistribution32) (M : Nat),
      (∀ i j k, s.data i j k = .fin (cd.data i j k)) →
      (∀ i j k, ∃ n : Nat, n ≤ M ∧ cd.data i j k = (n : ℚ)) →
      M + l.length ≤ K →
      ∀ i j k, (l.foldl (ColorDistribution32.add R) s).data i j k
        = .fin ((l.foldl ColorDistribution.add cd).data i j k) := by
  intro l
  induction l with
  | nil =>
    intro cd s M hs _ _ i j k
    exact hs i j k
  | cons c cs ih =>
    intro cd s M hs hnat hlen i j k
    rw [List.length_cons] at hlen
    rw [List.foldl_cons, List.foldl_cons]
    apply ih (cd.add c) (ColorDistribution32.add R s c) (M + 1)
    · intro a b d
      unfold ColorDistribution32.add ColorDistribution.add
      simp only
      split
      · obtain ⟨n, hn, hc⟩ := hnat a b d
        rw [hs a b d, hc]
        show R ((n : ℚ) + 1) = _
        have h1 := hR (n + 1) (by omega)
        push_cast at h1
        exact h1
      · exact hs a b d
    · intro a b d
      obtain ⟨n, hn, hc⟩ := hnat a b d
      unfold ColorDistribution.add
      simp only
      split
      · exact ⟨n + 1, by omega, by rw [hc]; push_cast; rfl⟩
      · exact ⟨n, by omega, hc⟩
    · omega

theorem exactReading_natCast (K : Nat) :
    ∀ n : Nat, n ≤ K → exactReading (n : ℚ) = .fin (n : ℚ) :=
  fun _ _ => rfl

theorem binary32_natCast : ∀ n : Nat, n ≤ 2 ^ 24 → binary32 (n : ℚ) = .fin (n : ℚ) :=
  fun n hn => ofRat_natCast n hn

theorem data_foldl_add32_reset (R : Reading) (K : Nat)
    (hR : ∀ n : Nat, n ≤ K → R (n : ℚ) = .fin (n : ℚ)) (l : List Vec3b) (hl : l.length ≤ K)
    (uninit : ColorDistribution32) (i j k : Fin 8) :
    (l.foldl (ColorDistribution32.add R) (ColorDistribution32.reset uninit)).data i j k
      = .fin ((l.foldl ColorDistribution.add ColorDistribution.new).data i j k) :=
  data_foldl_add32 R K hR l ColorDistribution.new (ColorDistribution32.reset uninit) 0
    (fun _ _ _ => rfl) (fun _ _ _ => ⟨0, le_refl 0, by
      show (0 : ℚ) = ((0 : Nat) : ℚ)
      norm_num⟩) (by omega) i j k

theorem getColorDistribution32_eq (R : Reading) (input : Mat) (pt1 pt2 : Point)
    (uninit : ColorDistribution32)
    (hx0 : 0 ≤ pt1.x) (hx : pt2.x ≤ (input.cols : Int))
    (hy0 : 0 ≤ pt1.y) (hy : pt2.y ≤ (input.rows : Int)) :
    getColorDistribution32 R input pt1 pt2 uninit =
      .ok (ColorDistribution32.finished R ((regionColors input pt1 pt2).foldl
        (ColorDistribution32.add R) (ColorDistribution32.reset uninit))) := by
  unfold getColorDistribution32 regionColors
  have hrow : ∀ (cd : ColorDistribution32), ∀ y ∈ intRange pt1.y pt2.y,
      (intRange pt1.x pt2.x).foldlM (fun cd x => do
        let color ← input.at y x
        pure (ColorDistribution32.add R cd color)) cd
      = .ok (((intRange pt1.x pt2.x).map (fun x => input.pix y.toNat x.toNat)).foldl
          (ColorDistribution32.add R) cd) := by
    intro cd y hmem
    rw [mem_intRange] at hmem
    rw [List.foldl_map]
    apply foldlM_ok_mem
    intro s x hxm
    rw [mem_intRange] at hxm
    rw [at_inside input y x (by omega) (by omega) (by omega) (by omega)]
    rfl
  rw [foldlM_ok_mem _ (fun cd y =>
    ((intRange pt1.x pt2.x).map (fun x => input.pix y.toNat x.toNat)).foldl
      (ColorDistribution32.add R) cd) _ hrow]
  rw [List.foldl_flatten, List.foldl_map]
  rfl

theorem getColorDistribution32_coords (R : Reading) (input : Mat) (pt1 pt2 : Point)
    (uninit : ColorDistribution32) :
    getColorDistribution32 R input pt1 pt2 uninit =
      ((regionCoords pt1 pt2).foldlM (fun cd p => do
        let color ← input.at p.1 p.2
        pure (ColorDistribution32.add R cd color)) (ColorDistribution32.reset uninit)
        >>= fun cd => pure (ColorDistribution32.finished R cd)) := by
  unfold getColorDistribution32 regionCoords
  rw [foldlM_flatten_map (fun (cd : ColorDistribution32) (p : Int × Int) => do
        let color ← input.at p.1 p.2
        pure (ColorDistribution32.add R cd color)) (fun (y x : Int) => (y, x))]

/-- The result of the machine sampler on a region inside the image whose counts stay in
the range where the reading delivers them unchanged. -/
theorem getColorDistribution32_sample (R : Reading) (K : Nat)
    (hR : ∀ n : Nat, n ≤ K → R (n : ℚ) = .fin (n : ℚ))
    (input : Mat) (pt1 pt2 : Point) (uninit : ColorDistribution32)
    (hin : RegionInside input pt1 pt2)
    (hK : (regionColors input pt1 pt2).length ≤ K)
    (h31 : (regionColors input pt1 pt2).length < 2 ^ 31) :
    ∃ d, getColorDistribution32 R input pt1 pt2 uninit = .ok d ∧
      d.nb = ((regionColors input pt1 pt2).length : Int) ∧
      ∀ i j k, d.data i j k =
        R (((regionColors input pt1 pt2).foldl ColorDistribution.add
              ColorDistribution.new).data i j k
            / ((regionColors input pt1 pt2).length : ℚ)) := by
  have hlen := regionColors_length_pos input pt1 pt2 hin
  obtain ⟨hx0, _, hx, hy0, _, hy⟩ := hin
  have hnb : ((regionColors input pt1 pt2).foldl (ColorDistribution32.add R)
      (ColorDistribution32.reset uninit)).nb = ((regionColors input pt1 pt2).length : Int) := by
    rw [nb_foldl_add32 R _ _ (by show -2 ^ 31 ≤ (0 : Int); norm_num)
      (by show (0 : Int) < 2 ^ 31; norm_num)]
    show wrap32 (0 + _) = _
    rw [zero_add, wrap32_of_range _ (by omega) (by omega)]
  refine ⟨_, getColorDistribution32_eq R input pt1 pt2 uninit hx0 hx hy0 hy, hnb, ?_⟩
  intro i j k
  show F32.div R (((regionColors input pt1 pt2).foldl (ColorDistribution32.add R)
      (ColorDistribution32.reset uninit)).data i j k) (F32.ofInt R _) = _
  rw [hnb, data_foldl_add32_reset R K hR _ hK uninit i j k]
  unfold F32.ofInt
  have hcast : (((regionColors input pt1 pt2).length : Int) : ℚ)
      = (((regionColors input pt1 pt2).length : Nat) : ℚ) := by push_cast; rfl
  rw [hcast, hR _ hK]
  have hne : ((regionColors input pt1 pt2).length : ℚ) ≠ 0 := by
    have : (regionColors input pt1 pt2).length ≠ 0 := by omega
    exact_mod_cast this
  show (if ((regionColors input pt1 pt2).length : ℚ) = 0 then _ else _) = _
  rw [if_neg hne]

theorem length_regionColors_int (input : Mat) (pt1 pt2 : Point) (hx : pt1.x ≤ pt2.x)
    (hy : pt1.y ≤ pt2.y) :
    ((regionColors input pt1 pt2).length : Int) = (pt2.x - pt1.x) * (pt2.y - pt1.y) := by
  rw [length_regionColors]
  push_cast
  rw [Int.toNat_of_nonneg (by omega), Int.toNat_of_nonneg (by omega)]
  ring

theorem length_regionCoords (input : Mat) (pt1 pt2 : Point) :
    (regionCoords pt1 pt2).length = (regionColors input pt1 pt2).length := by
  rw [regionColors_eq_map, List.length_map]

theorem count_eq_cellCount (input : Mat) (pt1 pt2 : Point) (i j k : Fin 8) :
    ((regionColors input pt1 pt2).foldl ColorDistribution.add ColorDistribution.new).data i j k
      = (cellCount input pt1 pt2 i j k : ℚ) := by
  rw [data_foldl_add_count]
  show (0 : ℚ) + _ = _
  rw [zero_add, regionColors_eq_map, List.countP_map]
  unfold cellCount
  congr 1
  apply List.countP_congr
  intro p _
  simp only [Function.comp, decide_eq_true_eq]
  constructor
  · rintro ⟨h1, h2, h3⟩
    exact ⟨congrArg Fin.val h1, congrArg Fin.val h2, congrArg Fin.val h3⟩
  · rintro ⟨h1, h2, h3⟩
    exact ⟨Fin.ext h1, Fin.ext h2, Fin.ext h3⟩

theorem cellCount_uniform (input : Mat) (pt1 pt2 : Point) (c : Vec3b)
    (hu : RegionUniform input pt1 pt2 c) :
    (cellCount input pt1 pt2 (bin c.val0) (bin c.val1) (bin c.val2) : ℚ)
      = ((regionColors input pt1 pt2).length : ℚ) := by
  rw [← count_eq_cellCount,
    data_foldl_add_uniform _ c (regionColors_uniform input pt1 pt2 c hu)]
  simp only [and_self, if_true]
  show (0 : ℚ) + _ = _
  rw [zero_add]

theorem cellCount_uniform_other (input : Mat) (pt1 pt2 : Point) (c : Vec3b)
    (hu : RegionUniform input pt1 pt2 c) (i j k : Fin 8)
    (h : ¬ (i = bin c.val0 ∧ j = bin c.val1 ∧ k = bin c.val2)) :
    (cellCount input pt1 pt2 i j k : ℚ) = 0 := by
  rw [← count_eq_cellCount,
    data_foldl_add_uniform _ c (regionColors_uniform input pt1 pt2 c hu), if_neg h]
  rfl

/-- The machine sampler with the binary32 reading on a region of at most `2^24` pixels. -/
theorem getColorDistribution32_small (input : Mat) (pt1 pt2 : Point)
    (uninit : ColorDistribution32) (hin : RegionInside input pt1 pt2)
    (hN : (pt2.x - pt1.x) * (pt2.y - pt1.y) ≤ 2 ^ 24) :
    ∃ d, getColorDistribution32 binary32 input pt1 pt2 uninit = .ok d ∧
      d.nb = (pt2.x - pt1.x) * (pt2.y - pt1.y) ∧
      ∀ i j k, d.data i j k =
        binary32 ((cellCount input pt1 pt2 i j k : ℚ)
          / ((regionColors input pt1 pt2).length : ℚ)) := by
  have hlenI := length_regionColors_int input pt1 pt2 (le_of_lt hin.2.1)
    (le_of_lt hin.2.2.2.2.1)
  have hK : (regionColors input pt1 pt2).length ≤ 2 ^ 24 := by
    have : ((regionColors input pt1 pt2).length : Int) ≤ 2 ^ 24 := by rw [hlenI]; exact hN
    exact_mod_cast this
  obtain ⟨d, hd, hnb, hdata⟩ := getColorDistribution32_sample binary32 (2 ^ 24)
    binary32_natCast input pt1 pt2 uninit hin hK (by omega)
  refine ⟨d, hd, by rw [hnb, hlenI], ?_⟩
  intro i j k
  rw [hdata, count_eq_cellCount]

theorem binary32_one : binary32 1 = .fin 1 := by
  have h := binary32_natCast 1 (by norm_num)
  simpa using h

theorem binary32_zero : binary32 0 = .fin 0 := ofRat_zero

theorem finished32_nb (R : Reading) (cd : ColorDistribution32) :
    (ColorDistribution32.finished R cd).nb = cd.nb := rfl

theorem finished32_data (R : Reading) (cd : ColorDistribution32) (i j k : Fin 8) :
    (ColorDistribution32.finished R cd).data i j k
      = F32.div R (cd.data i j k) (F32.ofInt R cd.nb) := rfl

theorem div_fin_fin (R : Reading) (a b : ℚ) (hb : b ≠ 0) :
    F32.div R (.fin a) (.fin b) = R (a / b) := by
  show (if b = 0 then _ else R (a / b)) = _
  rw [if_neg hb]

/-- The cell of a colour in a run of `add` over copies of that colour (binary32): the
count, which stops at `2^24`. -/
theorem data_foldl_add32_uniform (c : Vec3b) :
    ∀ (l : List Vec3b), (∀ v ∈ l, v = c) → ∀ (s : ColorDistribution32) (n : Nat),
      n ≤ 2 ^ 24 → s.data (bin c.val0) (bin c.val1) (bin c.val2) = .fin (n : ℚ) →
      (l.foldl (ColorDistribution32.add binary32) s).data (bin c.val0) (bin c.val1) (bin c.val2)
        = .fin ((min (n + l.length) (2 ^ 24) : Nat) : ℚ) := by
  intro l
  induction l with
  | nil =>
    intro _ s n hn hs
    rw [List.foldl_nil, hs, List.length_nil, add_zero, min_eq_left hn]
  | cons v vs ih =>
    intro h s n hn hs
    have hv : v = c := h v (List.mem_cons_self _ _)
    rw [List.foldl_cons, hv]
    have hstep : (ColorDistribution32.add binary32 s c).data (bin c.val0) (bin c.val1)
        (bin c.val2) = .fin ((min (n + 1) (2 ^ 24) : Nat) : ℚ) := by
      unfold ColorDistribution32.add
      simp only [and_self, if_true]
      rw [hs]
      show F32.ofRat ((n : ℚ) + 1) = _
      rcases Nat.lt_or_ge n (2 ^ 24) with hlt | hge
      · rw [min_eq_left (by omega)]
        have := ofRat_natCast (n + 1) (by omega)
        push_cast at this ⊢
        exact this
      · have hn' : n = 2 ^ 24 := le_antisymm hn hge
        rw [min_eq_right (by omega), hn']
        have := ofRat_16777217
        norm_num at this ⊢
        exact this
    have := ih (fun w hw => h w (List.mem_cons_of_mem _ hw))
      (ColorDistribution32.add binary32 s c) (min (n + 1) (2 ^ 24)) (min_le_right _ _) hstep
    rw [this, List.length_cons]
    congr 2
    omega

/-- A run of `add` over 16785409 copies of `(255, 0, 0)`, then `finished` (binary32): `nb`
is 16785409, the count of the cell `[7][0][0]` stops at `2^24`, and the cell of the result
is `4192257 / 4194304`. -/
theorem finished32_saturated (l : List Vec3b) (hl : ∀ v ∈ l, v = (⟨255, 0, 0⟩ : Vec3b))
    (hlen : l.length = 16785409) (s : ColorDistribution32) (hs0 : s.nb = 0)
    (hs : s.data 7 0 0 = .fin 0) :
    (ColorDistribution32.finished binary32
        (l.foldl (ColorDistribution32.add binary32) s)).nb = 16785409 ∧
    (ColorDistribution32.finished binary32
        (l.foldl (ColorDistribution32.add binary32) s)).data 7 0 0
      = .fin (4192257 / 4194304) := by
  have hnb : (l.foldl (ColorDistribution32.add binary32) s).nb = 16785409 := by
    rw [nb_foldl_add32 binary32 l s (by rw [hs0]; norm_num) (by rw [hs0]; norm_num), hlen, hs0]
    unfold wrap32
    norm_num
  have hcell := data_foldl_add32_uniform ⟨255, 0, 0⟩ l hl s 0 (by norm_num) (by
    simp only [bin_255, bin_zero]
    rw [hs]
    norm_num)
  rw [hlen] at hcell
  simp only [bin_255, bin_zero] at hcell
  have h1 : F32.ofInt binary32 16785409 = .fin 16785408 := by
    unfold F32.ofInt
    have := ofRat_16785409
    norm_num at this ⊢
    exact this
  have h2 : ((min (0 + 16785409) (2 ^ 24) : Nat) : ℚ) = 16777216 := by norm_num
  refine ⟨?_, ?_⟩
  · rw [finished32_nb]
    exact hnb
  · rw [finished32_data, hnb, hcell, h1, h2, div_fin_fin binary32 16777216 16785408 (by norm_num)]
    exact ofRat_saturated_cell

/-- The machine sampler on the 4097 x 4097 image `bigRedImage`: the count of the cell
`[7][0][0]` stops at `2^24`, and the cell of the result is `4192257 / 4194304`. -/
theorem bigRedImage_sample (uninit : ColorDistribution32) :
    ∃ d, getColorDistribution32 binary32 bigRedImage ⟨0, 0⟩ ⟨4097, 4097⟩ uninit = .ok d ∧
      d.nb = 16785409 ∧ d.data 7 0 0 = .fin (4192257 / 4194304) := by
  have hin : RegionInside bigRedImage ⟨0, 0⟩ ⟨4097, 4097⟩ := by decide
  have hu : RegionUniform bigRedImage ⟨0, 0⟩ ⟨4097, 4097⟩ ⟨255, 0, 0⟩ :=
    fun _ _ _ _ _ _ => rfl
  have hlen : (regionColors bigRedImage ⟨0, 0⟩ ⟨4097, 4097⟩).length = 16785409 := by
    rw [length_regionColors]
    rfl
  have hd := getColorDistribution32_eq binary32 bigRedImage ⟨0, 0⟩ ⟨4097, 4097⟩ uninit
    hin.1 hin.2.2.1 hin.2.2.2.1 hin.2.2.2.2.2
  have h := finished32_saturated (regionColors bigRedImage ⟨0, 0⟩ ⟨4097, 4097⟩)
    (regionColors_uniform bigRedImage _ _ _ hu) hlen (ColorDistribution32.reset uninit) rfl rfl
  exact ⟨_, hd, h.1, h.2⟩

/-- C9, counterexample: on the uniform 4097 x 4097 image `bigRedImage` the sampled cell
`[255 / 32][0][0]` is `4192257 / 4194304` (about 0.9995) and not 1: the `float` counter
stops at `2^24 = 16777216` while `nb` reaches `16785409`. -/
theorem uniform_region_counterexample :
    RegionInside bigRedImage ⟨0, 0⟩ ⟨4097, 4097⟩ ∧
    RegionUniform bigRedImage ⟨0, 0⟩ ⟨4097, 4097⟩ ⟨255, 0, 0⟩ ∧
    ∃ d, getColorDistribution32 binary32 bigRedImage ⟨0, 0⟩ ⟨4097, 4097⟩
        (ColorDistribution32.reset (spike32 0 0 0 0 0)) = .ok d ∧
      d.data (bin 255) (bin 0) (bin 0) = .fin (4192257 / 4194304) ∧
      d.data (bin 255) (bin 0) (bin 0) ≠ .fin 1 := by
  refine ⟨by decide, fun _ _ _ _ _ _ => rfl, ?_⟩
  obtain ⟨d, hd, _, hcell⟩ := bigRedImage_sample (ColorDistribution32.reset (spike32 0 0 0 0 0))
  refine ⟨d, hd, hcell, ?_⟩
  show d.data 7 0 0 ≠ _
  rw [hcell]
  intro h
  have := F32.fin.inj h
  norm_num at this

/-- C9 (amended): for every image and every non-empty in-bounds region of at most
`2^24 = 16777216` pixels that all have the same colour `c`, `getColorDistribution` returns
a distribution in which the cell `[c0 / 32][c1 / 32][c2 / 32]` is 1 and each of the other
511 cells is 0, whatever the local variable held before its constructor ran. -/
theorem uniform_region_one_cell (input : Mat) (pt1 pt2 : Point) (c : Vec3b)
    (uninit : ColorDistribution32)
    (hin : RegionInside input pt1 pt2) (hu : RegionUniform input pt1 pt2 c)
    (hN : (pt2.x - pt1.x) * (pt2.y - pt1.y) ≤ 2 ^ 24) :
    ∃ d, getColorDistribution32 binary32 input pt1 pt2 uninit = .ok d ∧
      ((bin c.val0).val = c.val0.val / 32 ∧ (bin c.val1).val = c.val1.val / 32 ∧
        (bin c.val2).val = c.val2.val / 32) ∧
      d.data (bin c.val0) (bin c.val1) (bin c.val2) = .fin 1 ∧
      ∀ i j k, ¬ (i = bin c.val0 ∧ j = bin c.val1 ∧ k = bin c.val2) →
        d.data i j k = .fin 0 := by
  have hlen := regionColors_length_pos input pt1 pt2 hin
  have hne : ((regionColors input pt1 pt2).length : ℚ) ≠ 0 := by
    have : (regionColors input pt1 pt2).length ≠ 0 := by omega
    exact_mod_cast this
  obtain ⟨d, hd, _, hdata⟩ := getColorDistribution32_small input pt1 pt2 uninit hin hN
  refine ⟨d, hd, ⟨rfl, rfl, rfl⟩, ?_, ?_⟩
  · rw [hdata, cellCount_uniform input pt1 pt2 c hu, div_self hne, binary32_one]
  · intro i j k h
    rw [hdata, cellCount_uniform_other input pt1 pt2 c hu i j k h, zero_div, binary32_zero]

/-- C9 (amended), witness: the left half of `splitImage`, 4 pixels, all `(255, 0, 0)`. -/
theorem uniform_region_one_cell_witness :
    ∃ d, getColorDistribution32 binary32 splitImage ⟨0, 0⟩ ⟨2, 2⟩ (spike32 1 1 1 9 5) = .ok d ∧
      ((bin (255 : Fin 256)).val = (255 : Fin 256).val / 32 ∧
        (bin (0 : Fin 256)).val = (0 : Fin 256).val / 32 ∧
        (bin (0 : Fin 256)).val = (0 : Fin 256).val / 32) ∧
      d.data (bin 255) (bin 0) (bin 0) = .fin 1 ∧
      ∀ i j k, ¬ (i = bin 255 ∧ j = bin 0 ∧ k = bin 0) → d.data i j k = .fin 0 :=
  uniform_region_one_cell splitImage ⟨0, 0⟩ ⟨2, 2⟩ ⟨255, 0, 0⟩ (spike32 1 1 1 9 5) (by decide)
    splitImage_left_uniform (by decide)

theorem cellCount_bigRedImage :
    cellCount bigRedImage ⟨0, 0⟩ ⟨4097, 4097⟩ 7 0 0 = 16785409 := by
  have hu : RegionUniform bigRedImage ⟨0, 0⟩ ⟨4097, 4097⟩ ⟨255, 0, 0⟩ :=
    fun _ _ _ _ _ _ => rfl
  have hlen : (regionColors bigRedImage ⟨0, 0⟩ ⟨4097, 4097⟩).length = 16785409 := by
    rw [length_regionColors]
    rfl
  have h := cellCount_uniform bigRedImage ⟨0, 0⟩ ⟨4097, 4097⟩ ⟨255, 0, 0⟩ hu
  rw [hlen] at h
  simp only [bin_255, bin_zero] at h
  exact_mod_cast h

/-- C18, counterexample: on the whole of the 4097 x 4097 image `bigRedImage` (all pixels
`(255, 0, 0)`) the sampler returns `nb = 4097 * 4097 = 16785409`, all 16785409 pixels of
the region have the bins `[7][0][0]`, and the cell `[7][0][0]` of the result is
`4192257 / 4194304`, not the count divided by `nb` (which is 1): the `float` count of the
cell stops at `2^24 = 16777216`. -/
theorem sampler_reference_counterexample :
    RegionInside bigRedImage ⟨0, 0⟩ ⟨4097, 4097⟩ ∧
    cellCount bigRedImage ⟨0, 0⟩ ⟨4097, 4097⟩ 7 0 0 = 16785409 ∧
    ∃ d, getColorDistribution32 binary32 bigRedImage ⟨0, 0⟩ ⟨4097, 4097⟩
        (spike32 0 0 0 0 0) = .ok d ∧
      d.nb = (4097 - 0) * (4097 - 0) ∧
      d.data 7 0 0 = .fin (4192257 / 4194304) ∧
      d.data 7 0 0 ≠ binary32 ((cellCount bigRedImage ⟨0, 0⟩ ⟨4097, 4097⟩ 7 0 0 : ℚ)
        / ((d.nb : Int) : ℚ)) := by
  refine ⟨by decide, cellCount_bigRedImage, ?_⟩
  obtain ⟨d, hd, hnb, hcell⟩ := bigRedImage_sample (spike32 0 0 0 0 0)
  refine ⟨d, hd, by rw [hnb]; norm_num, hcell, ?_⟩
  rw [hcell, hnb, cellCount_bigRedImage]
  have h1 : ((16785409 : Nat) : ℚ) / ((16785409 : Int) : ℚ) = 1 := by norm_num
  rw [h1, binary32_one]
  intro h
  have := F32.fin.inj h
  norm_num at this

/-- C18 (amended): for every image and every non-empty in-bounds region of at most
`2^24 = 16777216` pixels, `getColorDistribution` is the run of `add` over the pixels at the
coordinates `regionCoords`, which are exactly the `(y, x)` with `pt1.y <= y < pt2.y` and
`pt1.x <= x < pt2.x`, each once; the result has `nb = (pt2.x - pt1.x) * (pt2.y - pt1.y)`
and each cell `[i][j][k]` is the `float` nearest to the number of region pixels with
`c0 / 32 = i`, `c1 / 32 = j`, `c2 / 32 = k` divided by `nb` (binary32 `float`, 32-bit
`int`, whatever the local variable held before its constructor ran). -/
theorem sampler_reference_small (input : Mat) (pt1 pt2 : Point) (uninit : ColorDistribution32)
    (hin : RegionInside input pt1 pt2)
    (hN : (pt2.x - pt1.x) * (pt2.y - pt1.y) ≤ 2 ^ 24) :
    getColorDistribution32 binary32 input pt1 pt2 uninit =
      ((regionCoords pt1 pt2).foldlM (fun cd p => do
        let color ← input.at p.1 p.2
        pure (ColorDistribution32.add binary32 cd color)) (ColorDistribution32.reset uninit)
        >>= fun cd => pure (ColorDistribution32.finished binary32 cd)) ∧
    (∀ y x, (y, x) ∈ regionCoords pt1 pt2 ↔ pt1.y ≤ y ∧ y < pt2.y ∧ pt1.x ≤ x ∧ x < pt2.x) ∧
    (regionCoords pt1 pt2).Nodup ∧
    ∃ d, getColorDistribution32 binary32 input pt1 pt2 uninit = .ok d ∧
      d.nb = (pt2.x - pt1.x) * (pt2.y - pt1.y) ∧
      ∀ i j k, d.data i j k =
        binary32 ((cellCount input pt1 pt2 i j k : ℚ)
          / (((pt2.x - pt1.x) * (pt2.y - pt1.y) : Int) : ℚ)) := by
  have hlenI := length_regionColors_int input pt1 pt2 (le_of_lt hin.2.1)
    (le_of_lt hin.2.2.2.2.1)
  obtain ⟨d, hd, hnb, hdata⟩ := getColorDistribution32_small input pt1 pt2 uninit hin hN
  refine ⟨getColorDistribution32_coords binary32 input pt1 pt2 uninit,
    mem_regionCoords pt1 pt2, nodup_regionCoords pt1 pt2, d, hd, hnb, ?_⟩
  intro i j k
  rw [hdata, ← hlenI]
  rfl

/-- C18 (amended), witness: the whole of `splitImage`, 8 pixels. -/
theorem sampler_reference_small_witness :
    ∃ d, getColorDistribution32 binary32 splitImage ⟨0, 0⟩ ⟨4, 2⟩ (spike32 1 1 1 9 5) = .ok d ∧
      d.nb = (4 - 0) * (2 - 0) ∧
      ∀ i j k, d.data i j k =
        binary32 ((cellCount splitImage ⟨0, 0⟩ ⟨4, 2⟩ i j k : ℚ)
          / ((((4 : Int) - 0) * (2 - 0) : Int) : ℚ)) :=
  (sampler_reference_small splitImage ⟨0, 0⟩ ⟨4, 2⟩ (spike32 1 1 1 9 5) (by decide)
    (by decide)).2.2.2

theorem ColorDistribution32.eq_of (a b : ColorDistribution32) (h1 : a.data = b.data)
    (h2 : a.nb = b.nb) : a = b := by
  cases a
  cases b
  simp only [ColorDistribution32.mk.injEq]
  exact ⟨h1, h2⟩

/-- A run of `add` with the exact reading of `float` and the 32-bit `int`, while `nb`
stays below `2^31`, is the run of the exact model. -/
theorem foldl_add32_exact_lift (l : List Vec3b) (cd : ColorDistribution)
    (h1 : -2 ^ 31 ≤ cd.nb) (h2 : cd.nb + (l.length : Int) < 2 ^ 31) :
    l.foldl (ColorDistribution32.add exactReading) (lift cd)
      = lift (l.foldl ColorDistribution.add cd) := by
  induction l generalizing cd with
  | nil => rfl
  | cons c cs ih =>
    rw [List.length_cons] at h2
    push_cast at h2
    rw [List.foldl_cons, List.foldl_cons]
    have hstep : ColorDistribution32.add exactReading (lift cd) c
        = lift (ColorDistribution.add cd c) := by
      apply ColorDistribution32.eq_of
      · funext i j k
        unfold ColorDistribution32.add ColorDistribution.add lift
        simp only
        split
        · rfl
        · rfl
      · show wrap32 (cd.nb + 1) = cd.nb + 1
        exact wrap32_of_range _ (by omega) (by omega)
    rw [hstep]
    apply ih
    · show -2 ^ 31 ≤ cd.nb + 1
      omega
    · show cd.nb + 1 + (cs.length : Int) < 2 ^ 31
      omega

theorem reset32_eq_lift (uninit : ColorDistribution32) :
    ColorDistribution32.reset uninit = lift ColorDistribution.new := rfl

theorem finished32_exact_lift (cd d : ColorDistribution) (h : cd.finished = .ok d) :
    ColorDistribution32.finished exactReading (lift cd) = lift d := by
  unfold ColorDistribution.finished at h
  split at h
  · cases h
  · rename_i hnb
    have hd : d = { data := fun i j k => cd.data i j k / (cd.nb : ℚ), nb := cd.nb } := by
      injection h with h
      exact h.symm
    rw [hd]
    apply ColorDistribution32.eq_of
    · funext i j k
      show F32.div exactReading (F32.fin (cd.data i j k)) (F32.fin (cd.nb : ℚ)) = _
      show (if (cd.nb : ℚ) = 0 then _ else exactReading (cd.data i j k / (cd.nb : ℚ))) = _
      rw [if_neg hnb]
      rfl
    · rfl

/-- After `2^31` calls of `add` with one colour `(255, 0, 0)` from a reset distribution,
`finished()` leaves `-1` in the cell `[7][0][0]` (exact `float`, 32-bit `int`). -/
theorem finished32_wrapped (l : List Vec3b) (hl : ∀ v ∈ l, v = (⟨255, 0, 0⟩ : Vec3b))
    (hlen : l.length = 2147483648) (uninit : ColorDistribution32) :
    (ColorDistribution32.finished exactReading
        (l.foldl (ColorDistribution32.add exactReading) (ColorDistribution32.reset uninit))).nb
      = -2147483648 ∧
    (ColorDistribution32.finished exactReading
        (l.foldl (ColorDistribution32.add exactReading) (ColorDistribution32.reset uninit))).data
        7 0 0 = .fin (-1) := by
  have hnb : (l.foldl (ColorDistribution32.add exactReading)
      (ColorDistribution32.reset uninit)).nb = -2147483648 := by
    rw [nb_foldl_add32 exactReading l _ (by show -2 ^ 31 ≤ (0 : Int); norm_num)
      (by show (0 : Int) < 2 ^ 31; norm_num), hlen]
    show wrap32 (0 + 2147483648) = -2147483648
    unfold wrap32
    norm_num
  have hcell : (l.foldl (ColorDistribution32.add exactReading)
      (ColorDistribution32.reset uninit)).data 7 0 0 = .fin 2147483648 := by
    rw [data_foldl_add32_reset exactReading 2147483648 (exactReading_natCast _) l
      (le_of_eq hlen) uninit 7 0 0, data_foldl_add_uniform l ⟨255, 0, 0⟩ hl, hlen]
    simp only [bin_255, bin_zero, and_self, if_true]
    show F32.fin ((0 : ℚ) + ((2147483648 : Nat) : ℚ)) = _
    norm_num
  refine ⟨?_, ?_⟩
  · rw [finished32_nb]
    exact hnb
  · rw [finished32_data, hnb, hcell]
    show F32.div exactReading (.fin 2147483648) (.fin ((-2147483648 : Int) : ℚ)) = _
    rw [div_fin_fin exactReading _ _ (by norm_num)]
    show F32.fin _ = _
    norm_num

/-- C10, counterexample: `reset()`, then `2^31 = 2147483648` calls of `add` with the
colour `(255, 0, 0)`, then `finished()`: `nb` has wrapped to `-2147483648`, and the cell
`[7][0][0]`, the count `2147483648` divided by `nb`, is `-1`, outside `[0, 1]` (the `float`
arithmetic read as exact, `nb` the 32-bit `int` of the source). -/
theorem normalisation_counterexample :
    1 ≤ (List.replicate 2147483648 (⟨255, 0, 0⟩ : Vec3b)).length ∧
    (ColorDistribution32.finished exactReading
        ((List.replicate 2147483648 (⟨255, 0, 0⟩ : Vec3b)).foldl
          (ColorDistribution32.add exactReading)
          (ColorDistribution32.reset (spike32 0 0 0 0 0)))).nb = -2147483648 ∧
    (ColorDistribution32.finished exactReading
        ((List.replicate 2147483648 (⟨255, 0, 0⟩ : Vec3b)).foldl
          (ColorDistribution32.add exactReading)
          (ColorDistribution32.reset (spike32 0 0 0 0 0)))).data 7 0 0 = .fin (-1) := by
  have hlen : (List.replicate 2147483648 (⟨255, 0, 0⟩ : Vec3b)).length = 2147483648 :=
    List.length_replicate _ _
  have h := finished32_wrapped (List.replicate 2147483648 (⟨255, 0, 0⟩ : Vec3b))
    (fun v hv => List.eq_of_mem_replicate hv) hlen (spike32 0 0 0 0 0)
  exact ⟨by rw [hlen]; norm_num, h.1, h.2⟩

/-- C10 (amended): after `reset()`, `n` calls of `add` with `1 <= n < 2^31` and
`finished()`, every cell is a finite value in `[0, 1]` and the 512 cells sum to `1`; in
particular this holds for the result of `getColorDistribution` on a non-empty region
inside the image with fewer than `2^31` pixels (the `float` arithmetic read as exact,
`nb` the 32-bit `int` of the source, whatever the local variable held before its
constructor ran). -/
theorem normalisation_invariant_int (uninit : ColorDistribution32) (colors : List Vec3b)
    (input : Mat) (pt1 pt2 : Point)
    (hn : 1 ≤ colors.length) (hn31 : colors.length < 2 ^ 31)
    (hin : RegionInside input pt1 pt2)
    (hN : (pt2.x - pt1.x) * (pt2.y - pt1.y) < 2 ^ 31) :
    (∃ e : ColorDistribution,
      ColorDistribution32.finished exactReading
        (colors.foldl (ColorDistribution32.add exactReading)
          (ColorDistribution32.reset uninit)) = lift e ∧
      (∀ i j k, 0 ≤ e.data i j k ∧ e.data i j k ≤ 1) ∧ cellSum e = 1) ∧
    (∃ e : ColorDistribution,
      getColorDistribution32 exactReading input pt1 pt2 uninit = .ok (lift e) ∧
      (∀ i j k, 0 ≤ e.data i j k ∧ e.data i j k ≤ 1) ∧ cellSum e = 1) := by
  have key : ∀ l : List Vec3b, 1 ≤ l.length → l.length < 2 ^ 31 →
      ∃ e : ColorDistribution,
        ColorDistribution32.finished exactReading
          (l.foldl (ColorDistribution32.add exactReading)
            (ColorDistribution32.reset uninit)) = lift e ∧
        (∀ i j k, 0 ≤ e.data i j k ∧ e.data i j k ≤ 1) ∧ cellSum e = 1 := by
    intro l h1 h2
    obtain ⟨e, he, hcells, hsum⟩ := sampled_normalised ColorDistribution.new l h1
    refine ⟨e, ?_, hcells, hsum⟩
    rw [reset32_eq_lift, foldl_add32_exact_lift l ColorDistribution.new
      (by show -2 ^ 31 ≤ (0 : Int); norm_num)
      (by
        show (0 : Int) + (l.length : Int) < 2 ^ 31
        have : (l.length : Int) < 2 ^ 31 := by exact_mod_cast h2
        omega)]
    exact finished32_exact_lift _ e he
  refine ⟨key colors hn hn31, ?_⟩
  have hlen := regionColors_length_pos input pt1 pt2 hin
  have hlenI := length_regionColors_int input pt1 pt2 (le_of_lt hin.2.1)
    (le_of_lt hin.2.2.2.2.1)
  have h31 : (regionColors input pt1 pt2).length < 2 ^ 31 := by
    have : ((regionColors input pt1 pt2).length : Int) < 2 ^ 31 := by rw [hlenI]; exact hN
    exact_mod_cast this
  obtain ⟨e, he, hcells, hsum⟩ := key (regionColors input pt1 pt2) hlen h31
  refine ⟨e, ?_, hcells, hsum⟩
  rw [getColorDistribution32_eq exactReading input pt1 pt2 uninit hin.1 hin.2.2.1 hin.2.2.2.1
    hin.2.2.2.2.2, he]

/-- C10 (amended), witness: two samples added after a reset, and the whole of
`splitImage`. -/
theorem normalisation_invariant_int_witness :
    (∃ e : ColorDistribution,
      ColorDistribution32.finished exactReading
        (([⟨0, 0, 0⟩, ⟨255, 0, 0⟩] : List Vec3b).foldl (ColorDistribution32.add exactReading)
          (ColorDistribution32.reset (spike32 3 3 3 5 7))) = lift e ∧
      (∀ i j k, 0 ≤ e.data i j k ∧ e.data i j k ≤ 1) ∧ cellSum e = 1) ∧
    (∃ e : ColorDistribution,
      getColorDistribution32 exactReading splitImage ⟨0, 0⟩ ⟨4, 2⟩ (spike32 3 3 3 5 7)
        = .ok (lift e) ∧
      (∀ i j k, 0 ≤ e.data i j k ∧ e.data i j k ≤ 1) ∧ cellSum e = 1) :=
  normalisation_invariant_int (spike32 3 3 3 5 7) [⟨0, 0, 0⟩, ⟨255, 0, 0⟩] splitImage ⟨0, 0⟩
    ⟨4, 2⟩ (by decide) (by decide) (by decide) (by decide)

/-! ## `distance` and `minDistance` in the machine reading -/

theorem foldl_invariant {α β : Type} (P : β → Prop) (f : β → α → β) (l : List α) (b : β)
    (h0 : P b) (hstep : ∀ b a, P b → P (f b a)) : P (l.foldl f b) := by
  induction l generalizing b with
  | nil => exact h0
  | cons x xs ih =>
    rw [List.foldl_cons]
    exact ih _ (hstep b x h0)

theorem foldl_ident {α β : Type} (f : β → α → β) (l : List α) (b : β)
    (hid : ∀ b, ∀ x ∈ l, f b x = b) : l.foldl f b = b := by
  induction l generalizing b with
  | nil => rfl
  | cons x xs ih =>
    rw [List.foldl_cons, hid b x (List.mem_cons_self _ _)]
    exact ih b (fun b y hy => hid b y (List.mem_cons_of_mem _ hy))

theorem foldl_single {α β : Type} (f : β → α → β) (x0 : α) (l : List α) (hnd : l.Nodup)
    (hx : x0 ∈ l) (hid : ∀ b x, x ≠ x0 → f b x = b) (b : β) : l.foldl f b = f b x0 := by
  induction l generalizing b with
  | nil => cases hx
  | cons y ys ih =>
    rw [List.foldl_cons]
    rw [List.nodup_cons] at hnd
    rcases List.mem_cons.mp hx with h | h
    · subst h
      apply foldl_ident
      intro b x hxm
      apply hid
      intro he
      rw [he] at hxm
      exact hnd.1 hxm
    · have hy : y ≠ x0 := by
        intro he
        rw [he] at hnd
        exact hnd.1 h
      rw [hid b y hy]
      exact ih hnd.2 h b

theorem foldl_finRange_single {β : Type} (f : β → Fin 8 → β) (x0 : Fin 8)
    (hid : ∀ b x, x ≠ x0 → f b x = b) (b : β) : (List.finRange 8).foldl f b = f b x0 :=
  foldl_single f x0 _ (List.nodup_finRange 8) (List.mem_finRange x0) hid b

theorem foldl_state_map {α σ τ : Type} (φ : σ → τ) (f : τ → α → τ) (g : σ → α → σ)
    (h : ∀ s x, f (φ s) x = φ (g s x)) (l : List α) (s : σ) :
    l.foldl f (φ s) = φ (l.foldl g s) := by
  induction l generalizing s with
  | nil => rfl
  | cons x xs ih =>
    rw [List.foldl_cons, List.foldl_cons, h]
    exact ih (g s x)

/-- An invariant of the loops of `distance` (machine reading). -/
theorem distance32_invariant (R : Reading) (a b : ColorDistribution32) (P : F32 → Prop)
    (h0 : P (.fin 0))
    (hstep : ∀ i j k r, P r → P (ColorDistribution32.distanceStep R a b i j k r)) :
    P (ColorDistribution32.distance R a b) := by
  unfold ColorDistribution32.distance
  apply foldl_invariant P _ _ _ h0
  intro r i hr
  apply foldl_invariant P _ _ _ hr
  intro r j hr
  apply foldl_invariant P _ _ _ hr
  intro r k hr
  exact hstep i j k r hr

/-- When the loop body of `distance` changes `result` at one cell only, `distance` is the
loop body at that cell, from `0.0f`. -/
theorem distance32_single (R : Reading) (a b : ColorDistribution32) (i0 j0 k0 : Fin 8)
    (hid : ∀ i j k r, ¬ (i = i0 ∧ j = j0 ∧ k = k0) →
      ColorDistribution32.distanceStep R a b i j k r = r) :
    ColorDistribution32.distance R a b
      = ColorDistribution32.distanceStep R a b i0 j0 k0 (.fin 0) := by
  unfold ColorDistribution32.distance
  rw [foldl_finRange_single _ i0, foldl_finRange_single _ j0, foldl_finRange_single _ k0]
  · intro r k hk
    exact hid i0 j0 k r (fun h => hk h.2.2)
  · intro r j hj
    apply foldl_ident
    intro r k _
    exact hid i0 j k r (fun h => hj h.2.1)
  · intro r i hi
    apply foldl_ident
    intro r j _
    apply foldl_ident
    intro r k _
    exact hid i j k r (fun h => hi h.1)

/-- The loop body of `distance` at a cell that is `0.0f` in both distributions leaves
`result` unchanged. -/
theorem distanceStep32_zero (R : Reading) (hR : R 0 = .fin 0) (a b : ColorDistribution32)
    (i j k : Fin 8) (r : F32) (ha : a.data i j k = .fin 0) (hb : b.data i j k = .fin 0) :
    ColorDistribution32.distanceStep R a b i j k r = r := by
  unfold ColorDistribution32.distanceStep
  simp only [ha, hb]
  have h : F32.add R (.fin 0) (.fin 0) = .fin 0 := by
    show R (0 + 0) = _
    rw [add_zero, hR]
  rw [h]
  rfl

theorem spike32_data_self (i j k : Fin 8) (v : ℚ) (n : Int) :
    (spike32 i j k v n).data i j k = .fin v := by
  unfold spike32
  simp only [and_self, if_true]

theorem spike32_data_other (i j k : Fin 8) (v : ℚ) (n : Int) (a b c : Fin 8)
    (h : ¬ (a = i ∧ b = j ∧ c = k)) : (spike32 i j k v n).data a b c = .fin 0 := by
  unfold spike32
  simp only [if_neg h]

/-- The distance between two distributions that are `0.0f` outside one common cell. -/
theorem distance32_spike_same (R : Reading) (hR : R 0 = .fin 0) (i j k : Fin 8) (u v : ℚ)
    (n m : Int) :
    ColorDistribution32.distance R (spike32 i j k u n) (spike32 i j k v m)
      = if F32.ne0 (R (u + v)) then
          F32.add R (.fin 0) (F32.div R (F32.sq R (R (u - v))) (R (u + v)))
        else .fin 0 := by
  rw [distance32_single R _ _ i j k]
  · unfold ColorDistribution32.distanceStep
    simp only [spike32_data_self]
    rfl
  · intro a b c r h
    exact distanceStep32_zero R hR _ _ a b c r (spike32_data_other i j k u n a b c h)
      (spike32_data_other i j k v m a b c h)

theorem distanceStep32_exact (a b : ColorDistribution) (i j k : Fin 8) (r : ℚ) :
    ColorDistribution32.distanceStep exactReading (lift a) (lift b) i j k (.fin r)
      = .fin (r + chiTerm a b i j k) := by
  unfold ColorDistribution32.distanceStep chiTerm lift
  simp only
  show (if F32.ne0 (F32.fin (a.data i j k + b.data i j k)) then
      F32.add exactReading (.fin r) (F32.div exactReading
        (F32.fin ((a.data i j k - b.data i j k) * (a.data i j k - b.data i j k)))
        (F32.fin (a.data i j k + b.data i j k))) else F32.fin r) = _
  by_cases h : a.data i j k + b.data i j k = 0
  · rw [if_pos h]
    have : F32.ne0 (F32.fin (a.data i j k + b.data i j k)) = false := by
      show decide (a.data i j k + b.data i j k ≠ 0) = false
      simp [h]
    rw [this, add_zero]
    rfl
  · rw [if_neg h]
    have : F32.ne0 (F32.fin (a.data i j k + b.data i j k)) = true := by
      show decide (a.data i j k + b.data i j k ≠ 0) = true
      simp [h]
    rw [this, if_pos rfl, div_fin_fin exactReading _ _ h]
    show F32.fin (r + _) = _
    rw [sq]

/-- With the exact reading the machine `distance` is the chi-square sum. -/
theorem distance32_exact (a b : ColorDistribution) :
    ColorDistribution32.distance exactReading (lift a) (lift b) = .fin (chiSquare a b) := by
  unfold ColorDistribution32.distance chiSquare
  have hk : ∀ (i j : Fin 8) (r : ℚ),
      (List.finRange 8).foldl (fun result k =>
        ColorDistribution32.distanceStep exactReading (lift a) (lift b) i j k result) (.fin r)
        = .fin (r + ∑ k : Fin 8, chiTerm a b i j k) := by
    intro i j r
    rw [foldl_state_map F32.fin _ (fun r k => r + chiTerm a b i j k)
      (fun s x => distanceStep32_exact a b i j x s), foldl_finRange_add]
  have hj : ∀ (i : Fin 8) (r : ℚ),
      (List.finRange 8).foldl (fun result j =>
        (List.finRange 8).foldl (fun result k =>
          ColorDistribution32.distanceStep exactReading (lift a) (lift b) i j k result) result)
          (.fin r)
        = .fin (r + ∑ j : Fin 8, ∑ k : Fin 8, chiTerm a b i j k) := by
    intro i r
    rw [foldl_state_map F32.fin _ (fun r j => r + ∑ k : Fin 8, chiTerm a b i j k)
      (fun s x => hk i x s), foldl_finRange_add]
  rw [foldl_state_map F32.fin _ (fun r i => r + ∑ j : Fin 8, ∑ k : Fin 8, chiTerm a b i j k)
    (fun s x => hj x s), foldl_finRange_add, zero_add]

theorem ofRat_ne_nan (x : ℚ) : F32.ofRat x ≠ .nan := by
  unfold F32.ofRat
  split
  · intro h; cases h
  · split
    · intro h; cases h
    · intro h; cases h

theorem add32_valid (x y : F32) (q : ℚ) (h : F32.add binary32 x y = .fin q) :
    q ≤ FLT_MAX ∧ -FLT_MAX ≤ q := by
  cases x <;> cases y <;> simp only [F32.add] at h <;> first
    | exact ofRat_valid _ _ h
    | cases h

/-- A finite value of `distance` (binary32) is at most `FLT_MAX`. -/
theorem distance32_valid (a b : ColorDistribution32) (q : ℚ)
    (h : ColorDistribution32.distance binary32 a b = .fin q) : q ≤ FLT_MAX := by
  have key := distance32_invariant binary32 a b (fun r => ∀ q, r = .fin q → q ≤ FLT_MAX)
    (fun q hq => by
      have := F32.fin.inj hq
      rw [← this]
      exact le_of_lt FLT_MAX_pos)
    (fun i j k r hr q hq => by
      unfold ColorDistribution32.distanceStep at hq
      simp only at hq
      split at hq
      · exact (add32_valid _ _ q hq).1
      · exact hr q hq)
  exact key q h

theorem fmin32_fin (a b : ℚ) : fmin32 (.fin a) (.fin b) = .fin (fmin a b) := by
  unfold fmin32 fmin
  show (if decide (b < a) = true then _ else _) = _
  by_cases h : b < a
  · rw [if_pos (decide_eq_true h), if_pos h]
  · rw [if_neg (by simpa using h), if_neg h]

/-- The running `std::min` over finite values: the result is finite, at most the start value
and every value of the list, and it is the start value or a value of the list. -/
theorem foldl_fmin32_fin {α : Type} (d : α → F32) (l : List α) :
    ∀ s : ℚ, (∀ x ∈ l, ∃ q, d x = .fin q) →
      ∃ v, l.foldl (fun m x => fmin32 m (d x)) (.fin s) = .fin v ∧ v ≤ s ∧
        (∀ x ∈ l, ∃ q, d x = .fin q ∧ v ≤ q) ∧
        (v = s ∨ ∃ x ∈ l, d x = .fin v) := by
  induction l with
  | nil =>
    intro s _
    exact ⟨s, rfl, le_refl s, fun x hx => absurd hx (List.not_mem_nil x), Or.inl rfl⟩
  | cons y ys ih =>
    intro s h
    obtain ⟨qy, hqy⟩ := h y (List.mem_cons_self _ _)
    obtain ⟨v, hv, hvs, hall, hatt⟩ := ih (fmin s qy)
      (fun x hx => h x (List.mem_cons_of_mem _ hx))
    have hmin : fmin s qy = min s qy := fmin_eq_min s qy
    refine ⟨v, ?_, ?_, ?_, ?_⟩
    · rw [List.foldl_cons, hqy, fmin32_fin]
      exact hv
    · exact le_trans hvs (by rw [hmin]; exact min_le_left _ _)
    · intro x hx
      rcases List.mem_cons.mp hx with hxy | hxy
      · rw [hxy]
        exact ⟨qy, hqy, le_trans hvs (by rw [hmin]; exact min_le_right _ _)⟩
      · exact hall x hxy
    · rcases hatt with h1 | ⟨x, hx, h1⟩
      · rcases min_choice s qy with h2 | h2
        · left
          rw [h1, hmin, h2]
        · right
          refine ⟨y, List.mem_cons_self _ _, ?_⟩
          rw [hqy, h1, hmin, h2]
      · exact Or.inr ⟨x, List.mem_cons_of_mem _ hx, h1⟩

/-- When every distance is finite, `minDistance` (binary32) is the smallest of them. -/
theorem minDistance32_finite (h : ColorDistribution32) (hists : List ColorDistribution32)
    (hne : hists ≠ [])
    (hfin : ∀ m ∈ hists, ∃ q, ColorDistribution32.distance binary32 h m = .fin q) :
    ∃ v, minDistance32 binary32 h hists = .fin v ∧
      (∀ m ∈ hists, ∃ d, ColorDistribution32.distance binary32 h m = .fin d ∧ v ≤ d) ∧
      (∃ m ∈ hists, ColorDistribution32.distance binary32 h m = .fin v) := by
  obtain ⟨v, hv, _, hall, hatt⟩ := foldl_fmin32_fin
    (fun m => ColorDistribution32.distance binary32 h m) hists FLT_MAX hfin
  refine ⟨v, hv, hall, ?_⟩
  rcases hatt with h1 | h1
  · obtain ⟨m, hm⟩ := List.exists_mem_of_ne_nil hists hne
    obtain ⟨q, hq, hvq⟩ := hall m hm
    have hq2 := distance32_valid h m q hq
    have : q = v := by
      rw [h1] at hvq ⊢
      exact le_antisymm hq2 hvq
    exact ⟨m, hm, by rw [hq, this]⟩
  · exact h1

theorem roundQ_pow_m100 : roundQ ((2 : ℚ) ^ (-100 : Int)) = (2 : ℚ) ^ (-100 : Int) := by
  have h := roundQ_eq_pos ((2 : ℚ) ^ (-100 : Int)) (-100) 8388608 (by positivity)
    (le_refl _) (by norm_num) (by norm_num)
    (by
      have : (2 : ℚ) ^ (-100 : Int) / (2 : ℚ) ^ ((-100 : Int) - 23) = ((8388608 : Int) : ℚ) := by
        norm_num
      rw [this]
      exact roundHalfEven_intCast _)
  rw [h]
  norm_num

theorem ofRat_pow_m100 : F32.ofRat ((2 : ℚ) ^ (-100 : Int)) = .fin ((2 : ℚ) ^ (-100 : Int)) := by
  have h := ofRat_eq_fin ((2 : ℚ) ^ (-100 : Int))
    (by rw [roundQ_pow_m100]; unfold FLT_MAX; norm_num)
    (by rw [roundQ_pow_m100]; unfold FLT_MAX; norm_num)
  rw [roundQ_pow_m100] at h
  exact h

theorem roundQ_3pow_m100 :
    roundQ (3 * (2 : ℚ) ^ (-100 : Int)) = 3 * (2 : ℚ) ^ (-100 : Int) := by
  have h := roundQ_eq_pos (3 * (2 : ℚ) ^ (-100 : Int)) (-99) 12582912 (by positivity)
    (by norm_num) (by norm_num) (by norm_num)
    (by
      have : 3 * (2 : ℚ) ^ (-100 : Int) / (2 : ℚ) ^ ((-99 : Int) - 23)
          = ((12582912 : Int) : ℚ) := by
        norm_num
      rw [this]
      exact roundHalfEven_intCast _)
  rw [h]
  norm_num

theorem ofRat_3pow_m100 :
    F32.ofRat (3 * (2 : ℚ) ^ (-100 : Int)) = .fin (3 * (2 : ℚ) ^ (-100 : Int)) := by
  have h := ofRat_eq_fin (3 * (2 : ℚ) ^ (-100 : Int))
    (by rw [roundQ_3pow_m100]; unfold FLT_MAX; norm_num)
    (by rw [roundQ_3pow_m100]; unfold FLT_MAX; norm_num)
  rw [roundQ_3pow_m100] at h
  exact h

theorem roundQ_FLT_MAX_succ : roundQ (FLT_MAX + 1) = FLT_MAX := by
  have h := roundQ_eq_pos (FLT_MAX + 1) 127 16777215 (by unfold FLT_MAX; norm_num)
    (by unfold FLT_MAX; norm_num) (by unfold FLT_MAX; norm_num) (by norm_num)
    (roundHalfEven_floor _ 16777215 (by unfold FLT_MAX; norm_num) (by unfold FLT_MAX; norm_num))
  rw [h]
  unfold FLT_MAX
  norm_num

theorem ofRat_FLT_MAX_succ : F32.ofRat (FLT_MAX + 1) = .fin FLT_MAX := by
  have h := ofRat_eq_fin (FLT_MAX + 1) (by rw [roundQ_FLT_MAX_succ])
    (by rw [roundQ_FLT_MAX_succ]; linarith [FLT_MAX_pos])
  rw [roundQ_FLT_MAX_succ] at h
  exact h

theorem roundQ_FLT_MAX_pred : roundQ (FLT_MAX - 1) = FLT_MAX := by
  have h := roundQ_eq_pos (FLT_MAX - 1) 127 (16777214 + 1) (by unfold FLT_MAX; norm_num)
    (by unfold FLT_MAX; norm_num) (by unfold FLT_MAX; norm_num) (by norm_num)
    (roundHalfEven_ceil _ 16777214 (by unfold FLT_MAX; norm_num) (by unfold FLT_MAX; norm_num)
      (by unfold FLT_MAX; norm_num))
  rw [h]
  unfold FLT_MAX
  norm_num

theorem ofRat_FLT_MAX_pred : F32.ofRat (FLT_MAX - 1) = .fin FLT_MAX := by
  have h := ofRat_eq_fin (FLT_MAX - 1) (by rw [roundQ_FLT_MAX_pred])
    (by rw [roundQ_FLT_MAX_pred]; linarith [FLT_MAX_pos])
  rw [roundQ_FLT_MAX_pred] at h
  exact h

/-- The distance from a distribution with finite cells to one with the same cells is
`0.0f` (binary32). -/
theorem distance32_identical (a b : ColorDistribution32)
    (hfin : ∀ i j k, ∃ q, a.data i j k = .fin q)
    (hab : ∀ i j k, a.data i j k = b.data i j k) :
    ColorDistribution32.distance binary32 a b = .fin 0 := by
  apply distance32_invariant binary32 a b (fun r => r = .fin 0) rfl
  intro i j k r hr
  obtain ⟨q, hq⟩ := hfin i j k
  unfold ColorDistribution32.distanceStep
  simp only [← hab i j k, hq, hr]
  have hsub : F32.sub binary32 (.fin q) (.fin q) = .fin 0 := by
    show F32.ofRat (q - q) = _
    rw [sub_self, ofRat_zero]
  have hsq : F32.sq binary32 (.fin 0) = .fin 0 := by
    show F32.ofRat (0 * 0) = _
    rw [mul_zero, ofRat_zero]
  rw [hsub, hsq]
  split
  · rename_i hne
    have hadd : F32.add binary32 (.fin q) (.fin q) = F32.ofRat (q + q) := rfl
    rw [hadd] at hne ⊢
    have hdiv : F32.div binary32 (.fin 0) (F32.ofRat (q + q)) = .fin 0 := by
      rcases hden : F32.ofRat (q + q) with d | _ | _ | _
      · rw [hden] at hne
        have hd : d ≠ 0 := by
          have : decide (d ≠ 0) = true := hne
          simpa using this
        rw [div_fin_fin binary32 0 d hd, zero_div]
        exact ofRat_zero
      · rfl
      · rfl
      · exact absurd hden (ofRat_ne_nan _)
    rw [hdiv]
    show F32.ofRat (0 + 0) = _
    rw [add_zero, ofRat_zero]
  · rfl

/-- C6, counterexample: the distributions with the cell `[0][0][0]` at `2^-99` and at
`2^-100` (all other cells `0.0f`) have non-negative cells and differ, and their distance
is `0.0f`: the difference `2^-100` is squared to `2^-200`, which is rounded to `0.0f`. -/
theorem distance_zero_counterexample :
    ColorDistribution32.distance binary32 (spike32 0 0 0 ((2 : ℚ) ^ (-99 : Int)) 1)
        (spike32 0 0 0 ((2 : ℚ) ^ (-100 : Int)) 1) = .fin 0 ∧
    (spike32 0 0 0 ((2 : ℚ) ^ (-99 : Int)) 1).data 0 0 0 = .fin ((2 : ℚ) ^ (-99 : Int)) ∧
    (spike32 0 0 0 ((2 : ℚ) ^ (-100 : Int)) 1).data 0 0 0 = .fin ((2 : ℚ) ^ (-100 : Int)) ∧
    (spike32 0 0 0 ((2 : ℚ) ^ (-99 : Int)) 1).data 0 0 0
      ≠ (spike32 0 0 0 ((2 : ℚ) ^ (-100 : Int)) 1).data 0 0 0 ∧
    (∀ i j k, ∃ q, (spike32 0 0 0 ((2 : ℚ) ^ (-99 : Int)) 1).data i j k = .fin q ∧ 0 ≤ q) ∧
    (∀ i j k, ∃ q, (spike32 0 0 0 ((2 : ℚ) ^ (-100 : Int)) 1).data i j k = .fin q ∧ 0 ≤ q) := by
  have hnn : ∀ (v : ℚ), 0 ≤ v → ∀ i j k, ∃ q, (spike32 0 0 0 v 1).data i j k = .fin q ∧ 0 ≤ q := by
    intro v hv i j k
    by_cases h : i = 0 ∧ j = 0 ∧ k = 0
    · obtain ⟨h1, h2, h3⟩ := h
      rw [h1, h2, h3]
      exact ⟨v, spike32_data_self 0 0 0 v 1, hv⟩
    · exact ⟨0, spike32_data_other 0 0 0 v 1 i j k h, le_refl 0⟩
  refine ⟨?_, spike32_data_self _ _ _ _ _, spike32_data_self _ _ _ _ _, ?_,
    hnn _ (by positivity), hnn _ (by positivity)⟩
  · rw [distance32_spike_same binary32 binary32_zero]
    have h1 : (2 : ℚ) ^ (-99 : Int) + (2 : ℚ) ^ (-100 : Int) = 3 * (2 : ℚ) ^ (-100 : Int) := by
      norm_num
    have h2 : (2 : ℚ) ^ (-99 : Int) - (2 : ℚ) ^ (-100 : Int) = (2 : ℚ) ^ (-100 : Int) := by
      norm_num
    rw [h1, h2]
    show (if F32.ne0 (F32.ofRat _) then
      F32.add binary32 (.fin 0) (F32.div binary32 (F32.sq binary32 (F32.ofRat _)) (F32.ofRat _))
      else F32.fin 0) = _
    rw [ofRat_3pow_m100, ofRat_pow_m100]
    have hsq : F32.sq binary32 (.fin ((2 : ℚ) ^ (-100 : Int))) = .fin 0 := by
      show F32.ofRat ((2 : ℚ) ^ (-100 : Int) * (2 : ℚ) ^ (-100 : Int)) = _
      have : (2 : ℚ) ^ (-100 : Int) * (2 : ℚ) ^ (-100 : Int) = (2 : ℚ) ^ (-200 : Int) := by
        norm_num
      rw [this]
      exact ofRat_underflow
    rw [hsq, div_fin_fin binary32 0 _ (by norm_num), zero_div, binary32_zero]
    have hadd : F32.add binary32 (.fin 0) (.fin 0) = .fin 0 := by
      show F32.ofRat (0 + 0) = _
      rw [add_zero, ofRat_zero]
    rw [hadd]
    split <;> rfl
  · rw [spike32_data_self, spike32_data_self]
    intro h
    have := F32.fin.inj h
    norm_num at this

/-! ## Error bounds of the rounding to binary32 -/

theorem roundHalfEven_err (q : ℚ) : |(roundHalfEven q : ℚ) - q| ≤ 1 / 2 := by
  have h1 : ((⌊q⌋ : Int) : ℚ) ≤ q := Int.floor_le q
  have h2 : q < ((⌊q⌋ : Int) : ℚ) + 1 := Int.lt_floor_add_one q
  unfold roundHalfEven
  simp only
  split
  · rw [abs_le]
    constructor <;> linarith
  · split
    · rw [abs_le]
      push_cast
      constructor <;> linarith
    · split
      · rw [abs_le]
        constructor <;> linarith
      · rw [abs_le]
        push_cast
        constructor <;> linarith

theorem roundHalfEven_nonneg (q : ℚ) (h : 0 ≤ q) : 0 ≤ roundHalfEven q := by
  have h0 : (0 : Int) ≤ ⌊q⌋ := Int.floor_nonneg.mpr h
  unfold roundHalfEven
  simp only
  split
  · exact h0
  · split
    · omega
    · split
      · exact h0
      · omega

theorem quantum_ge (x : ℚ) : (2 : ℚ) ^ (-149 : Int) ≤ quantum x := by
  unfold quantum
  apply zpow_le_zpow_right₀ (by norm_num)
  have := le_max_right (Int.log 2 |x|) (-126)
  omega

theorem quantum_le (x : ℚ) (hx : x ≠ 0) :
    quantum x ≤ |x| * (2 : ℚ) ^ (-23 : Int) + (2 : ℚ) ^ (-149 : Int) := by
  have hpos : 0 < |x| := abs_pos.mpr hx
  unfold quantum
  rcases le_total (Int.log 2 |x|) (-126) with h | h
  · rw [max_eq_right h]
    have : (0 : ℚ) ≤ |x| * (2 : ℚ) ^ (-23 : Int) := by positivity
    have e : ((-126 : Int) - 23) = -149 := by norm_num
    rw [e]
    linarith
  · rw [max_eq_left h]
    have h1 : (2 : ℚ) ^ (Int.log 2 |x|) ≤ |x| := Int.zpow_log_le_self (by norm_num) hpos
    have h2 : (2 : ℚ) ^ (Int.log 2 |x| - 23)
        = (2 : ℚ) ^ (Int.log 2 |x|) * (2 : ℚ) ^ (-23 : Int) := by
      rw [← zpow_add₀ (by norm_num : (2 : ℚ) ≠ 0)]
      rfl
    rw [h2]
    have h3 : (2 : ℚ) ^ (Int.log 2 |x|) * (2 : ℚ) ^ (-23 : Int) ≤ |x| * (2 : ℚ) ^ (-23 : Int) :=
      mul_le_mul_of_nonneg_right h1 (by positivity)
    have : (0 : ℚ) ≤ (2 : ℚ) ^ (-149 : Int) := by positivity
    linarith

theorem roundQ_err (x : ℚ) : |roundQ x - x| ≤ quantum x / 2 := by
  have hq := quantum_pos x
  unfold roundQ
  split
  · rename_i h
    rw [h, sub_zero, abs_zero]
    exact le_of_lt (half_pos (quantum_pos _))
  · have h := roundHalfEven_err (x / quantum x)
    have e : (roundHalfEven (x / quantum x) : ℚ) * quantum x - x
        = ((roundHalfEven (x / quantum x) : ℚ) - x / quantum x) * quantum x := by
      field_simp
    rw [e, abs_mul, abs_of_pos hq]
    calc |(roundHalfEven (x / quantum x) : ℚ) - x / quantum x| * quantum x
        ≤ 1 / 2 * quantum x := mul_le_mul_of_nonneg_right h (le_of_lt hq)
      _ = quantum x / 2 := by ring

theorem roundQ_nonneg (x : ℚ) (h : 0 ≤ x) : 0 ≤ roundQ x := by
  have hq := quantum_pos x
  unfold roundQ
  split
  · exact le_refl 0
  · have h1 : 0 ≤ roundHalfEven (x / quantum x) :=
      roundHalfEven_nonneg _ (div_nonneg h (le_of_lt hq))
    have h2 : (0 : ℚ) ≤ (roundHalfEven (x / quantum x) : ℚ) := by exact_mod_cast h1
    positivity

theorem roundQ_ge_quantum (x : ℚ) (h : 0 ≤ x) (hne : roundQ x ≠ 0) : quantum x ≤ roundQ x := by
  have hq := quantum_pos x
  unfold roundQ at hne ⊢
  split
  · rename_i h0
    rw [if_pos h0] at hne
    exact absurd rfl hne
  · rename_i h0
    rw [if_neg h0] at hne
    have h1 : 0 ≤ roundHalfEven (x / quantum x) :=
      roundHalfEven_nonneg _ (div_nonneg h (le_of_lt hq))
    have h2 : roundHalfEven (x / quantum x) ≠ 0 := by
      intro he
      rw [he] at hne
      simp at hne
    have h3 : (1 : Int) ≤ roundHalfEven (x / quantum x) := by omega
    have h4 : (1 : ℚ) ≤ (roundHalfEven (x / quantum x) : ℚ) := by exact_mod_cast h3
    calc quantum x = 1 * quantum x := (one_mul _).symm
      _ ≤ (roundHalfEven (x / quantum x) : ℚ) * quantum x :=
        mul_le_mul_of_nonneg_right h4 (le_of_lt hq)

/-- The rounding error: at most `|x| * 2^-24 + 2^-150`. -/
theorem roundQ_abs_err (x : ℚ) :
    |roundQ x - x| ≤ |x| * (2 : ℚ) ^ (-24 : Int) + (2 : ℚ) ^ (-150 : Int) := by
  by_cases hx : x = 0
  · rw [hx, roundQ_zero, sub_zero, abs_zero]
    positivity
  · have h1 := roundQ_err x
    have h2 := quantum_le x hx
    have e1 : |x| * (2 : ℚ) ^ (-24 : Int) = |x| * (2 : ℚ) ^ (-23 : Int) / 2 := by
      have : (2 : ℚ) ^ (-24 : Int) = (2 : ℚ) ^ (-23 : Int) / 2 := by norm_num
      rw [this]
      ring
    have e2 : (2 : ℚ) ^ (-150 : Int) = (2 : ℚ) ^ (-149 : Int) / 2 := by norm_num
    rw [e1, e2]
    generalize |x| * (2 : ℚ) ^ (-23 : Int) = A at h2 ⊢
    generalize (2 : ℚ) ^ (-149 : Int) = B at h2 ⊢
    linarith

theorem roundQ_upper (x : ℚ) (hx : 0 ≤ x) :
    roundQ x ≤ x + x * (1 / 16777216) + 1 / 1000000 := by
  have h := roundQ_abs_err x
  rw [abs_of_nonneg hx] at h
  have h1 := (abs_le.mp h).2
  have e24 : (2 : ℚ) ^ (-24 : Int) = 1 / 16777216 := by norm_num
  have e150 : (2 : ℚ) ^ (-150 : Int) ≤ 1 / 1000000 := by norm_num
  rw [e24] at h1
  linarith

/-- Bounds on the term of one cell in `distance` for cells in `[0, 1]`. -/
theorem term_bounds (x y : ℚ) (hx0 : 0 ≤ x) (hx1 : x ≤ 1) (hy0 : 0 ≤ y) (hy1 : y ≤ 1)
    (hs : roundQ (x + y) ≠ 0) :
    |roundQ (x - y)| ≤ 12 ∧
    0 ≤ roundQ (roundQ (x - y) * roundQ (x - y)) ∧
    roundQ (roundQ (x - y) * roundQ (x - y)) ≤ 97 * roundQ (x + y) ∧
    0 < roundQ (x + y) ∧ roundQ (x + y) ≤ 3 := by
  have hz0 : 0 ≤ x + y := add_nonneg hx0 hy0
  have hs0 : 0 ≤ roundQ (x + y) := roundQ_nonneg _ hz0
  have hspos : 0 < roundQ (x + y) := lt_of_le_of_ne hs0 (Ne.symm hs)
  have hq1 : quantum (x + y) ≤ roundQ (x + y) := roundQ_ge_quantum _ hz0 hs
  have hq2 : (2 : ℚ) ^ (-149 : Int) ≤ quantum (x + y) := quantum_ge _
  have he150 : (2 : ℚ) ^ (-150 : Int) = (2 : ℚ) ^ (-149 : Int) / 2 := by norm_num
  have e24 : (2 : ℚ) ^ (-24 : Int) = 1 / 16777216 := by norm_num
  have herr := (abs_le.mp (roundQ_err (x + y)))
  have hs3 : roundQ (x + y) ≤ 3 := by
    have := roundQ_upper (x + y) hz0
    linarith
  have h1 := roundQ_abs_err (x - y)
  have hn1 := roundQ_abs_err (roundQ (x - y) * roundQ (x - y))
  rw [e24, he150] at h1 hn1
  generalize (2 : ℚ) ^ (-149 : Int) = E at hq2 h1 hn1
  have hz15 : x + y ≤ 3 / 2 * roundQ (x + y) := by linarith [herr.1]
  have hw : |x - y| ≤ x + y := by
    rw [abs_le]
    constructor <;> linarith
  have hd : |roundQ (x - y)| ≤ 4 * roundQ (x + y) := by
    have h2 : |roundQ (x - y)| ≤ |roundQ (x - y) - (x - y)| + |x - y| := by
      have := abs_add (roundQ (x - y) - (x - y)) (x - y)
      rwa [sub_add_cancel] at this
    have h3 : |x - y| * (1 / 16777216) ≤ |x - y| := by
      have := abs_nonneg (x - y)
      linarith
    linarith
  have hd2 : roundQ (x - y) * roundQ (x - y) ≤ 16 * (roundQ (x + y) * roundQ (x + y)) := by
    have h1 := abs_le.mp hd
    have := mul_nonneg (sub_nonneg.mpr h1.2) (by linarith [h1.1] :
      0 ≤ 4 * roundQ (x + y) + roundQ (x - y))
    nlinarith
  have hdd0 : 0 ≤ roundQ (x - y) * roundQ (x - y) := mul_self_nonneg _
  have hn0 : 0 ≤ roundQ (roundQ (x - y) * roundQ (x - y)) := roundQ_nonneg _ hdd0
  rw [abs_of_nonneg hdd0] at hn1
  have hn2 := (abs_le.mp hn1).2
  have hss : roundQ (x + y) * roundQ (x + y) ≤ 3 * roundQ (x + y) :=
    mul_le_mul_of_nonneg_right hs3 hs0
  have hn3 : roundQ (roundQ (x - y) * roundQ (x - y)) ≤ 97 * roundQ (x + y) := by
    linarith
  refine ⟨by linarith, hn0, hn3, hspos, hs3⟩

/-- One run of the loop body of `distance` on cells in `[0, 1]` (binary32): a running sum
in `[0, 99 n]` with `n < 512` becomes a running sum in `[0, 99 (n + 1)]`. -/
theorem distanceStep32_unit (a b : ColorDistribution32) (ha : UnitCells a) (hb : UnitCells b)
    (i j k : Fin 8) (r : ℚ) (n : Nat) (hn : n < 512) (hr0 : 0 ≤ r) (hr : r ≤ 99 * (n : ℚ)) :
    ∃ r', ColorDistribution32.distanceStep binary32 a b i j k (.fin r) = .fin r' ∧ 0 ≤ r' ∧
      r' ≤ 99 * ((n + 1 : Nat) : ℚ) := by
  obtain ⟨x, hx, hx0, hx1⟩ := ha i j k
  obtain ⟨y, hy, hy0, hy1⟩ := hb i j k
  have hbig : (1000000 : ℚ) ≤ FLT_MAX := by
    unfold FLT_MAX
    norm_num
  have hnq : (n : ℚ) ≤ 511 := by
    have : n ≤ 511 := by omega
    exact_mod_cast this
  have hz0 : 0 ≤ x + y := add_nonneg hx0 hy0
  have hfin : ∀ v : ℚ, roundQ v ≤ 1000000 → -1000000 ≤ roundQ v →
      F32.ofRat v = .fin (roundQ v) :=
    fun v h1 h2 => ofRat_eq_fin v (by linarith) (by linarith)
  unfold ColorDistribution32.distanceStep
  simp only [hx, hy]
  have hden : F32.add binary32 (.fin x) (.fin y) = .fin (roundQ (x + y)) := by
    show F32.ofRat (x + y) = _
    have h1 := roundQ_upper (x + y) hz0
    have h2 := roundQ_nonneg (x + y) hz0
    exact hfin _ (by linarith) (by linarith)
  rw [hden]
  by_cases hs : roundQ (x + y) = 0
  · have hne : F32.ne0 (.fin (roundQ (x + y))) = false := by
      show decide (roundQ (x + y) ≠ 0) = false
      simp [hs]
    rw [hne]
    refine ⟨r, by simp, hr0, ?_⟩
    push_cast
    linarith
  · have hne : F32.ne0 (.fin (roundQ (x + y))) = true := by
      show decide (roundQ (x + y) ≠ 0) = true
      simp [hs]
    rw [hne, if_pos rfl]
    obtain ⟨hd, hn0, hn3, hspos, hs3⟩ := term_bounds x y hx0 hx1 hy0 hy1 hs
    have hd' := abs_le.mp hd
    have hsub : F32.sub binary32 (.fin x) (.fin y) = .fin (roundQ (x - y)) := by
      show F32.ofRat (x - y) = _
      exact hfin _ (by linarith) (by linarith)
    have hsq : F32.sq binary32 (.fin (roundQ (x - y)))
        = .fin (roundQ (roundQ (x - y) * roundQ (x - y))) := by
      show F32.ofRat (roundQ (x - y) * roundQ (x - y)) = _
      exact hfin _ (by linarith) (by linarith)
    have hq0 : 0 ≤ roundQ (roundQ (x - y) * roundQ (x - y)) / roundQ (x + y) :=
      div_nonneg hn0 (le_of_lt hspos)
    have hq1 : roundQ (roundQ (x - y) * roundQ (x - y)) / roundQ (x + y) ≤ 97 := by
      rw [div_le_iff₀ hspos]
      exact hn3
    have ht0 := roundQ_nonneg _ hq0
    have ht1 := roundQ_upper _ hq0
    have hdiv : F32.div binary32 (.fin (roundQ (roundQ (x - y) * roundQ (x - y))))
        (.fin (roundQ (x + y)))
        = .fin (roundQ (roundQ (roundQ (x - y) * roundQ (x - y)) / roundQ (x + y))) := by
      rw [div_fin_fin binary32 _ _ hs]
      exact hfin _ (by linarith) (by linarith)
    rw [hsub, hsq, hdiv]
    have hsum0 : 0 ≤ r + roundQ (roundQ (roundQ (x - y) * roundQ (x - y)) / roundQ (x + y)) :=
      add_nonneg hr0 ht0
    have hu0 := roundQ_nonneg _ hsum0
    have hu1 := roundQ_upper _ hsum0
    have hadd : F32.add binary32 (.fin r)
        (.fin (roundQ (roundQ (roundQ (x - y) * roundQ (x - y)) / roundQ (x + y))))
        = .fin (roundQ (r + roundQ (roundQ (roundQ (x - y) * roundQ (x - y))
            / roundQ (x + y)))) := by
      show F32.ofRat _ = _
      exact hfin _ (by linarith) (by linarith)
    rw [hadd]
    refine ⟨_, rfl, hu0, ?_⟩
    push_cast
    linarith

theorem foldl_count_invariant {α β : Type} (P : Nat → β → Prop) (f : β → α → β) (c : Nat)
    (hstep : ∀ n b a, P n b → P (n + c) (f b a)) (l : List α) :
    ∀ n b, P n b → P (n + c * l.length) (l.foldl f b) := by
  induction l with
  | nil =>
    intro n b h
    exact h
  | cons x xs ih =>
    intro n b h
    rw [List.foldl_cons, List.length_cons]
    have := ih (n + c) (f b x) (hstep n b x h)
    have e : n + c + c * xs.length = n + c * (xs.length + 1) := by ring
    rw [e] at this
    exact this

/-- An invariant of the loops of `distance` that counts the 512 runs of the loop body. -/
theorem distance32_count_invariant (R : Reading) (a b : ColorDistribution32)
    (P : Nat → F32 → Prop) (h0 : P 0 (.fin 0))
    (hstep : ∀ n i j k r, P n r → P (n + 1) (ColorDistribution32.distanceStep R a b i j k r)) :
    P 512 (ColorDistribution32.distance R a b) := by
  unfold ColorDistribution32.distance
  have hk : ∀ (i j : Fin 8) (n : Nat) (r : F32), P n r →
      P (n + 8) ((List.finRange 8).foldl (fun result k =>
        ColorDistribution32.distanceStep R a b i j k result) r) := by
    intro i j n r h
    have := foldl_count_invariant P (fun result k =>
      ColorDistribution32.distanceStep R a b i j k result) 1
      (fun n r k h => hstep n i j k r h) (List.finRange 8) n r h
    rw [List.length_finRange] at this
    exact this
  have hj : ∀ (i : Fin 8) (n : Nat) (r : F32), P n r →
      P (n + 64) ((List.finRange 8).foldl (fun result j =>
        (List.finRange 8).foldl (fun result k =>
          ColorDistribution32.distanceStep R a b i j k result) result) r) := by
    intro i n r h
    have := foldl_count_invariant P (fun result j =>
        (List.finRange 8).foldl (fun result k =>
          ColorDistribution32.distanceStep R a b i j k result) result) 8
      (fun n r j h => hk i j n r h) (List.finRange 8) n r h
    rw [List.length_finRange] at this
    exact this
  have := foldl_count_invariant P (fun result i =>
      (List.finRange 8).foldl (fun result j =>
        (List.finRange 8).foldl (fun result k =>
          ColorDistribution32.distanceStep R a b i j k result) result) result) 64
    (fun n r i h => hj i n r h) (List.finRange 8) 0 (.fin 0) h0
  rw [List.length_finRange] at this
  exact this

/-- The distance between two distributions with cells in `[0, 1]` is a finite value
(binary32). -/
theorem distance32_unit (a b : ColorDistribution32) (ha : UnitCells a) (hb : UnitCells b) :
    ∃ q, ColorDistribution32.distance binary32 a b = .fin q ∧ 0 ≤ q := by
  have key := distance32_count_invariant binary32 a b
    (fun n r => n ≤ 512 → ∃ q, r = .fin q ∧ 0 ≤ q ∧ q ≤ 99 * (n : ℚ))
    (fun _ => ⟨0, rfl, le_refl 0, by norm_num⟩)
    (fun n i j k r h hn => by
      obtain ⟨q, hq, hq0, hq1⟩ := h (by omega)
      rw [hq]
      exact distanceStep32_unit a b ha hb i j k q n (by omega) hq0 hq1)
  obtain ⟨q, hq, hq0, _⟩ := key (le_refl 512)
  exact ⟨q, hq, hq0⟩

theorem roundHalfEven_le_int (q : ℚ) (K : Int) (h : q ≤ (K : ℚ)) : roundHalfEven q ≤ K := by
  rcases eq_or_lt_of_le h with h1 | h1
  · rw [h1, roundHalfEven_intCast]
  · have hf : ⌊q⌋ < K := Int.floor_lt.mpr h1
    unfold roundHalfEven
    simp only
    split
    · omega
    · split
      · omega
      · split <;> omega

theorem roundQ_le_one (x : ℚ) (h0 : 0 ≤ x) (h1 : x ≤ 1) : roundQ x ≤ 1 := by
  rcases eq_or_lt_of_le h0 with hz | hpos
  · rw [← hz, roundQ_zero]
    norm_num
  · have hx : x ≠ 0 := ne_of_gt hpos
    have hlog : Int.log 2 |x| ≤ 0 := by
      rw [abs_of_pos hpos]
      by_contra hc
      push_neg at hc
      have h2 : (1 : Int) ≤ Int.log 2 x := hc
      have h3 := (Int.zpow_le_iff_le_log (by norm_num : 1 < 2) hpos).mpr h2
      have h4 : ((2 : Nat) : ℚ) ^ (1 : Int) = 2 := by norm_num
      rw [h4] at h3
      linarith
    have hm : max (Int.log 2 |x|) (-126) ≤ 0 := max_le hlog (by norm_num)
    obtain ⟨N, hN⟩ : ∃ N : Nat, (23 : Int) - max (Int.log 2 |x|) (-126) = (N : Int) :=
      ⟨((23 : Int) - max (Int.log 2 |x|) (-126)).toNat, by
        rw [Int.toNat_of_nonneg (by omega)]⟩
    have hq : quantum x = ((2 : ℚ) ^ N)⁻¹ := by
      unfold quantum
      have e : max (Int.log 2 |x|) (-126) - 23 = -(N : Int) := by omega
      rw [e, zpow_neg, zpow_natCast]
    have hqpos := quantum_pos x
    have hdiv : x / quantum x ≤ (((2 ^ N : Nat) : Int) : ℚ) := by
      rw [hq, div_inv_eq_mul]
      push_cast
      have : (0 : ℚ) < (2 : ℚ) ^ N := by positivity
      calc x * (2 : ℚ) ^ N ≤ 1 * (2 : ℚ) ^ N := mul_le_mul_of_nonneg_right h1 (le_of_lt this)
        _ = (2 : ℚ) ^ N := one_mul _
    have hr := roundHalfEven_le_int _ _ hdiv
    have hr' : (roundHalfEven (x / quantum x) : ℚ) ≤ (((2 ^ N : Nat) : Int) : ℚ) := by
      exact_mod_cast hr
    unfold roundQ
    rw [if_neg hx]
    calc (roundHalfEven (x / quantum x) : ℚ) * quantum x
        ≤ (((2 ^ N : Nat) : Int) : ℚ) * quantum x :=
          mul_le_mul_of_nonneg_right hr' (le_of_lt hqpos)
      _ = 1 := by
          rw [hq]
          push_cast
          exact mul_inv_cancel₀ (by positivity)

theorem binary32_unit (x : ℚ) (h0 : 0 ≤ x) (h1 : x ≤ 1) :
    ∃ q, binary32 x = .fin q ∧ 0 ≤ q ∧ q ≤ 1 := by
  have a1 := roundQ_nonneg x h0
  have a2 := roundQ_le_one x h0 h1
  have hF : (1 : ℚ) ≤ FLT_MAX := by
    unfold FLT_MAX
    norm_num
  exact ⟨roundQ x, ofRat_eq_fin x (by linarith) (by linarith), a1, a2⟩

theorem cellCount_le (input : Mat) (pt1 pt2 : Point) (i j k : Fin 8) :
    cellCount input pt1 pt2 i j k ≤ (regionColors input pt1 pt2).length := by
  rw [← length_regionCoords input pt1 pt2]
  unfold cellCount
  exact List.countP_le_length _

/-- The sample of a non-empty region of at most `2^24` pixels inside the image has its
cells in `[0, 1]` (binary32). -/
theorem getColorDistribution32_unit (input : Mat) (pt1 pt2 : Point)
    (uninit : ColorDistribution32) (hin : RegionInside input pt1 pt2)
    (hN : (pt2.x - pt1.x) * (pt2.y - pt1.y) ≤ 2 ^ 24) :
    ∃ d, getColorDistribution32 binary32 input pt1 pt2 uninit = .ok d ∧ UnitCells d := by
  obtain ⟨d, hd, _, hdata⟩ := getColorDistribution32_small input pt1 pt2 uninit hin hN
  refine ⟨d, hd, ?_⟩
  intro i j k
  rw [hdata]
  have hlen := regionColors_length_pos input pt1 pt2 hin
  have hpos : (0 : ℚ) < ((regionColors input pt1 pt2).length : ℚ) := by
    have : 0 < (regionColors input pt1 pt2).length := by omega
    exact_mod_cast this
  have hle : (cellCount input pt1 pt2 i j k : ℚ) ≤ ((regionColors input pt1 pt2).length : ℚ) := by
    exact_mod_cast cellCount_le input pt1 pt2 i j k
  apply binary32_unit
  · positivity
  · rw [div_le_one hpos]
    exact hle

/-! ## `minDistance` and the object capture in the machine reading -/

theorem lift_oneHot (i j k : Fin 8) (n : Int) : lift (oneHot i j k n) = spike32 i j k 1 n := by
  apply ColorDistribution32.eq_of
  · funext a b c
    unfold lift oneHot spike32
    simp only
    split <;> rfl
  · rfl

theorem unitCells_spike32_one (i j k : Fin 8) (n : Int) : UnitCells (spike32 i j k 1 n) := by
  intro a b c
  by_cases h : a = i ∧ b = j ∧ c = k
  · obtain ⟨h1, h2, h3⟩ := h
    rw [h1, h2, h3]
    exact ⟨1, spike32_data_self i j k 1 n, by norm_num, le_refl 1⟩
  · exact ⟨0, spike32_data_other i j k 1 n a b c h, le_refl 0, by norm_num⟩

theorem unitCells_lift_oneHot (i j k : Fin 8) (n : Int) : UnitCells (lift (oneHot i j k n)) := by
  rw [lift_oneHot]
  exact unitCells_spike32_one i j k n

/-- The distance from the distribution with `FLT_MAX` in one cell to the distribution with
`1.0f` in the same cell is `+inf` (binary32): the square of the difference overflows. -/
theorem distance32_spike_FLT_MAX (i j k : Fin 8) (n m : Int) :
    ColorDistribution32.distance binary32 (spike32 i j k FLT_MAX n) (spike32 i j k 1 m)
      = .pinf := by
  rw [distance32_spike_same binary32 binary32_zero]
  show (if F32.ne0 (F32.ofRat (FLT_MAX + 1)) then
    F32.add binary32 (.fin 0) (F32.div binary32 (F32.sq binary32 (F32.ofRat (FLT_MAX - 1)))
      (F32.ofRat (FLT_MAX + 1)))
    else F32.fin 0) = _
  rw [ofRat_FLT_MAX_succ, ofRat_FLT_MAX_pred]
  have hsq : F32.sq binary32 (.fin FLT_MAX) = .pinf := ofRat_FLT_MAX_sq
  have hdiv : F32.div binary32 .pinf (.fin FLT_MAX) = .pinf := by
    show (if 0 ≤ FLT_MAX then F32.pinf else F32.ninf) = _
    rw [if_pos (le_of_lt FLT_MAX_pos)]
  have hne : F32.ne0 (.fin FLT_MAX) = true := by
    show decide (FLT_MAX ≠ 0) = true
    have := ne_of_gt FLT_MAX_pos
    simp [this]
  rw [hsq, hdiv, hne, if_pos rfl]
  rfl

theorem lt_pinf_left (b : F32) : F32.lt .pinf b = false := by
  cases b <;> rfl

theorem fmin32_pinf (a : ℚ) : fmin32 (.fin a) .pinf = .fin a := by
  unfold fmin32
  rw [lt_pinf_left]
  simp

theorem minDistance32_singleton (R : Reading) (h m : ColorDistribution32) :
    minDistance32 R h [m] = fmin32 (.fin FLT_MAX) (ColorDistribution32.distance R h m) := rfl

theorem minDistance32_pair (R : Reading) (h m1 m2 : ColorDistribution32) :
    minDistance32 R h [m1, m2]
      = fmin32 (fmin32 (.fin FLT_MAX) (ColorDistribution32.distance R h m1))
          (ColorDistribution32.distance R h m2) := rfl

/-- C4, counterexample: the query with `FLT_MAX` in the cell `[0][0][0]` against the list of
the one finalized distribution with `1.0f` in that cell: the distance is `+inf`, and
`minDistance` returns `FLT_MAX`, which is not the distance to any member. -/
theorem minDistance_counterexample :
    Finalized (oneHot 0 0 0 1) ∧
    ColorDistribution32.distance binary32 (spike32 0 0 0 FLT_MAX 1) (lift (oneHot 0 0 0 1))
      = .pinf ∧
    minDistance32 binary32 (spike32 0 0 0 FLT_MAX 1) [lift (oneHot 0 0 0 1)] = .fin FLT_MAX ∧
    ¬ ∃ m ∈ [lift (oneHot 0 0 0 1)],
      ColorDistribution32.distance binary32 (spike32 0 0 0 FLT_MAX 1) m
        = minDistance32 binary32 (spike32 0 0 0 FLT_MAX 1) [lift (oneHot 0 0 0 1)] := by
  have hd : ColorDistribution32.distance binary32 (spike32 0 0 0 FLT_MAX 1)
      (lift (oneHot 0 0 0 1)) = .pinf := by
    rw [lift_oneHot]
    exact distance32_spike_FLT_MAX 0 0 0 1 1
  have hm : minDistance32 binary32 (spike32 0 0 0 FLT_MAX 1) [lift (oneHot 0 0 0 1)]
      = .fin FLT_MAX := by
    rw [minDistance32_singleton, hd]
    exact fmin32_pinf _
  refine ⟨finalized_oneHot 0 0 0 1, hd, hm, ?_⟩
  rintro ⟨m, hmem, he⟩
  rw [List.mem_singleton] at hmem
  rw [hmem, hd, hm] at he
  cases he

/-- C4 (amended): for every query distribution `h` and every non-empty list `hists` of
distributions, the query and all members with finite cells in `[0, 1]` (as the cells of
every finalized distribution are), `minDistance(h, hists)` is the smallest value of
`h.distance(m)` over the members `m` of `hists`: a finite value, at most `h.distance(m)`
for every member `m`, and equal to `h.distance(m)` for at least one member `m`
(binary32). -/
theorem minDistance32_is_minimum (h : ColorDistribution32) (hists : List ColorDistribution32)
    (hh : UnitCells h) (hne : hists ≠ []) (hm : ∀ m ∈ hists, UnitCells m) :
    ∃ v, minDistance32 binary32 h hists = .fin v ∧
      (∀ m ∈ hists, ∃ d, ColorDistribution32.distance binary32 h m = .fin d ∧ v ≤ d) ∧
      (∃ m ∈ hists, ColorDistribution32.distance binary32 h m = .fin v) :=
  minDistance32_finite h hists hne (fun m hmem => by
    obtain ⟨q, hq, _⟩ := distance32_unit h m hh (hm m hmem)
    exact ⟨q, hq⟩)

/-- C4 (amended), witness: the one-cell query at `[1][0][0]` against two one-cell
distributions. -/
theorem minDistance32_is_minimum_witness :
    ∃ v, minDistance32 binary32 (lift (oneHot 1 0 0 1))
        [lift (oneHot 0 0 0 1), lift (oneHot 1 0 0 4)] = .fin v ∧
      (∀ m ∈ [lift (oneHot 0 0 0 1), lift (oneHot 1 0 0 4)],
        ∃ d, ColorDistribution32.distance binary32 (lift (oneHot 1 0 0 1)) m = .fin d ∧ v ≤ d) ∧
      (∃ m ∈ [lift (oneHot 0 0 0 1), lift (oneHot 1 0 0 4)],
        ColorDistribution32.distance binary32 (lift (oneHot 1 0 0 1)) m = .fin v) :=
  minDistance32_is_minimum (lift (oneHot 1 0 0 1)) [lift (oneHot 0 0 0 1), lift (oneHot 1 0 0 4)]
    (unitCells_lift_oneHot 1 0 0 1) (List.cons_ne_nil _ _)
    (fun m hm => by
      rcases List.mem_cons.mp hm with h1 | h1
      · rw [h1]
        exact unitCells_lift_oneHot 0 0 0 1
      · rw [List.mem_singleton] at h1
        rw [h1]
        exact unitCells_lift_oneHot 1 0 0 4)

/-- The machine sampler on a non-empty uniform region of at most `2^24` pixels inside the
image: `1.0f` in the cell of the colour, `0.0f` elsewhere (binary32). -/
theorem getColorDistribution32_uniform (input : Mat) (pt1 pt2 : Point) (c : Vec3b)
    (uninit : ColorDistribution32)
    (hin : RegionInside input pt1 pt2) (hu : RegionUniform input pt1 pt2 c)
    (hN : (pt2.x - pt1.x) * (pt2.y - pt1.y) ≤ 2 ^ 24) :
    getColorDistribution32 binary32 input pt1 pt2 uninit
      = .ok (spike32 (bin c.val0) (bin c.val1) (bin c.val2) 1
          ((pt2.x - pt1.x) * (pt2.y - pt1.y))) := by
  have hlen := regionColors_length_pos input pt1 pt2 hin
  have hne : ((regionColors input pt1 pt2).length : ℚ) ≠ 0 := by
    have : (regionColors input pt1 pt2).length ≠ 0 := by omega
    exact_mod_cast this
  obtain ⟨d, hd, hnb, hdata⟩ := getColorDistribution32_small input pt1 pt2 uninit hin hN
  rw [hd]
  congr 1
  apply ColorDistribution32.eq_of
  · funext i j k
    rw [hdata]
    by_cases h : i = bin c.val0 ∧ j = bin c.val1 ∧ k = bin c.val2
    · obtain ⟨h1, h2, h3⟩ := h
      rw [h1, h2, h3, cellCount_uniform input pt1 pt2 c hu, div_self hne, binary32_one,
        spike32_data_self]
    · rw [cellCount_uniform_other input pt1 pt2 c hu i j k h, zero_div, binary32_zero,
        spike32_data_other _ _ _ _ _ i j k h]
  · exact hnb

theorem keyA32_eq (R : Reading) (img_input : Mat) (st : Session32) (uninit m : ColorDistribution32)
    (h : getColorDistribution32 R img_input mainPt1 mainPt2 uninit = .ok m) :
    keyA32 R img_input st uninit
      = .ok { col_hists := st.col_hists, col_hists_object := st.col_hists_object ++ [m] } := by
  unfold keyA32
  rw [h]
  rfl

theorem mainRegion_size : (mainPt2.x - mainPt1.x) * (mainPt2.y - mainPt1.y) ≤ 2 ^ 24 := by
  decide

theorem redFrame_capture32 (uninit : ColorDistribution32) :
    getColorDistribution32 binary32 redFrame mainPt1 mainPt2 uninit
      = .ok (spike32 7 0 0 1 ((mainPt2.x - mainPt1.x) * (mainPt2.y - mainPt1.y))) := by
  have hin : RegionInside redFrame mainPt1 mainPt2 := by decide
  have hu : RegionUniform redFrame mainPt1 mainPt2 ⟨255, 0, 0⟩ := fun _ _ _ _ _ _ => rfl
  have h := getColorDistribution32_uniform redFrame mainPt1 mainPt2 ⟨255, 0, 0⟩ uninit hin hu
    mainRegion_size
  simp only [bin_255, bin_zero] at h
  exact h

/-- C16, counterexample: (1) on a frame that does not contain the capture region (the
2 x 4 image `splitImage`) the `'a'` capture reads outside the frame and appends nothing;
(2) after two `'a'` captures on the frame `redFrame`, starting from an empty object set,
the object set has the two members `m1` and `m2`; the query with the value `FLT_MAX` in
the cell `[7][0][0]` is at distance `+inf` from each of them, and `minDistance` returns
`FLT_MAX`, which is not the smaller of the two distances. -/
theorem keyA_minDistance_inf_counterexample :
    keyA32 binary32 splitImage { col_hists := [], col_hists_object := [] } (spike32 0 0 0 0 0)
      = .error .outOfBounds ∧
    ∃ m1 m2 s1,
      keyA32 binary32 redFrame { col_hists := [], col_hists_object := [] } (spike32 0 0 0 0 0)
        = .ok s1 ∧
      keyA32 binary32 redFrame s1 (spike32 0 0 0 0 0)
        = .ok { col_hists := [], col_hists_object := [m1, m2] } ∧
      ColorDistribution32.distance binary32 (spike32 7 0 0 FLT_MAX 1) m1 = .pinf ∧
      ColorDistribution32.distance binary32 (spike32 7 0 0 FLT_MAX 1) m2 = .pinf ∧
      minDistance32 binary32 (spike32 7 0 0 FLT_MAX 1) [m1, m2] = .fin FLT_MAX := by
  refine ⟨rfl, _, _, _,
    keyA32_eq binary32 redFrame _ _ _ (redFrame_capture32 _),
    keyA32_eq binary32 redFrame _ _ _ (redFrame_capture32 _),
    distance32_spike_FLT_MAX 7 0 0 1 _, distance32_spike_FLT_MAX 7 0 0 1 _, ?_⟩
  rw [minDistance32_pair, distance32_spike_FLT_MAX, fmin32_pinf, fmin32_pinf]

/-- C16 (amended): each `'a'` capture on a frame that contains the capture region appends
exactly one distribution to the end of the object set, keeping every earlier member and
its order and leaving the background set unchanged; starting from an empty object set,
two successive captures give a 2-member set, and `minDistance` of a query with finite
cells in `[0, 1]` (as the cells of every finalized distribution are) against it is the
smaller of the query's distances to the two members, both finite (binary32, whatever the
local variable of the sampler held before its constructor ran). -/
theorem keyA32_appends (img1 img2 : Mat) (st : Session32) (bg : List ColorDistribution32)
    (q u1 u2 : ColorDistribution32) (hin1 : RegionInside img1 mainPt1 mainPt2)
    (hin2 : RegionInside img2 mainPt1 mainPt2) (hq : UnitCells q) :
    (∃ m, getColorDistribution32 binary32 img1 mainPt1 mainPt2 u1 = .ok m ∧
      keyA32 binary32 img1 st u1
        = .ok { col_hists := st.col_hists,
                col_hists_object := st.col_hists_object ++ [m] }) ∧
    (∃ m1 m2 s1, keyA32 binary32 img1 { col_hists := bg, col_hists_object := [] } u1 = .ok s1 ∧
      keyA32 binary32 img2 s1 u2 = .ok { col_hists := bg, col_hists_object := [m1, m2] } ∧
      [m1, m2].length = 2 ∧
      ∃ d1 d2, ColorDistribution32.distance binary32 q m1 = .fin d1 ∧
        ColorDistribution32.distance binary32 q m2 = .fin d2 ∧
        minDistance32 binary32 q [m1, m2] = .fin (min d1 d2)) := by
  obtain ⟨m1, hm1, hu1⟩ := getColorDistribution32_unit img1 mainPt1 mainPt2 u1 hin1
    mainRegion_size
  obtain ⟨m2, hm2, hu2⟩ := getColorDistribution32_unit img2 mainPt1 mainPt2 u2 hin2
    mainRegion_size
  refine ⟨⟨m1, hm1, keyA32_eq binary32 img1 st u1 m1 hm1⟩, m1, m2, _,
    keyA32_eq binary32 img1 _ u1 m1 hm1, keyA32_eq binary32 img2 _ u2 m2 hm2, rfl, ?_⟩
  obtain ⟨d1, hd1, _⟩ := distance32_unit q m1 hq hu1
  obtain ⟨d2, hd2, _⟩ := distance32_unit q m2 hq hu2
  refine ⟨d1, d2, hd1, hd2, ?_⟩
  have hv := distance32_valid q m1 d1 hd1
  rw [minDistance32_pair, hd1, hd2, fmin32_fin, fmin32_fin, fmin_eq_min, fmin_eq_min,
    min_eq_right hv]

/-- C16 (amended), witness: two captures on the frame `redFrame` and the one-cell query at
`[1][0][0]`. -/
theorem keyA32_appends_witness :
    ∃ m1 m2 s1,
      keyA32 binary32 redFrame { col_hists := [lift (oneHot 0 0 0 1)], col_hists_object := [] }
        (spike32 1 1 1 9 5) = .ok s1 ∧
      keyA32 binary32 redFrame s1 (spike32 2 2 2 8 6)
        = .ok { col_hists := [lift (oneHot 0 0 0 1)], col_hists_object := [m1, m2] } ∧
      [m1, m2].length = 2 ∧
      ∃ d1 d2, ColorDistribution32.distance binary32 (lift (oneHot 1 0 0 1)) m1 = .fin d1 ∧
        ColorDistribution32.distance binary32 (lift (oneHot 1 0 0 1)) m2 = .fin d2 ∧
        minDistance32 binary32 (lift (oneHot 1 0 0 1)) [m1, m2] = .fin (min d1 d2) :=
  (keyA32_appends redFrame redFrame { col_hists := [], col_hists_object := [] }
    [lift (oneHot 0 0 0 1)] (lift (oneHot 1 0 0 1)) (spike32 1 1 1 9 5) (spike32 2 2 2 8 6)
    (by decide) (by decide) (unitCells_lift_oneHot 1 0 0 1)).2

/-! ## Uniform blocks and the painted rectangles -/

/-- The colour of a block inside the image whose pixels are all `(255, 0, 0)`, with a
one-cell background set at `[0][0][0]` and a one-cell object set at `[7][0][0]`. -/
theorem recoLabel_red (input : Mat) (nb no : Int) (colors : List Vec3b) (bloc y x : Int)
    (hblk : RegionInside input ⟨x, y⟩ ⟨x + bloc, y + bloc⟩)
    (hu : RegionUniform input ⟨x, y⟩ ⟨x + bloc, y + bloc⟩ ⟨255, 0, 0⟩) :
    recoLabel input [oneHot 0 0 0 nb] [oneHot 7 0 0 no] colors bloc y x = vecAt colors 1 := by
  have hred := getColorDistribution_uniform input _ _ _ hblk hu
  simp only [bin_zero, bin_255] at hred
  rw [recoLabel_eq, hred, ok_bind, recoColor_eq, minChi_singleton, minChi_singleton,
    chiSquare_oneHot_self, chiSquare_oneHot_ne 7 0 0 0 0 0 _ _ (by decide),
    fmin_FLT_MAX_two, fmin_FLT_MAX_zero, if_neg (by norm_num)]

/-- The colour of a block inside the image whose pixels are all `(0, 0, 0)`, with the same
reference sets. -/
theorem recoLabel_black (input : Mat) (nb no : Int) (colors : List Vec3b) (bloc y x : Int)
    (hblk : RegionInside input ⟨x, y⟩ ⟨x + bloc, y + bloc⟩)
    (hu : RegionUniform input ⟨x, y⟩ ⟨x + bloc, y + bloc⟩ ⟨0, 0, 0⟩) :
    recoLabel input [oneHot 0 0 0 nb] [oneHot 7 0 0 no] colors bloc y x = vecAt colors 0 := by
  have hblk' := getColorDistribution_uniform input _ _ _ hblk hu
  simp only [bin_zero, bin_255] at hblk'
  rw [recoLabel_eq, hblk', ok_bind, recoColor_eq, minChi_singleton, minChi_singleton,
    chiSquare_oneHot_self, chiSquare_oneHot_ne 0 0 0 7 0 0 _ _ (by decide),
    fmin_FLT_MAX_two, fmin_FLT_MAX_zero, if_pos (by norm_num)]

theorem labelOf_of_recoLabel (input : Mat) (bg obj : List ColorDistribution)
    (colors : List Vec3b) (c0 c1 c : Vec3b) (h0 : vecAt colors 0 = .ok c0)
    (h1 : vecAt colors 1 = .ok c1) (bloc y x : Int)
    (hin : RegionInside input ⟨x, y⟩ ⟨x + bloc, y + bloc⟩)
    (h : recoLabel input bg obj colors bloc y x = .ok c) :
    labelOf input bg obj c0 c1 bloc (x, y) = c := by
  rw [recoLabel_inside input bg obj colors c0 c1 h0 h1 bloc y x hin] at h
  exact Except.ok.inj h

/-- C14: the rectangle painted for a block also covers the first pixel column of the block
to its right. For every block of `recoObject` (origin `(x, y)`, side `B >= 1`) that lies
inside the image together with its right neighbour (origin `(x + B, y)`), the loop body
for the block `(x, y)` paints the pixel at row `y`, column `x + B` with the colour of the
block `(x, y)`, whatever `reco` held there, although that pixel is outside the block
`[x, x + B) x [y, y + B)` and inside the neighbour; the loop body for the neighbour paints
the same pixel with the neighbour's colour. The pixel lies in two paint regions. -/
theorem recoBlock_paints_neighbour (input reco : Mat) (bg obj : List ColorDistribution)
    (colors : List Vec3b) (c0 c1 : Vec3b) (B x y : Nat) (hB : 1 ≤ B)
    (h0 : vecAt colors 0 = .ok c0) (h1 : vecAt colors 1 = .ok c1)
    (hrows : reco.rows = input.rows) (hcols : reco.cols = input.cols)
    (hblk : RegionInside input ⟨(x : Int), (y : Int)⟩ ⟨(x : Int) + (B : Int), (y : Int) + (B : Int)⟩)
    (hnb : RegionInside input ⟨((x + B : Nat) : Int), (y : Int)⟩
      ⟨((x + B : Nat) : Int) + (B : Int), (y : Int) + (B : Int)⟩) :
    (∃ r, recoBlock input bg obj colors (B : Int) (y : Int) (x : Int) reco = .ok r ∧
      r.pix y (x + B) = labelOf input bg obj c0 c1 (B : Int) ((x : Int), (y : Int))) ∧
    (∃ r, recoBlock input bg obj colors (B : Int) (y : Int) ((x + B : Nat) : Int) reco = .ok r ∧
      r.pix y (x + B)
        = labelOf input bg obj c0 c1 (B : Int) (((x + B : Nat) : Int), (y : Int))) ∧
    ¬ InTile (B : Int) ((x : Int), (y : Int)) (y : Int) ((x + B : Nat) : Int) ∧
    InTile (B : Int) (((x + B : Nat) : Int), (y : Int)) (y : Int) ((x + B : Nat) : Int) := by
  have hBi : (1 : Int) ≤ (B : Int) := by exact_mod_cast hB
  obtain ⟨_, _, _, _, hy1, hy2⟩ := hblk
  obtain ⟨_, hx1, hx2, _, _, _⟩ := hnb
  simp only at hy1 hy2 hx1 hx2
  have hyr : y < reco.rows := by
    rw [hrows]
    have : (y : Int) < (input.rows : Int) := by omega
    exact_mod_cast this
  have hxc : x + B < reco.cols := by
    rw [hcols]
    have : ((x + B : Nat) : Int) < (input.cols : Int) := by omega
    exact_mod_cast this
  refine ⟨⟨_, recoBlock_inside input bg obj colors c0 c1 h0 h1 (B : Int) y x
      ⟨by assumption, by omega, by push_cast at hx1 hx2 ⊢; omega, by assumption, hy1, hy2⟩ reco,
      ?_⟩,
    ⟨_, recoBlock_inside input bg obj colors c0 c1 h0 h1 (B : Int) y ((x + B : Nat) : Int)
      ⟨by omega, hx1, hx2, by assumption, hy1, hy2⟩ reco, ?_⟩, ?_, ?_⟩
  · rw [rectangle_pix, if_pos]
    refine ⟨hyr, hxc, ?_⟩
    have := (inPaint_iff (B : Int) (by omega) ((x : Int), (y : Int)) y (x + B)).mpr
      ⟨by push_cast; omega, by push_cast; omega, le_refl _, by omega⟩
    exact this
  · rw [rectangle_pix, if_pos]
    refine ⟨hyr, hxc, ?_⟩
    have := (inPaint_iff (B : Int) (by omega) (((x + B : Nat) : Int), (y : Int)) y (x + B)).mpr
      ⟨le_refl _, by omega, le_refl _, by omega⟩
    exact this
  · unfold InTile
    simp only
    push_cast
    omega
  · unfold InTile
    simp only
    omega

/-- C14, witness: on `splitImage` with blocks of side 2, one-cell reference sets and the
colours of `main`: after the loop body for the block `(0, 0)` the pixel at row 0, column 2
is `(0, 0, 255)`, the colour of that block, and the loop body for the block `(2, 0)` paints
it again, with `(0, 0, 0)`; the second image is the result of `recoObject`. -/
theorem recoBlock_paints_neighbour_witness :
    ∃ r1 r2,
      recoBlock splitImage [oneHot 0 0 0 4] [oneHot 7 0 0 4] mainColors 2 0 0
        { rows := 2, cols := 4, pix := fun _ _ => ⟨0, 0, 0⟩ } = .ok r1 ∧
      r1.pix 0 2 = ⟨0, 0, 255⟩ ∧
      recoBlock splitImage [oneHot 0 0 0 4] [oneHot 7 0 0 4] mainColors 2 0 2 r1 = .ok r2 ∧
      r2.pix 0 2 = ⟨0, 0, 0⟩ ∧
      recoObject 2 splitImage [oneHot 0 0 0 4] [oneHot 7 0 0 4] mainColors 2 = .ok r2 := by
  have hl0 : labelOf splitImage [oneHot 0 0 0 4] [oneHot 7 0 0 4] ⟨0, 0, 0⟩ ⟨0, 0, 255⟩ 2
      (0, 0) = ⟨0, 0, 255⟩ :=
    labelOf_of_recoLabel splitImage _ _ mainColors _ _ _ rfl rfl 2 0 0 (by decide)
      (recoLabel_red splitImage 4 4 mainColors 2 0 0 (by decide) splitImage_left_uniform)
  have hl2 : labelOf splitImage [oneHot 0 0 0 4] [oneHot 7 0 0 4] ⟨0, 0, 0⟩ ⟨0, 0, 255⟩ 2
      (2, 0) = ⟨0, 0, 0⟩ :=
    labelOf_of_recoLabel splitImage _ _ mainColors _ _ _ rfl rfl 2 0 2 (by decide)
      (recoLabel_black splitImage 4 4 mainColors 2 0 2 (by decide) splitImage_right_uniform)
  have key1 := recoBlock_paints_neighbour splitImage
    { rows := 2, cols := 4, pix := fun _ _ => ⟨0, 0, 0⟩ } [oneHot 0 0 0 4] [oneHot 7 0 0 4]
    mainColors ⟨0, 0, 0⟩ ⟨0, 0, 255⟩ 2 0 0 (by decide) rfl rfl rfl rfl (by decide) (by decide)
  simp only [Nat.cast_ofNat, Nat.cast_zero, Nat.cast_add, zero_add] at key1
  obtain ⟨⟨r1, hr1, hp1⟩, _, _, _⟩ := key1
  have hr1d : r1.rows = 2 ∧ r1.cols = 4 := by
    have := recoBlock_inside splitImage [oneHot 0 0 0 4] [oneHot 7 0 0 4] mainColors
      ⟨0, 0, 0⟩ ⟨0, 0, 255⟩ rfl rfl 2 0 0 (by decide)
      { rows := 2, cols := 4, pix := fun _ _ => ⟨0, 0, 0⟩ }
    rw [this] at hr1
    have e := Except.ok.inj hr1
    rw [← e]
    exact ⟨rfl, rfl⟩
  have key2 := recoBlock_paints_neighbour splitImage r1
    [oneHot 0 0 0 4] [oneHot 7 0 0 4] mainColors ⟨0, 0, 0⟩ ⟨0, 0, 255⟩ 2 0 0 (by decide) rfl rfl
    hr1d.1 hr1d.2 (by decide) (by decide)
  simp only [Nat.cast_ofNat, Nat.cast_zero, Nat.cast_add, zero_add] at key2
  obtain ⟨_, ⟨r2, hr2, hp2⟩, _, _⟩ := key2
  rw [hl0] at hp1
  rw [hl2] at hp2
  refine ⟨r1, r2, hr1, hp1, hr2, hp2, ?_⟩
  have h := recoObject_eq_foldlM splitImage [oneHot 0 0 0 4] [oneHot 7 0 0 4] mainColors 2
    (by decide) 2 (by decide) (by decide)
  simp only [Nat.cast_ofNat] at h
  rw [h]
  have hbo : blockOrigins splitImage.rows splitImage.cols 2 = [(0, 0), (2, 0)] := by decide
  rw [hbo]
  show (recoBlock splitImage [oneHot 0 0 0 4] [oneHot 7 0 0 4] mainColors 2 0 0
      { rows := 2, cols := 4, pix := fun _ _ => ⟨0, 0, 0⟩ } >>= fun r =>
    recoBlock splitImage [oneHot 0 0 0 4] [oneHot 7 0 0 4] mainColors 2 0 2 r >>= fun r' =>
      pure r') = _
  rw [hr1, ok_bind, hr2]
  rfl

/-! ## When `distance` is zero in the machine reading -/

theorem roundQ_lower_abs (x : ℚ) :
    |x| - |x| * (1 / 16777216) - 1 / 1427247692705959881058285969449495136382746624
      ≤ |roundQ x| := by
  have h := roundQ_abs_err x
  have e24 : (2 : ℚ) ^ (-24 : Int) = 1 / 16777216 := by norm_num
  have e150 : (2 : ℚ) ^ (-150 : Int)
      = 1 / 1427247692705959881058285969449495136382746624 := by norm_num
  rw [e24, e150] at h
  have h2 : |x| ≤ |roundQ x - x| + |roundQ x| := by
    have := abs_sub (roundQ x) (roundQ x - x)
    have e : roundQ x - (roundQ x - x) = x := by ring
    rw [e] at this
    linarith
  linarith

theorem roundQ_lower (x : ℚ) (hx : 0 ≤ x) :
    x - x * (1 / 16777216) - 1 / 1427247692705959881058285969449495136382746624
      ≤ roundQ x := by
  have h := roundQ_lower_abs x
  rw [abs_of_nonneg hx, abs_of_nonneg (roundQ_nonneg x hx)] at h
  exact h

/-- An invariant of a loop over `0..m-1` that knows the index of each run. -/
theorem foldl_finRange_index {β : Type} : ∀ (m : Nat) (f : β → Fin m → β)
    (Q : Nat → β → Prop), (∀ (k : Fin m) (b : β), Q k.val b → Q (k.val + 1) (f b k)) →
    ∀ b, Q 0 b → Q m ((List.finRange m).foldl f b) := by
  intro m
  induction m with
  | zero =>
    intro f Q _ b h
    exact h
  | succ n ih =>
    intro f Q hstep b h
    rw [List.finRange_succ_eq_map, List.foldl_cons, List.foldl_map]
    have h1 : Q 1 (f b 0) := hstep 0 b h
    exact ih (fun b k => f b k.succ) (fun n b => Q (n + 1) b)
      (fun k b hk => hstep k.succ b hk) (f b 0) h1

/-- An invariant of the loops of `distance` that knows the index `64 i + 8 j + k` of each
run of the loop body. -/
theorem distance32_index_invariant (R : Reading) (a b : ColorDistribution32)
    (P : Nat → F32 → Prop) (h0 : P 0 (.fin 0))
    (hstep : ∀ (i j k : Fin 8) (r : F32), P (64 * i.val + 8 * j.val + k.val) r →
      P (64 * i.val + 8 * j.val + k.val + 1) (ColorDistribution32.distanceStep R a b i j k r)) :
    P 512 (ColorDistribution32.distance R a b) := by
  unfold ColorDistribution32.distance
  have hk : ∀ (i j : Fin 8) (r : F32), P (64 * i.val + 8 * j.val) r →
      P (64 * i.val + 8 * j.val + 8) ((List.finRange 8).foldl (fun result k =>
        ColorDistribution32.distanceStep R a b i j k result) r) := by
    intro i j r h
    exact foldl_finRange_index 8 (fun result k =>
      ColorDistribution32.distanceStep R a b i j k result)
      (fun n r => P (64 * i.val + 8 * j.val + n) r)
      (fun k r hk => hstep i j k r hk) r h
  have hj : ∀ (i : Fin 8) (r : F32), P (64 * i.val) r →
      P (64 * i.val + 64) ((List.finRange 8).foldl (fun result j =>
        (List.finRange 8).foldl (fun result k =>
          ColorDistribution32.distanceStep R a b i j k result) result) r) := by
    intro i r h
    exact foldl_finRange_index 8 (fun result j =>
        (List.finRange 8).foldl (fun result k =>
          ColorDistribution32.distanceStep R a b i j k result) result)
      (fun n r => P (64 * i.val + 8 * n) r)
      (fun j r hj' => by
        have := hk i j r hj'
        have e : 64 * i.val + 8 * (j.val + 1) = 64 * i.val + 8 * j.val + 8 := by ring
        show P (64 * i.val + 8 * (j.val + 1)) _
        rw [e]
        exact this) r h
  exact foldl_finRange_index 8 (fun result i =>
      (List.finRange 8).foldl (fun result j =>
        (List.finRange 8).foldl (fun result k =>
          ColorDistribution32.distanceStep R a b i j k result) result) result)
    (fun n r => P (64 * n) r)
    (fun i r hi => by
      have := hj i r hi
      have e : 64 * (i.val + 1) = 64 * i.val + 64 := by ring
      show P (64 * (i.val + 1)) _
      rw [e]
      exact this) (.fin 0) h0

/-- One run of the loop body of `distance` on cells `x`, `y` in `[0, 1]` (binary32), with
lower bounds: the running sum loses at most one rounding, and it is at least `2^-103`
after a cell where the two distributions differ by `2^-48` or more. -/
theorem distanceStep32_cells (a b : ColorDistribution32) (i j k : Fin 8) (x y r : ℚ) (n : Nat)
    (hx : a.data i j k = .fin x) (hy : b.data i j k = .fin y)
    (hx0 : 0 ≤ x) (hx1 : x ≤ 1) (hy0 : 0 ≤ y) (hy1 : y ≤ 1)
    (hn : n < 512) (hr0 : 0 ≤ r) (hr : r ≤ 99 * (n : ℚ)) :
    ∃ r', ColorDistribution32.distanceStep binary32 a b i j k (.fin r) = .fin r' ∧ 0 ≤ r' ∧
      r' ≤ 99 * ((n + 1 : Nat) : ℚ) ∧
      r - r * (1 / 16777216) - 1 / 1427247692705959881058285969449495136382746624 ≤ r' ∧
      (1 / 281474976710656 ≤ |x - y| → 1 / 10141204801825835211973625643008 ≤ r') := by
  have hbig : (1000000 : ℚ) ≤ FLT_MAX := by
    unfold FLT_MAX
    norm_num
  have hnq : (n : ℚ) ≤ 511 := by
    have : n ≤ 511 := by omega
    exact_mod_cast this
  have hz0 : 0 ≤ x + y := add_nonneg hx0 hy0
  have hw : |x - y| ≤ x + y := by
    rw [abs_le]
    constructor <;> linarith
  have hfin : ∀ v : ℚ, roundQ v ≤ 1000000 → -1000000 ≤ roundQ v →
      F32.ofRat v = .fin (roundQ v) :=
    fun v h1 h2 => ofRat_eq_fin v (by linarith) (by linarith)
  unfold ColorDistribution32.distanceStep
  simp only [hx, hy]
  have hden : F32.add binary32 (.fin x) (.fin y) = .fin (roundQ (x + y)) := by
    show F32.ofRat (x + y) = _
    have h1 := roundQ_upper (x + y) hz0
    have h2 := roundQ_nonneg (x + y) hz0
    exact hfin _ (by linarith) (by linarith)
  rw [hden]
  have hslow := roundQ_lower (x + y) hz0
  by_cases hs : roundQ (x + y) = 0
  · have hne : F32.ne0 (.fin (roundQ (x + y))) = false := by
      show decide (roundQ (x + y) ≠ 0) = false
      simp [hs]
    rw [hne]
    refine ⟨r, by simp, hr0, ?_, by linarith, ?_⟩
    · push_cast
      linarith
    · intro hdiff
      rw [hs] at hslow
      linarith
  · have hne : F32.ne0 (.fin (roundQ (x + y))) = true := by
      show decide (roundQ (x + y) ≠ 0) = true
      simp [hs]
    rw [hne, if_pos rfl]
    obtain ⟨hd, hn0, hn3, hspos, hs3⟩ := term_bounds x y hx0 hx1 hy0 hy1 hs
    have hd' := abs_le.mp hd
    have hsub : F32.sub binary32 (.fin x) (.fin y) = .fin (roundQ (x - y)) := by
      show F32.ofRat (x - y) = _
      exact hfin _ (by linarith) (by linarith)
    have hsq : F32.sq binary32 (.fin (roundQ (x - y)))
        = .fin (roundQ (roundQ (x - y) * roundQ (x - y))) := by
      show F32.ofRat (roundQ (x - y) * roundQ (x - y)) = _
      exact hfin _ (by linarith) (by linarith)
    have hq0 : 0 ≤ roundQ (roundQ (x - y) * roundQ (x - y)) / roundQ (x + y) :=
      div_nonneg hn0 (le_of_lt hspos)
    have hq1 : roundQ (roundQ (x - y) * roundQ (x - y)) / roundQ (x + y) ≤ 97 := by
      rw [div_le_iff₀ hspos]
      exact hn3
    have ht0 := roundQ_nonneg _ hq0
    have ht1 := roundQ_upper _ hq0
    have hdiv : F32.div binary32 (.fin (roundQ (roundQ (x - y) * roundQ (x - y))))
        (.fin (roundQ (x + y)))
        = .fin (roundQ (roundQ (roundQ (x - y) * roundQ (x - y)) / roundQ (x + y))) := by
      rw [div_fin_fin binary32 _ _ hs]
      exact hfin _ (by linarith) (by linarith)
    rw [hsub, hsq, hdiv]
    have hsum0 : 0 ≤ r + roundQ (roundQ (roundQ (x - y) * roundQ (x - y)) / roundQ (x + y)) :=
      add_nonneg hr0 ht0
    have hu0 := roundQ_nonneg _ hsum0
    have hu1 := roundQ_upper _ hsum0
    have hu2 := roundQ_lower _ hsum0
    have hadd : F32.add binary32 (.fin r)
        (.fin (roundQ (roundQ (roundQ (x - y) * roundQ (x - y)) / roundQ (x + y))))
        = .fin (roundQ (r + roundQ (roundQ (roundQ (x - y) * roundQ (x - y))
            / roundQ (x + y)))) := by
      show F32.ofRat _ = _
      exact hfin _ (by linarith) (by linarith)
    rw [hadd]
    refine ⟨_, rfl, hu0, ?_, by linarith, ?_⟩
    · push_cast
      linarith
    · intro hdiff
      have hdl := roundQ_lower_abs (x - y)
      have hd49 : 1 / 562949953421312 ≤ |roundQ (x - y)| := by linarith
      have hdd : (1 / 562949953421312 : ℚ) * (1 / 562949953421312)
          ≤ roundQ (x - y) * roundQ (x - y) := by
        rw [← abs_mul_abs_self (roundQ (x - y))]
        exact mul_le_mul hd49 hd49 (by norm_num) (abs_nonneg _)
      have hnl := roundQ_lower _ (mul_self_nonneg (roundQ (x - y)))
      have hn99 : 1 / 633825300114114700748351602688
          ≤ roundQ (roundQ (x - y) * roundQ (x - y)) := by
        norm_num at hdd ⊢
        linarith
      have hq3 : roundQ (roundQ (x - y) * roundQ (x - y)) / 3
          ≤ roundQ (roundQ (x - y) * roundQ (x - y)) / roundQ (x + y) :=
        div_le_div_of_nonneg_left hn0 hspos hs3
      have htl := roundQ_lower _ hq0
      linarith

theorem gridCells_unit (d : ColorDistribution32) (h : GridCells d) : UnitCells d := by
  intro i j k
  obtain ⟨m, hm, hm1⟩ := h i j k
  exact ⟨_, hm, by positivity, hm1⟩

theorem grid_diff (m1 m2 : Nat)
    (h : (m1 : ℚ) * (2 : ℚ) ^ (-48 : Int) ≠ (m2 : ℚ) * (2 : ℚ) ^ (-48 : Int)) :
    1 / 281474976710656
      ≤ |(m1 : ℚ) * (2 : ℚ) ^ (-48 : Int) - (m2 : ℚ) * (2 : ℚ) ^ (-48 : Int)| := by
  have hne : (m1 : Int) ≠ (m2 : Int) := by
    intro he
    apply h
    have : m1 = m2 := by exact_mod_cast he
    rw [this]
  have h1 : (1 : Int) ≤ |(m1 : Int) - (m2 : Int)| := by
    have : (m1 : Int) - (m2 : Int) ≠ 0 := sub_ne_zero.mpr hne
    exact Int.one_le_abs this
  have h2 : (1 : ℚ) ≤ |(m1 : ℚ) - (m2 : ℚ)| := by
    have : ((1 : Int) : ℚ) ≤ ((|(m1 : Int) - (m2 : Int)| : Int) : ℚ) := by exact_mod_cast h1
    push_cast at this
    exact this
  have e48 : (2 : ℚ) ^ (-48 : Int) = 1 / 281474976710656 := by norm_num
  rw [e48, ← sub_mul, abs_mul, abs_of_pos (by norm_num : (0 : ℚ) < 1 / 281474976710656)]
  calc (1 : ℚ) / 281474976710656 = 1 * (1 / 281474976710656) := (one_mul _).symm
    _ ≤ |(m1 : ℚ) - (m2 : ℚ)| * (1 / 281474976710656) :=
      mul_le_mul_of_nonneg_right h2 (by norm_num)

/-- The distance between two distributions with cells on the grid of the multiples of
`2^-48` in `[0, 1]` that differ in some cell is a positive finite value (binary32). -/
theorem distance32_grid_pos (a b : ColorDistribution32) (ha : GridCells a) (hb : GridCells b)
    (i0 j0 k0 : Fin 8) (hne : a.data i0 j0 k0 ≠ b.data i0 j0 k0) :
    ∃ q, ColorDistribution32.distance binary32 a b = .fin q ∧ 0 < q := by
  have key := distance32_index_invariant binary32 a b
    (fun n r => n ≤ 512 → ∃ q, r = .fin q ∧ 0 ≤ q ∧ q ≤ 99 * (n : ℚ) ∧
      (64 * i0.val + 8 * j0.val + k0.val < n →
        1 / 10141204801825835211973625643008
          - (n : ℚ) * (1 / 85070591730234615865843651857942052864) ≤ q))
    (fun _ => ⟨0, rfl, le_refl 0, by norm_num, fun h => absurd h (Nat.not_lt_zero _)⟩)
    (fun i j k r hP hle => by
      obtain ⟨q, hq, hq0, hq1, hqL⟩ := hP (by omega)
      obtain ⟨m1, hx, hx1⟩ := ha i j k
      obtain ⟨m2, hy, hy1⟩ := hb i j k
      rw [hq]
      obtain ⟨r', hr', hr0, hr1, hrl, hrd⟩ := distanceStep32_cells a b i j k _ _ q
        (64 * i.val + 8 * j.val + k.val) hx hy (by positivity) hx1 (by positivity) hy1
        (by omega) hq0 hq1
      refine ⟨r', hr', hr0, hr1, ?_⟩
      intro hlt
      have hidx : (0 : ℚ) ≤ ((64 * i.val + 8 * j.val + k.val : Nat) : ℚ) := by positivity
      rcases Nat.lt_or_ge (64 * i0.val + 8 * j0.val + k0.val)
        (64 * i.val + 8 * j.val + k.val) with h1 | h1
      · have hL := hqL h1
        push_cast at hL hidx ⊢
        linarith
      · have hi0 := i0.isLt
        have hj0 := j0.isLt
        have hk0 := k0.isLt
        have hi := i.isLt
        have hj := j.isLt
        have hk := k.isLt
        have e1 : i = i0 := Fin.ext (by omega)
        have e2 : j = j0 := Fin.ext (by omega)
        have e3 : k = k0 := Fin.ext (by omega)
        rw [e1, e2, e3] at hx hy
        have hxy : (m1 : ℚ) * (2 : ℚ) ^ (-48 : Int) ≠ (m2 : ℚ) * (2 : ℚ) ^ (-48 : Int) := by
          intro he
          apply hne
          rw [hx, hy, he]
        have := hrd (grid_diff m1 m2 hxy)
        push_cast at hidx ⊢
        linarith)
  obtain ⟨q, hq, _, _, hL⟩ := key (le_refl 512)
  refine ⟨q, hq, ?_⟩
  have hi0 := i0.isLt
  have hj0 := j0.isLt
  have hk0 := k0.isLt
  have := hL (by omega)
  norm_num at this
  linarith

/-- For distributions with cells on the grid, `distance` is `0.0f` exactly when the cells
are identical (binary32). -/
theorem distance32_grid_zero_iff (a b : ColorDistribution32) (ha : GridCells a)
    (hb : GridCells b) :
    ColorDistribution32.distance binary32 a b = .fin 0
      ↔ ∀ i j k, a.data i j k = b.data i j k := by
  constructor
  · intro h i j k
    by_contra hne
    obtain ⟨q, hq, hpos⟩ := distance32_grid_pos a b ha hb i j k hne
    rw [hq] at h
    have := F32.fin.inj h
    linarith
  · intro h
    exact distance32_identical a b (fun i j k => by
      obtain ⟨m, hm, _⟩ := ha i j k
      exact ⟨_, hm⟩) h

theorem roundQ_grid (x : ℚ) (hx : (2 : ℚ) ^ (-24 : Int) ≤ x) :
    ∃ m : Nat, roundQ x = (m : ℚ) * (2 : ℚ) ^ (-48 : Int) := by
  have hpos : 0 < x := lt_of_lt_of_le (by positivity) hx
  have hne : x ≠ 0 := ne_of_gt hpos
  have hlo : (-24 : Int) ≤ Int.log 2 |x| := by
    rw [abs_of_pos hpos]
    exact (Int.zpow_le_iff_le_log (by norm_num : 1 < 2) hpos).mp (by exact_mod_cast hx)
  obtain ⟨N, hN⟩ : ∃ N : Nat, Int.log 2 |x| + 25 = (N : Int) :=
    ⟨(Int.log 2 |x| + 25).toNat, by rw [Int.toNat_of_nonneg (by omega)]⟩
  have hq : quantum x = (2 : ℚ) ^ N * (2 : ℚ) ^ (-48 : Int) := by
    unfold quantum
    rw [max_eq_left (by omega)]
    have e : Int.log 2 |x| - 23 = (N : Int) + (-48) := by omega
    rw [e, zpow_add₀ (by norm_num : (2 : ℚ) ≠ 0), zpow_natCast]
  have hqpos := quantum_pos x
  have hn0 : 0 ≤ roundHalfEven (x / quantum x) :=
    roundHalfEven_nonneg _ (div_nonneg (le_of_lt hpos) (le_of_lt hqpos))
  refine ⟨(roundHalfEven (x / quantum x)).toNat * 2 ^ N, ?_⟩
  have hcast : (((roundHalfEven (x / quantum x)).toNat : Nat) : ℚ)
      = (roundHalfEven (x / quantum x) : ℚ) := by
    have : (((roundHalfEven (x / quantum x)).toNat : Nat) : Int)
        = roundHalfEven (x / quantum x) := Int.toNat_of_nonneg hn0
    exact_mod_cast this
  unfold roundQ
  rw [if_neg hne]
  generalize roundHalfEven (x / quantum x) = n at hn0 hcast ⊢
  push_cast
  rw [hcast, hq]
  ring

/-- The sample of a non-empty region of at most `2^24` pixels inside the image has its
cells on the grid of the multiples of `2^-48` in `[0, 1]` (binary32). -/
theorem getColorDistribution32_grid (input : Mat) (pt1 pt2 : Point)
    (uninit : ColorDistribution32) (hin : RegionInside input pt1 pt2)
    (hN : (pt2.x - pt1.x) * (pt2.y - pt1.y) ≤ 2 ^ 24) :
    ∃ d, getColorDistribution32 binary32 input pt1 pt2 uninit = .ok d ∧ GridCells d := by
  obtain ⟨d, hd, _, hdata⟩ := getColorDistribution32_small input pt1 pt2 uninit hin hN
  refine ⟨d, hd, ?_⟩
  intro i j k
  rw [hdata]
  have hlen := regionColors_length_pos input pt1 pt2 hin
  have hlenI := length_regionColors_int input pt1 pt2 (le_of_lt hin.2.1)
    (le_of_lt hin.2.2.2.2.1)
  have hK : ((regionColors input pt1 pt2).length : ℚ) ≤ 16777216 := by
    have : ((regionColors input pt1 pt2).length : Int) ≤ 2 ^ 24 := by rw [hlenI]; exact hN
    have h2 : (regionColors input pt1 pt2).length ≤ 16777216 := by exact_mod_cast this
    exact_mod_cast h2
  have hpos : (0 : ℚ) < ((regionColors input pt1 pt2).length : ℚ) := by
    have : 0 < (regionColors input pt1 pt2).length := by omega
    exact_mod_cast this
  have hle : (cellCount input pt1 pt2 i j k : ℚ) ≤ ((regionColors input pt1 pt2).length : ℚ) := by
    exact_mod_cast cellCount_le input pt1 pt2 i j k
  have h0 : (0 : ℚ) ≤ (cellCount input pt1 pt2 i j k : ℚ)
      / ((regionColors input pt1 pt2).length : ℚ) := by positivity
  have h1 : (cellCount input pt1 pt2 i j k : ℚ)
      / ((regionColors input pt1 pt2).length : ℚ) ≤ 1 := by
    rw [div_le_one hpos]
    exact hle
  have a1 := roundQ_nonneg _ h0
  have a2 := roundQ_le_one _ h0 h1
  have hF : (1 : ℚ) ≤ FLT_MAX := by
    unfold FLT_MAX
    norm_num
  have hfin : binary32 ((cellCount input pt1 pt2 i j k : ℚ)
      / ((regionColors input pt1 pt2).length : ℚ))
      = .fin (roundQ ((cellCount input pt1 pt2 i j k : ℚ)
      / ((regionColors input pt1 pt2).length : ℚ))) :=
    ofRat_eq_fin _ (by linarith) (by linarith)
  rw [hfin]
  rcases Nat.eq_zero_or_pos (cellCount input pt1 pt2 i j k) with hc | hc
  · refine ⟨0, ?_, by norm_num⟩
    rw [hc]
    simp [roundQ_zero]
  · have hc1 : (1 : ℚ) ≤ (cellCount input pt1 pt2 i j k : ℚ) := by exact_mod_cast hc
    have hx : (2 : ℚ) ^ (-24 : Int) ≤ (cellCount input pt1 pt2 i j k : ℚ)
        / ((regionColors input pt1 pt2).length : ℚ) := by
      rw [le_div_iff₀ hpos]
      have e24 : (2 : ℚ) ^ (-24 : Int) = 1 / 16777216 := by norm_num
      rw [e24]
      linarith
    obtain ⟨m, hm⟩ := roundQ_grid _ hx
    exact ⟨m, by rw [hm], by rw [← hm]; exact a2⟩

theorem gridCells_spike32_one (i j k : Fin 8) (n : Int) : GridCells (spike32 i j k 1 n) := by
  intro a b c
  by_cases h : a = i ∧ b = j ∧ c = k
  · obtain ⟨h1, h2, h3⟩ := h
    rw [h1, h2, h3]
    refine ⟨281474976710656, ?_, ?_⟩
    · rw [spike32_data_self]
      norm_num
    · norm_num
  · refine ⟨0, ?_, ?_⟩
    · rw [spike32_data_other i j k 1 n a b c h]
      norm_num
    · norm_num

theorem gridCells_lift_oneHot (i j k : Fin 8) (n : Int) : GridCells (lift (oneHot i j k n)) := by
  rw [lift_oneHot]
  exact gridCells_spike32_one i j k n

/-- C6 (amended): for all distributions `a` and `b` with finite cells that hold identical
cell values, `a.distance(b) = 0`, and `a.distance(a) = 0`; for all distributions `c` and
`e` whose cells are whole multiples of `2^-48` in `[0, 1]`, `c.distance(e) = 0` if and only
if `c` and `e` hold identical cell values, and every distribution returned by
`getColorDistribution` on a non-empty in-bounds region of at most `2^24` pixels has such
cells (all in binary32); and, reading the `float` arithmetic as exact, for all
distributions `x` and `y` with non-negative cells `x.distance(y) = 0` if and only if `x`
and `y` hold identical cell values. -/
theorem distance_zero_identical (a b c e : ColorDistribution32) (x y : ColorDistribution)
    (hfin : ∀ i j k, ∃ q, a.data i j k = .fin q)
    (hab : ∀ i j k, a.data i j k = b.data i j k)
    (hc : GridCells c) (he : GridCells e)
    (hx : NonNeg x) (hy : NonNeg y) :
    ColorDistribution32.distance binary32 a b = .fin 0 ∧
    ColorDistribution32.distance binary32 a a = .fin 0 ∧
    (ColorDistribution32.distance binary32 c e = .fin 0
      ↔ ∀ i j k, c.data i j k = e.data i j k) ∧
    (∀ (input : Mat) (pt1 pt2 : Point) (uninit : ColorDistribution32),
      RegionInside input pt1 pt2 → (pt2.x - pt1.x) * (pt2.y - pt1.y) ≤ 2 ^ 24 →
      ∃ d, getColorDistribution32 binary32 input pt1 pt2 uninit = .ok d ∧ GridCells d) ∧
    (ColorDistribution32.distance exactReading (lift x) (lift y) = .fin 0
      ↔ ∀ i j k, x.data i j k = y.data i j k) := by
  refine ⟨distance32_identical a b hfin hab, distance32_identical a a hfin (fun _ _ _ => rfl),
    distance32_grid_zero_iff c e hc he,
    fun input pt1 pt2 uninit hin hN => getColorDistribution32_grid input pt1 pt2 uninit hin hN,
    ?_⟩
  rw [distance32_exact]
  constructor
  · intro h i j k
    have h0 : chiSquare x y = 0 := F32.fin.inj h
    rw [(chiSquare_eq_zero_iff x y hx hy).mp h0]
  · intro h
    have hd : x.data = y.data := by
      funext i j k
      exact h i j k
    rw [(chiSquare_eq_zero_iff x y hx hy).mpr hd]

/-- C6 (amended), witness: the one-cell distribution at `[0][0][0]` against itself and
against the one-cell distribution at `[7][0][0]`, in binary32 and in the exact reading. -/
theorem distance_zero_identical_witness :
    ColorDistribution32.distance binary32 (lift (oneHot 0 0 0 1)) (lift (oneHot 0 0 0 4))
      = .fin 0 ∧
    ColorDistribution32.distance binary32 (lift (oneHot 0 0 0 1)) (lift (oneHot 0 0 0 1))
      = .fin 0 ∧
    (ColorDistribution32.distance binary32 (lift (oneHot 0 0 0 1)) (lift (oneHot 7 0 0 1))
        = .fin 0
      ↔ ∀ i j k, (lift (oneHot 0 0 0 1)).data i j k = (lift (oneHot 7 0 0 1)).data i j k) ∧
    (∀ (input : Mat) (pt1 pt2 : Point) (uninit : ColorDistribution32),
      RegionInside input pt1 pt2 → (pt2.x - pt1.x) * (pt2.y - pt1.y) ≤ 2 ^ 24 →
      ∃ d, getColorDistribution32 binary32 input pt1 pt2 uninit = .ok d ∧ GridCells d) ∧
    (ColorDistribution32.distance exactReading (lift (oneHot 0 0 0 1)) (lift (oneHot 7 0 0 1))
        = .fin 0
      ↔ ∀ i j k, (oneHot 0 0 0 1).data i j k = (oneHot 7 0 0 1).data i j k) :=
  distance_zero_identical (lift (oneHot 0 0 0 1)) (lift (oneHot 0 0 0 4))
    (lift (oneHot 0 0 0 1)) (lift (oneHot 7 0 0 1)) (oneHot 0 0 0 1) (oneHot 7 0 0 1)
    (fun i j k => ⟨(oneHot 0 0 0 1).data i j k, rfl⟩) (fun _ _ _ => rfl)
    (gridCells_lift_oneHot 0 0 0 1) (gridCells_lift_oneHot 7 0 0 1)
    (nonNeg_oneHot 0 0 0 1) (nonNeg_oneHot 7 0 0 1)

end TP4
